import Mathlib

/-!
# Scrollable list layout (`layout/list.go`)

A shallow embedding of the virtualised list of `layout/list.go` and proofs about it.

Modelling conventions.

* Go `int` values are modelled twice.  The definitions named as in `list.go` compute on
  mathematical integers (`Int`): they are the code as long as no operation leaves the
  machine range.  The definitions with the suffix `64` (`update64`, `nextDir64`, …,
  `Layout64`) are the same code with every `+`, `-` and `++`, `--` wrapped to 64 bits
  two's complement by `wrap64`, as Go does on a 64 bit platform.  The statements that
  depend on the size of the scroll offset or of the scroll distance are made about the
  second family.
* A Go method with a pointer receiver becomes a function returning the updated list.
* A Go `panic` becomes `Except.error`; the fill loop of `Layout` is run with a fuel
  argument and reports `Fault.outOfFuel` when the fuel does not suffice.
* The operation list (`op.Ops`) is modelled by what `layout` appends to it: one
  `PlacedChild` per drawn child.  A recorded child (`op.CallOp`) is a value of an
  abstract type `κ` that the element callback returns next to its dimensions.
* The scroll gesture is modelled at its interface: the delta that `scroll.Scroll`
  returns in a frame is carried by the `Context`, and a call of `scroll.Stop` is
  reported in the `Frame` that `layout` returns.
-/

namespace GioLayout

/-- Point mirrors `image.Point`. -/
structure Point where
  X : Int
  Y : Int
deriving DecidableEq, Repr

/-- Rectangle mirrors `image.Rectangle`. -/
structure Rectangle where
  Min : Point
  Max : Point
deriving DecidableEq, Repr

/-- Modelled from the spec: the layout axis, `Axis ∈ {Horizontal, Vertical}`
(its declaration is in a file of the package that is not part of the sources here). -/
inductive Axis where
  | Horizontal
  | Vertical
deriving DecidableEq, Repr

/-- Modelled from the spec: the cross axis alignment, `Alignment ∈ {Start, End, Middle}`
(its declaration is in a file of the package that is not part of the sources here). -/
inductive Alignment where
  | Start
  | End
  | Middle
deriving DecidableEq, Repr

/-- Modelled from the spec: layout constraints, a minimum and a maximum size. -/
structure Constraints where
  Min : Point
  Max : Point
deriving DecidableEq, Repr

/-- Dimensions mirrors `layout.Dimensions` (as used by `text/measure.go`). -/
structure Dimensions where
  Size : Point
  Baseline : Int
deriving DecidableEq, Repr

/-- Context is the part of `layout.Context` that the list reads: the constraints and
the scroll distance that the scroll gesture reports for this frame. -/
structure Context where
  Constraints : Constraints
  delta : Int
deriving DecidableEq, Repr

/-- Modelled from the spec: `axisPoint`, the coordinate swap from (main, cross). -/
def axisPoint (a : Axis) (main cross : Int) : Point :=
  match a with
  | .Horizontal => ⟨main, cross⟩
  | .Vertical => ⟨cross, main⟩

/-- Modelled from the spec: `axisMain`, the main axis extent of a size. -/
def axisMain (a : Axis) (sz : Point) : Int :=
  match a with
  | .Horizontal => sz.X
  | .Vertical => sz.Y

/-- Modelled from the spec: `axisCross`, the cross axis extent of a size. -/
def axisCross (a : Axis) (sz : Point) : Int :=
  match a with
  | .Horizontal => sz.Y
  | .Vertical => sz.X

/-- Modelled from the spec: `axisMainConstraint`, the (min, max) main axis constraint. -/
def axisMainConstraint (a : Axis) (cs : Constraints) : Int × Int :=
  match a with
  | .Horizontal => (cs.Min.X, cs.Max.X)
  | .Vertical => (cs.Min.Y, cs.Max.Y)

/-- Modelled from the spec: `axisCrossConstraint`, the (min, max) cross axis constraint. -/
def axisCrossConstraint (a : Axis) (cs : Constraints) : Int × Int :=
  match a with
  | .Horizontal => (cs.Min.Y, cs.Max.Y)
  | .Vertical => (cs.Min.X, cs.Max.X)

/-- Modelled from the spec: `axisConstraints`, constraints from main and cross ranges. -/
def axisConstraints (a : Axis) (mainMin mainMax crossMin crossMax : Int) : Constraints :=
  match a with
  | .Horizontal => ⟨⟨mainMin, crossMin⟩, ⟨mainMax, crossMax⟩⟩
  | .Vertical => ⟨⟨crossMin, mainMin⟩, ⟨crossMax, mainMax⟩⟩

/-- The constant `inf` of `list.go`. -/
def inf : Int := 1000000

/-- A built child: its size and its recorded operations. -/
structure scrollChild (κ : Type) where
  size : Point
  call : κ
deriving DecidableEq, Repr

/-- ListElement computes the dimensions of a list element; the second component is
the recording of the operations the element emitted. -/
abbrev ListElement (κ : Type) := Context → Int → Dimensions × κ

/-- The iteration direction. -/
inductive iterationDir where
  | iterateNone
  | iterateForward
  | iterateBackward
deriving DecidableEq, Repr

open iterationDir

/-- Position is a list scroll offset represented as an offset from the top edge of a
child element. -/
structure Position where
  BeforeEnd : Bool
  First : Int
  Offset : Int
deriving DecidableEq, Repr

/-- The state of a `List` of `list.go`, without the gesture field. -/
structure LayoutList (κ : Type) where
  Axis : Axis
  ScrollToEnd : Bool
  Alignment : Alignment
  cs : Constraints
  scrollDelta : Int
  Position : Position
  len : Int
  maxSize : Int
  children : List (scrollChild κ)
  dir : iterationDir
deriving DecidableEq, Repr

/-- The ways in which a run of the model stops without a result: the three panics of
`list.go`, and the exhaustion of the fuel given to the fill loop. -/
inductive Fault where
  | unfinishedChild
  | indexBeforeNext
  | nextBeforeEnd
  | outOfFuel
deriving DecidableEq, Repr

/-- One child as `layout` draws it: the clip rectangle, the offset and the call. -/
structure PlacedChild (κ : Type) where
  clip : Rectangle
  offset : Point
  call : κ
deriving DecidableEq, Repr

/-- What one call of `layout` produces besides the updated list: the returned
dimensions, the drawn children, whether `scroll.Stop` was called, and the values the
local variables `children` and `pos` hold after the placement loop. -/
structure Frame (κ : Type) where
  dims : Dimensions
  placed : List (PlacedChild κ)
  stopped : Bool
  children : List (scrollChild κ)
  pos : Int
  built : List Int
deriving DecidableEq, Repr

namespace LayoutList

variable {κ : Type}

/-- Method `more` reports whether more children are needed. -/
def more (l : LayoutList κ) : Bool :=
  l.dir != iterateNone

/-- Method `scrollToEnd`. -/
def scrollToEnd (l : LayoutList κ) : Bool :=
  l.ScrollToEnd && !l.Position.BeforeEnd

/-- Method `update`: reads the scroll distance and adds it to the offset. -/
def update (l : LayoutList κ) (gtx : Context) : LayoutList κ :=
  let d := gtx.delta
  { l with scrollDelta := d, Position := { l.Position with Offset := l.Position.Offset + d } }

/-- Method `init` prepares the list for iterating through its children with `next`. -/
def init (l : LayoutList κ) (gtx : Context) (len : Int) : Except Fault (LayoutList κ) :=
  if l.more then .error .unfinishedChild
  else
    let l := { l with cs := gtx.Constraints, maxSize := 0, children := [], len := len }
    let l := l.update gtx
    if l.scrollToEnd || l.Position.First > len then
      .ok { l with Position := { l.Position with Offset := 0, First := len } }
    else .ok l

/-- Method `nextDir`: clamps the offset and decides the next direction. -/
def nextDir (l : LayoutList κ) : LayoutList κ × iterationDir :=
  let vsize := (axisMainConstraint l.Axis l.cs).2
  let last := l.Position.First + l.children.length
  let l := if l.maxSize - l.Position.Offset < vsize ∧ last = l.len then
      { l with Position := { l.Position with Offset := l.maxSize - vsize } }
    else l
  let l := if l.Position.Offset < 0 ∧ l.Position.First = 0 then
      { l with Position := { l.Position with Offset := 0 } }
    else l
  if (l.children.length : Int) = l.len then (l, iterateNone)
  else if l.maxSize - l.Position.Offset < vsize then (l, iterateForward)
  else if l.Position.Offset < 0 then (l, iterateBackward)
  else (l, iterateNone)

/-- Method `next` advances to the next child. -/
def next (l : LayoutList κ) : LayoutList κ :=
  let r := l.nextDir
  let l : LayoutList κ := { r.1 with dir := r.2 }
  if l.scrollToEnd && !l.more && decide (l.scrollDelta < 0) then
    let l : LayoutList κ := { l with Position :=
      { l.Position with BeforeEnd := true, Offset := l.Position.Offset + l.scrollDelta } }
    let r := l.nextDir
    { r.1 with dir := r.2 }
  else l

/-- Method `index` is the current child position in the underlying list. -/
def index (l : LayoutList κ) : Except Fault Int :=
  match l.dir with
  | iterateBackward => .ok (l.Position.First - 1)
  | iterateForward => .ok (l.Position.First + l.children.length)
  | iterateNone => .error .indexBeforeNext

/-- Method `end` of `list.go`: ends the current child by specifying its dimensions. -/
def end_ (l : LayoutList κ) (dims : Dimensions) (call : κ) : Except Fault (LayoutList κ) :=
  let child : scrollChild κ := ⟨dims.Size, call⟩
  let mainSize := axisMain l.Axis child.size
  let l := { l with maxSize := l.maxSize + mainSize }
  match l.dir with
  | iterateForward =>
    .ok { l with children := l.children ++ [child], dir := iterateNone }
  | iterateBackward =>
    .ok { l with
      children := child :: l.children
      Position := { l.Position with First := l.Position.First - 1,
                                    Offset := l.Position.Offset + mainSize }
      dir := iterateNone }
  | iterateNone => .error .nextBeforeEnd

/-- The body of the loop of `Layout` followed by its post statement `l.next()`:
returns the list and the index that was given to the element callback. -/
def fillStep (w : ListElement κ) (gtx : Context) (l : LayoutList κ) :
    Except Fault (LayoutList κ × Int) :=
  match l.index with
  | .error e => .error e
  | .ok i =>
    let r := w gtx i
    match l.end_ r.1 r.2 with
    | .error e => .error e
    | .ok l => .ok (l.next, i)

/-- At most `n` rounds of the loop `for l.next(); l.more(); l.next()` of `Layout`,
started after the initial `l.next()`: the list reached and the indices built, in order. -/
def fillIter (w : ListElement κ) (gtx : Context) :
    Nat → LayoutList κ → Except Fault (LayoutList κ × List Int)
  | 0, l => .ok (l, [])
  | n + 1, l =>
    if l.more then
      match fillStep w gtx l with
      | .error e => .error e
      | .ok (l1, i) =>
        match fillIter w gtx n l1 with
        | .error e => .error e
        | .ok (l2, tr) => .ok (l2, i :: tr)
    else .ok (l, [])

/-- The loop of `Layout` run to its end; `Fault.outOfFuel` when `fuel` rounds do not
reach a list that needs no more children. -/
def fillLoop (w : ListElement κ) (gtx : Context) (fuel : Nat) (l : LayoutList κ) :
    Except Fault (LayoutList κ × List Int) :=
  match fillIter w gtx fuel l with
  | .error e => .error e
  | .ok (l1, tr) => if l1.more then .error .outOfFuel else .ok (l1, tr)

/-- The loop "Skip invisible children" of `layout`. -/
def skipInvisible (a : GioLayout.Axis) : GioLayout.Position → List (scrollChild κ) → GioLayout.Position × List (scrollChild κ)
  | p, [] => (p, [])
  | p, c :: cs =>
    let mainSize := axisMain a c.size
    if p.Offset ≤ mainSize then (p, c :: cs)
    else skipInvisible a { p with First := p.First + 1, Offset := p.Offset - mainSize } cs

/-- The second loop of `layout`: accumulates `size` and `maxCross` and cuts the
children after the first one at which `size` reaches `mainMax`. -/
def trimTrailing (a : GioLayout.Axis) (mainMax : Int) :
    Int → Int → List (scrollChild κ) → Int × Int × List (scrollChild κ)
  | size, maxCross, [] => (size, maxCross, [])
  | size, maxCross, c :: cs =>
    let maxCross := if axisCross a c.size > maxCross then axisCross a c.size else maxCross
    let size := size + axisMain a c.size
    if size ≥ mainMax then (size, maxCross, [c])
    else
      let r := trimTrailing a mainMax size maxCross cs
      (r.1, r.2.1, c :: r.2.2)

/-- The third loop of `layout`: places the children one after the other from `pos`. -/
def place (a : GioLayout.Axis) (al : GioLayout.Alignment) (mainMax maxCross : Int) :
    Int → List (scrollChild κ) → List (PlacedChild κ) × Int
  | pos, [] => ([], pos)
  | pos, child :: cs =>
    let sz := child.size
    let cross : Int :=
      match al with
      | .End => maxCross - axisCross a sz
      | .Middle => (maxCross - axisCross a sz).tdiv 2
      | .Start => 0
    let childSize := axisMain a sz
    let max := childSize + pos
    let max := if max > mainMax then mainMax else max
    let min := pos
    let min := if min < 0 then 0 else min
    let r : Rectangle := ⟨axisPoint a min (-inf), axisPoint a max inf⟩
    let rest := place a al mainMax maxCross (pos + childSize) cs
    (⟨r, axisPoint a pos cross, child.call⟩ :: rest.1, rest.2)

/-- Method `layout`: lays out the list and returns its dimensions. The argument
`built` is the list of the indices built in the frame, passed on to the `Frame`. -/
def layout (l : LayoutList κ) (built : List Int) : Except Fault (LayoutList κ × Frame κ) :=
  if l.more then .error .unfinishedChild
  else
    let mainMin := (axisMainConstraint l.Axis l.cs).1
    let mainMax := (axisMainConstraint l.Axis l.cs).2
    let sk := skipInvisible l.Axis l.Position l.children
    let l : LayoutList κ := { l with Position := sk.1 }
    let tt := trimTrailing l.Axis mainMax (-l.Position.Offset) 0 sk.2
    let size := tt.1
    let maxCross := tt.2.1
    let children := tt.2.2
    let pos := -l.Position.Offset
    let space := mainMax - size
    let pos := if l.ScrollToEnd ∧ space > 0 then pos + space else pos
    let pl := place l.Axis l.Alignment mainMax maxCross pos children
    let pos := pl.2
    let atStart := decide (l.Position.First = 0) && decide (l.Position.Offset ≤ 0)
    let atEnd := decide (l.Position.First + children.length = l.len) && decide (mainMax ≥ pos)
    let stopped := (atStart && decide (l.scrollDelta < 0)) || (atEnd && decide (l.scrollDelta > 0))
    let l : LayoutList κ := { l with Position := { l.Position with BeforeEnd := !atEnd } }
    let pos1 := if pos < mainMin then mainMin else pos
    let pos2 := if pos1 > mainMax then mainMax else pos1
    let dims := axisPoint l.Axis pos2 maxCross
    .ok (l, ⟨⟨dims, 0⟩, pl.1, stopped, children, pos, built⟩)

/-- Method `Layout`: lays out the list, building children with `w`. -/
def Layout (fuel : Nat) (l : LayoutList κ) (gtx : Context) (len : Int) (w : ListElement κ) :
    Except Fault (LayoutList κ × Frame κ) :=
  match l.init gtx len with
  | .error e => .error e
  | .ok l =>
    let cross := axisCrossConstraint l.Axis gtx.Constraints
    let gtx := { gtx with Constraints := axisConstraints l.Axis 0 inf cross.1 cross.2 }
    match fillLoop w gtx fuel l.next with
    | .error e => .error e
    | .ok (l, built) => l.layout built

/-! ### The same methods on 64 bit integers -/

/-- The least value of a Go `int` on a 64 bit platform. -/
def minInt64 : Int := -9223372036854775808

/-- The greatest value of a Go `int` on a 64 bit platform. -/
def maxInt64 : Int := 9223372036854775807

/-- The result that Go stores in an `int` for an operation whose mathematical result is
`x`: `x` wrapped to 64 bits two's complement. -/
def wrap64 (x : Int) : Int :=
  (x + 9223372036854775808) % 18446744073709551616 - 9223372036854775808

/-- Method `update` on 64 bit integers: `l.Position.Offset += d` wraps. -/
def update64 (l : LayoutList κ) (gtx : Context) : LayoutList κ :=
  let d := gtx.delta
  { l with scrollDelta := d,
           Position := { l.Position with Offset := wrap64 (l.Position.Offset + d) } }

/-- Method `init` on 64 bit integers. -/
def init64 (l : LayoutList κ) (gtx : Context) (len : Int) : Except Fault (LayoutList κ) :=
  if l.more then .error .unfinishedChild
  else
    let l := { l with cs := gtx.Constraints, maxSize := 0, children := [], len := len }
    let l := l.update64 gtx
    if l.scrollToEnd || l.Position.First > len then
      .ok { l with Position := { l.Position with Offset := 0, First := len } }
    else .ok l

/-- Method `nextDir` on 64 bit integers. -/
def nextDir64 (l : LayoutList κ) : LayoutList κ × iterationDir :=
  let vsize := (axisMainConstraint l.Axis l.cs).2
  let last := wrap64 (l.Position.First + l.children.length)
  let l := if wrap64 (l.maxSize - l.Position.Offset) < vsize ∧ last = l.len then
      { l with Position := { l.Position with Offset := wrap64 (l.maxSize - vsize) } }
    else l
  let l := if l.Position.Offset < 0 ∧ l.Position.First = 0 then
      { l with Position := { l.Position with Offset := 0 } }
    else l
  if (l.children.length : Int) = l.len then (l, iterateNone)
  else if wrap64 (l.maxSize - l.Position.Offset) < vsize then (l, iterateForward)
  else if l.Position.Offset < 0 then (l, iterateBackward)
  else (l, iterateNone)

/-- Method `next` on 64 bit integers. -/
def next64 (l : LayoutList κ) : LayoutList κ :=
  let r := l.nextDir64
  let l : LayoutList κ := { r.1 with dir := r.2 }
  if l.scrollToEnd && !l.more && decide (l.scrollDelta < 0) then
    let l : LayoutList κ := { l with Position :=
      { l.Position with BeforeEnd := true,
                        Offset := wrap64 (l.Position.Offset + l.scrollDelta) } }
    let r := l.nextDir64
    { r.1 with dir := r.2 }
  else l

/-- Method `index` on 64 bit integers. -/
def index64 (l : LayoutList κ) : Except Fault Int :=
  match l.dir with
  | iterateBackward => .ok (wrap64 (l.Position.First - 1))
  | iterateForward => .ok (wrap64 (l.Position.First + l.children.length))
  | iterateNone => .error .indexBeforeNext

/-- Method `end` on 64 bit integers. -/
def end64 (l : LayoutList κ) (dims : Dimensions) (call : κ) : Except Fault (LayoutList κ) :=
  let child : scrollChild κ := ⟨dims.Size, call⟩
  let mainSize := axisMain l.Axis child.size
  let l := { l with maxSize := wrap64 (l.maxSize + mainSize) }
  match l.dir with
  | iterateForward =>
    .ok { l with children := l.children ++ [child], dir := iterateNone }
  | iterateBackward =>
    .ok { l with
      children := child :: l.children
      Position := { l.Position with First := wrap64 (l.Position.First - 1),
                                    Offset := wrap64 (l.Position.Offset + mainSize) }
      dir := iterateNone }
  | iterateNone => .error .nextBeforeEnd

/-- The body of the loop of `Layout` and its post statement, on 64 bit integers. -/
def fillStep64 (w : ListElement κ) (gtx : Context) (l : LayoutList κ) :
    Except Fault (LayoutList κ × Int) :=
  match l.index64 with
  | .error e => .error e
  | .ok i =>
    let r := w gtx i
    match l.end64 r.1 r.2 with
    | .error e => .error e
    | .ok l => .ok (l.next64, i)

/-- At most `n` rounds of the loop of `Layout`, on 64 bit integers. -/
def fillIter64 (w : ListElement κ) (gtx : Context) :
    Nat → LayoutList κ → Except Fault (LayoutList κ × List Int)
  | 0, l => .ok (l, [])
  | n + 1, l =>
    if l.more then
      match fillStep64 w gtx l with
      | .error e => .error e
      | .ok (l1, i) =>
        match fillIter64 w gtx n l1 with
        | .error e => .error e
        | .ok (l2, tr) => .ok (l2, i :: tr)
    else .ok (l, [])

/-- The loop of `Layout` run to its end, on 64 bit integers. -/
def fillLoop64 (w : ListElement κ) (gtx : Context) (fuel : Nat) (l : LayoutList κ) :
    Except Fault (LayoutList κ × List Int) :=
  match fillIter64 w gtx fuel l with
  | .error e => .error e
  | .ok (l1, tr) => if l1.more then .error .outOfFuel else .ok (l1, tr)

/-- The loop "Skip invisible children" of `layout`, on 64 bit integers. -/
def skipInvisible64 (a : GioLayout.Axis) : GioLayout.Position → List (scrollChild κ) → GioLayout.Position × List (scrollChild κ)
  | p, [] => (p, [])
  | p, c :: cs =>
    let mainSize := axisMain a c.size
    if p.Offset ≤ mainSize then (p, c :: cs)
    else skipInvisible64 a
      { p with First := wrap64 (p.First + 1), Offset := wrap64 (p.Offset - mainSize) } cs

/-- The second loop of `layout`, on 64 bit integers. -/
def trimTrailing64 (a : GioLayout.Axis) (mainMax : Int) :
    Int → Int → List (scrollChild κ) → Int × Int × List (scrollChild κ)
  | size, maxCross, [] => (size, maxCross, [])
  | size, maxCross, c :: cs =>
    let maxCross := if axisCross a c.size > maxCross then axisCross a c.size else maxCross
    let size := wrap64 (size + axisMain a c.size)
    if size ≥ mainMax then (size, maxCross, [c])
    else
      let r := trimTrailing64 a mainMax size maxCross cs
      (r.1, r.2.1, c :: r.2.2)

/-- The third loop of `layout`, on 64 bit integers. -/
def place64 (a : GioLayout.Axis) (al : GioLayout.Alignment) (mainMax maxCross : Int) :
    Int → List (scrollChild κ) → List (PlacedChild κ) × Int
  | pos, [] => ([], pos)
  | pos, child :: cs =>
    let sz := child.size
    let cross : Int :=
      match al with
      | .End => wrap64 (maxCross - axisCross a sz)
      | .Middle => (wrap64 (maxCross - axisCross a sz)).tdiv 2
      | .Start => 0
    let childSize := axisMain a sz
    let max := wrap64 (childSize + pos)
    let max := if max > mainMax then mainMax else max
    let min := pos
    let min := if min < 0 then 0 else min
    let r : Rectangle := ⟨axisPoint a min (-inf), axisPoint a max inf⟩
    let rest := place64 a al mainMax maxCross (wrap64 (pos + childSize)) cs
    (⟨r, axisPoint a pos cross, child.call⟩ :: rest.1, rest.2)

/-- Method `layout` on 64 bit integers. -/
def layout64 (l : LayoutList κ) (built : List Int) : Except Fault (LayoutList κ × Frame κ) :=
  if l.more then .error .unfinishedChild
  else
    let mainMin := (axisMainConstraint l.Axis l.cs).1
    let mainMax := (axisMainConstraint l.Axis l.cs).2
    let sk := skipInvisible64 l.Axis l.Position l.children
    let l : LayoutList κ := { l with Position := sk.1 }
    let tt := trimTrailing64 l.Axis mainMax (wrap64 (-l.Position.Offset)) 0 sk.2
    let size := tt.1
    let maxCross := tt.2.1
    let children := tt.2.2
    let pos := wrap64 (-l.Position.Offset)
    let space := wrap64 (mainMax - size)
    let pos := if l.ScrollToEnd ∧ space > 0 then wrap64 (pos + space) else pos
    let pl := place64 l.Axis l.Alignment mainMax maxCross pos children
    let pos := pl.2
    let atStart := decide (l.Position.First = 0) && decide (l.Position.Offset ≤ 0)
    let atEnd := decide (wrap64 (l.Position.First + children.length) = l.len) &&
      decide (mainMax ≥ pos)
    let stopped := (atStart && decide (l.scrollDelta < 0)) || (atEnd && decide (l.scrollDelta > 0))
    let l : LayoutList κ := { l with Position := { l.Position with BeforeEnd := !atEnd } }
    let pos1 := if pos < mainMin then mainMin else pos
    let pos2 := if pos1 > mainMax then mainMax else pos1
    let dims := axisPoint l.Axis pos2 maxCross
    .ok (l, ⟨⟨dims, 0⟩, pl.1, stopped, children, pos, built⟩)

/-- Method `Layout` on 64 bit integers. -/
def Layout64 (fuel : Nat) (l : LayoutList κ) (gtx : Context) (len : Int) (w : ListElement κ) :
    Except Fault (LayoutList κ × Frame κ) :=
  match l.init64 gtx len with
  | .error e => .error e
  | .ok l =>
    let cross := axisCrossConstraint l.Axis gtx.Constraints
    let gtx := { gtx with Constraints := axisConstraints l.Axis 0 inf cross.1 cross.2 }
    match fillLoop64 w gtx fuel l.next64 with
    | .error e => .error e
    | .ok (l, built) => l.layout64 built

/-! ## Definitions used by the statements and the proofs -/

/-- The main axis size that the element `w` reports for index `i`. -/
def sizeAt (a : GioLayout.Axis) (w : ListElement κ) (g : Context) (i : Int) : Int :=
  axisMain a (w g i).1.Size

/-- The child that `end` records for the element built at index `i`. -/
def childAt (w : ListElement κ) (g : Context) (i : Int) : scrollChild κ :=
  ⟨(w g i).1.Size, (w g i).2⟩

/-- The children built for the `n` consecutive indices from `F` on. -/
def window (w : ListElement κ) (g : Context) (F : Int) (n : Nat) : List (scrollChild κ) :=
  (List.range n).map (fun (j : Nat) => childAt w g (F + j))

/-- The sum of `s` over the `n` consecutive indices from `F` on. -/
def wsum (s : Int → Int) (F : Int) : Nat → Int
  | 0 => 0
  | n + 1 => wsum s F n + s (F + (n : Int))

/-- The context that `Layout` hands to the element callback. -/
def childContext (a : GioLayout.Axis) (gtx : Context) : Context :=
  let cross := axisCrossConstraint a gtx.Constraints
  { gtx with Constraints := axisConstraints a 0 inf cross.1 cross.2 }

/-- The viewport size along the main axis, `vsize` in `nextDir` and `mainMax` in `layout`. -/
def vsize (l : LayoutList κ) : Int := (axisMainConstraint l.Axis l.cs).2

/-- The offset that `nextDir` leaves in the position. -/
def offNext (l : LayoutList κ) : Int :=
  let o1 := if l.maxSize - l.Position.Offset < l.vsize ∧
      l.Position.First + (l.children.length : Int) = l.len then l.maxSize - l.vsize
    else l.Position.Offset
  if o1 < 0 ∧ l.Position.First = 0 then 0 else o1

/-- The direction that `nextDir` returns. -/
def dirNext (l : LayoutList κ) : iterationDir :=
  if (l.children.length : Int) = l.len then iterateNone
  else if l.maxSize - l.offNext < l.vsize then iterateForward
  else if l.offNext < 0 then iterateBackward
  else iterateNone

/-- The list after the first `nextDir` of `next`. -/
def next1 (l : LayoutList κ) : LayoutList κ :=
  { l with Position := { l.Position with Offset := l.offNext }, dir := l.dirNext }

/-- The list on which `next` calls `nextDir` for the second time. -/
def next2 (l : LayoutList κ) : LayoutList κ :=
  { l with Position := { l.Position with BeforeEnd := true, Offset := l.offNext + l.scrollDelta },
           dir := l.dirNext }

/-- The facts that one `nextDir` establishes about direction and offset. -/
structure Post (l : LayoutList κ) : Prop where
  fwd : l.dir = iterateForward → l.Position.First + (l.children.length : Int) < l.len ∧
    l.maxSize - l.Position.Offset < l.vsize
  bwd : l.dir = iterateBackward → 0 < l.Position.First ∧ l.Position.Offset < 0 ∧
    l.vsize ≤ l.maxSize - l.Position.Offset
  fin : l.dir = iterateNone → 0 ≤ l.Position.Offset ∧
    (l.vsize ≤ l.maxSize - l.Position.Offset ∨
      ((l.children.length : Int) = l.len ∧ l.Position.Offset = 0))

/-- The list after `end` in the forward direction, for the element built by `w`. -/
def afterForward (w : ListElement κ) (g : Context) (l : LayoutList κ) : LayoutList κ :=
  { l with
    maxSize := l.maxSize + sizeAt l.Axis w g (l.Position.First + (l.children.length : Int))
    children := l.children ++ [childAt w g (l.Position.First + (l.children.length : Int))]
    dir := iterateNone }

/-- The list after `end` in the backward direction, for the element built by `w`. -/
def afterBackward (w : ListElement κ) (g : Context) (l : LayoutList κ) : LayoutList κ :=
  { l with
    maxSize := l.maxSize + sizeAt l.Axis w g (l.Position.First - 1)
    children := childAt w g (l.Position.First - 1) :: l.children
    Position := { l.Position with First := l.Position.First - 1,
                                  Offset := l.Position.Offset + sizeAt l.Axis w g (l.Position.First - 1) }
    dir := iterateNone }

/-- The part of the list that `next` leaves alone. -/
structure SameCore (l l1 : LayoutList κ) : Prop where
  axis : l1.Axis = l.Axis
  ste : l1.ScrollToEnd = l.ScrollToEnd
  alignment : l1.Alignment = l.Alignment
  cs : l1.cs = l.cs
  scrollDelta : l1.scrollDelta = l.scrollDelta
  len : l1.len = l.len

/-- The fields that `nextDir` and `next` leave alone. -/
structure SameWindow (l l1 : LayoutList κ) extends SameCore l l1 : Prop where
  first : l1.Position.First = l.Position.First
  maxSize : l1.maxSize = l.maxSize
  children : l1.children = l.children

/-- The window invariant: the children are the elements built for the indices from
`Position.First` on, all of them indices of the list, and `maxSize` is their total size. -/
structure Struct (w : ListElement κ) (g : Context) (l : LayoutList κ) : Prop where
  first_nonneg : 0 ≤ l.Position.First
  last_le : l.Position.First + (l.children.length : Int) ≤ l.len
  children_eq : l.children = window w g l.Position.First l.children.length
  maxSize_eq : l.maxSize = wsum (sizeAt l.Axis w g) l.Position.First l.children.length

/-- The invariant of the fill loop, for the states reached after each `next`. -/
structure Good (w : ListElement κ) (g : Context) (l0 l : LayoutList κ) : Prop where
  same : SameCore l0 l
  struct : Struct w g l
  post : Post l

/-- The number of rounds the fill loop can still make. -/
def roundsLeft (l : LayoutList κ) : Nat := (l.len - (l.children.length : Int)).toNat

/-- The list that `init` returns when it does not panic. -/
def initOk (l : LayoutList κ) (gtx : Context) (len : Int) : LayoutList κ :=
  let l1 : LayoutList κ := { l with
    cs := gtx.Constraints, maxSize := 0, children := [], len := len, scrollDelta := gtx.delta
    Position := { l.Position with Offset := l.Position.Offset + gtx.delta } }
  if l.scrollToEnd = true ∨ l.Position.First > len then
    { l1 with Position := { l1.Position with Offset := 0, First := len } }
  else l1

/-- The total main axis size of a list of children. -/
def mainSum (a : GioLayout.Axis) (cs : List (scrollChild κ)) : Int :=
  (cs.map (fun c => axisMain a c.size)).sum

/-- The position and the children after the loop "Skip invisible children" of `layout`. -/
def finSkip (l : LayoutList κ) : GioLayout.Position × List (scrollChild κ) :=
  skipInvisible l.Axis l.Position l.children

/-- The values of `size`, `maxCross` and `children` after the second loop of `layout`. -/
def finTrim (l : LayoutList κ) : Int × Int × List (scrollChild κ) :=
  trimTrailing l.Axis l.vsize (-l.finSkip.1.Offset) 0 l.finSkip.2

/-- The position at which `layout` places the first child. -/
def finStart (l : LayoutList κ) : Int :=
  if l.ScrollToEnd = true ∧ l.vsize - l.finTrim.1 > 0
  then -l.finSkip.1.Offset + (l.vsize - l.finTrim.1) else -l.finSkip.1.Offset

/-- The placed children and the final value of `pos` of the third loop of `layout`. -/
def finPlace (l : LayoutList κ) : List (PlacedChild κ) × Int :=
  place l.Axis l.Alignment l.vsize l.finTrim.2.1 l.finStart l.finTrim.2.2

/-- The value of `atEnd` in `layout`. -/
def finAtEnd (l : LayoutList κ) : Bool :=
  decide (l.finSkip.1.First + (l.finTrim.2.2.length : Int) = l.len) &&
    decide (l.vsize ≥ l.finPlace.2)

/-- The children `cs` are the elements that `w` builds for the consecutive indices from
`F` on: the child at place `i` is the one built for index `F + i`. -/
def Contiguous (w : ListElement κ) (g : Context) (F : Int) (cs : List (scrollChild κ)) : Prop :=
  ∀ (i : Nat) (h : i < cs.length),
    cs.get ⟨i, h⟩ = ⟨(w g (F + (i : Int))).1.Size, (w g (F + (i : Int))).2⟩

/-- The total size of all `N` items, `T` in the statements. -/
def totalSize (a : GioLayout.Axis) (w : ListElement κ) (g : Context) (N : Int) : Int :=
  wsum (sizeAt a w g) 0 N.toNat

/-- The state of the fill loop in a frame that scrolls past the end: either the offset
is still beyond the total size and the loop goes forward, or the window reaches the end
of the list and its trailing edge is on the trailing edge of the viewport. -/
def PastEnd (T : Int) (l : LayoutList κ) : Prop :=
  l.scrollToEnd = false ∧
  ((T ≤ l.Position.Offset ∧ l.dir = iterateForward) ∨
   (l.Position.First + (l.children.length : Int) = l.len ∧
     l.maxSize - l.Position.Offset = l.vsize ∧ (l.vsize = 0 → 0 < l.children.length)))

/-- An example list: vertical, aligned at the start, with the given `ScrollToEnd` and
position `⟨be, F, O⟩`, and no leftovers of an earlier frame. -/
def exListAt (ste be : Bool) (F O : Int) : LayoutList Int :=
  ⟨.Vertical, ste, .Start, ⟨⟨0, 0⟩, ⟨0, 0⟩⟩, 0, ⟨be, F, O⟩, 0, 0, [], iterateNone⟩

/-- An example list: vertical, not scrolled to the end, at the zero position. -/
def exList : LayoutList Int :=
  exListAt false false 0 0

/-- An example context: a viewport of width 100 and height `V`, scrolled by `d`. -/
def exContext (V d : Int) : Context :=
  ⟨⟨⟨0, 0⟩, ⟨100, V⟩⟩, d⟩

/-- An example element: every item is a square of side `s`, recorded as its index. -/
def exUniform (s : Int) : ListElement Int :=
  fun _ i => (⟨⟨s, s⟩, 0⟩, i)

/-- The position after a frame and the calls of the children kept, when the frame
returns. -/
def outcome {κ : Type} (r : Except Fault (LayoutList κ × Frame κ)) :
    Option (GioLayout.Position × List κ) :=
  match r with
  | .ok (l, f) => some (l.Position, f.children.map (fun c => c.call))
  | .error _ => none

/-- Two calls of `Layout` in succession with the same arguments: the position left and
the size returned by the first call and by the second call. -/
def twice {κ : Type} (fuel : Nat) (l : LayoutList κ) (gtx : Context) (len : Int)
    (w : ListElement κ) :
    Option ((GioLayout.Position × Point) × (GioLayout.Position × Point)) :=
  match Layout fuel l gtx len w with
  | .error _ => none
  | .ok (l1, f1) =>
    match Layout fuel l1 gtx len w with
    | .error _ => none
    | .ok (l2, f2) => some ((l1.Position, f1.dims.Size), (l2.Position, f2.dims.Size))

/-- An example list in the middle of a frame, as `end` leaves it: vertical, with the given
`ScrollToEnd`, position `⟨be, F, O⟩`, scroll delta `d`, viewport of main axis size `V` and
item count `len`, holding the `n` children of size 10 built for the indices from `F` on. -/
def exFilled (ste be : Bool) (F O d V len : Int) (n : Nat) : LayoutList Int :=
  ⟨.Vertical, ste, .Start, ⟨⟨0, 0⟩, ⟨100, V⟩⟩, d, ⟨be, F, O⟩, len, 10 * n,
    (List.range n).map (fun (j : Nat) => ⟨⟨10, 10⟩, F + j⟩), iterateNone⟩

/-- The list `tr` holds each of the `n` consecutive indices from `F` on exactly once. -/
def Enumerates (tr : List Int) (F : Int) (n : Nat) : Prop :=
  tr.length = n ∧ tr.Nodup ∧ ∀ i, i ∈ tr ↔ (F ≤ i ∧ i < F + (n : Int))

/-- The absolute scroll position of `p` for items of main axis sizes `s`: the total size
of the items before `p.First` plus `p.Offset`. -/
def absPos (s : Int → Int) (p : GioLayout.Position) : Int :=
  wsum s 0 p.First.toNat + p.Offset

/-- The invariant of the fill loop for the absolute scroll position of a list that is not
pinned to its end: the position is the target `A`, or it was clamped to `T - V` from
above, or it was clamped to 0 at the first item. -/
def Scrolled (s : Int → Int) (T V A : Int) (l : LayoutList κ) : Prop :=
  l.scrollToEnd = false ∧
    (absPos s l.Position = A ∨ (absPos s l.Position = T - V ∧ T - V ≤ A) ∨
      (absPos s l.Position = 0 ∧ l.Position.First = 0 ∧ (A ≤ 0 ∨ T - V ≤ 0)))

/-- The invariant of the fill loop of a list pinned to its end, for items of main axis
sizes `s`: the window ends at the end of the list, its trailing edge is on the trailing
edge of the viewport or the whole list is shorter than the viewport, and the first child
is not scrolled out. -/
def PinnedRun (s : Int → Int) (l : LayoutList κ) : Prop :=
  l.Position.First + (l.children.length : Int) = l.len ∧
  (l.maxSize - l.Position.Offset = l.vsize ∨
    (l.Position.First = 0 ∧ l.Position.Offset = 0 ∧ l.maxSize < l.vsize)) ∧
  (0 < l.children.length → l.Position.Offset ≤ s l.Position.First) ∧
  (l.children.length = 0 → l.Position.Offset < 0)

/-- An example element: the item `i` has the size at place `i` of `ss` (and the size
`(0, 0)` beyond), recorded as its index. -/
def exSizes (ss : List Point) : ListElement Int :=
  fun _ i => (⟨ss.getD i.toNat ⟨0, 0⟩, 0⟩, i)

/-- An example list: vertical, aligned in the middle, not scrolled to the end, at the zero
position. -/
def exMiddle : LayoutList Int :=
  ⟨.Vertical, false, .Middle, ⟨⟨0, 0⟩, ⟨0, 0⟩⟩, 0, ⟨false, 0, 0⟩, 0, 0, [], iterateNone⟩

/-- The cross axis offsets at which a frame draws its children, when the frame returns. -/
def crossOffsets {κ : Type} (a : GioLayout.Axis)
    (r : Except Fault (LayoutList κ × Frame κ)) : List Int :=
  match r with
  | .ok (_, f) => f.placed.map (fun p => axisCross a p.offset)
  | .error _ => []

/-- An example list with leftovers of an earlier frame: the configuration and the position
of `exList`, and other constraints, scroll delta, item count, `maxSize` and children. -/
def exDirty : LayoutList Int :=
  ⟨.Vertical, false, .Start, ⟨⟨1, 1⟩, ⟨9, 9⟩⟩, 5, ⟨false, 0, 0⟩, 7, 99, [⟨⟨1, 1⟩, 9⟩],
    iterateNone⟩

/-- The range assumptions on the items and the viewport under which the 64 bit arithmetic
of a frame does not wrap, for items of main axis sizes `s`, an item count `len` and a
viewport of main axis size `V`. -/
structure InRange (s : Int → Int) (len V : Int) : Prop where
  sizes : ∀ i, 0 ≤ i → i < len → 0 ≤ s i
  len_nonneg : 0 ≤ len
  len_fit : len ≤ maxInt64
  view : 0 ≤ V
  total : wsum s 0 len.toNat + V ≤ maxInt64

/-- A list that is not pinned to its end, whose scroll offset is a 64 bit integer other
than the least one and whose value of `maxSize - Position.Offset` does not exceed the
greatest one. -/
def Fits (l : LayoutList κ) : Prop :=
  l.scrollToEnd = false ∧ minInt64 < l.Position.Offset ∧ l.Position.Offset ≤ maxInt64 ∧
    l.maxSize - l.Position.Offset ≤ maxInt64

/-- The position that `init` leaves, when it returns. -/
def initPosition {κ : Type} (r : Except Fault (LayoutList κ)) : Option GioLayout.Position :=
  match r with
  | .ok l => some l.Position
  | .error _ => none

/-! ## Theorems -/

/-! ### Windows, sums and `nextDir` -/

theorem window_length (w : ListElement κ) (g : Context) (F : Int) (n : Nat) :
    (window w g F n).length = n := by
  simp [window]

theorem window_succ (w : ListElement κ) (g : Context) (F : Int) (n : Nat) :
    window w g F (n + 1) = window w g F n ++ [childAt w g (F + (n : Int))] := by
  simp [window, List.range_succ]

theorem window_cons (w : ListElement κ) (g : Context) (F : Int) (n : Nat) :
    window w g F (n + 1) = childAt w g F :: window w g (F + 1) n := by
  simp only [window, List.range_succ_eq_map, List.map_cons, List.map_map]
  congr 1
  · simp
  · apply List.map_congr_left
    intro j _
    simp only [Function.comp, Nat.cast_succ]
    congr 1
    ring

theorem wsum_cons (s : Int → Int) (F : Int) (n : Nat) :
    wsum s F (n + 1) = s F + wsum s (F + 1) n := by
  induction n with
  | zero => simp [wsum]
  | succ n ih =>
    rw [wsum, ih, wsum]
    have : F + 1 + (n : Int) = F + ((n + 1 : Nat) : Int) := by push_cast; ring
    rw [this]; ring

theorem wsum_nonneg (s : Int → Int) (F : Int) (n : Nat)
    (h : ∀ i, F ≤ i → i < F + (n : Int) → 0 ≤ s i) : 0 ≤ wsum s F n := by
  induction n with
  | zero => simp [wsum]
  | succ n ih =>
    rw [wsum]
    have h1 := ih (fun i h1 h2 => h i h1 (by push_cast; omega))
    have h2 := h (F + (n : Int)) (by omega) (by push_cast; omega)
    omega

theorem nextDir_eq (l : LayoutList κ) :
    l.nextDir = ({ l with Position := { l.Position with Offset := l.offNext } }, l.dirNext) := by
  unfold nextDir offNext dirNext offNext vsize
  simp only []
  split_ifs <;> simp_all

/-! ### The method `next` -/

theorem next_eq (l : LayoutList κ) :
    l.next = if l.scrollToEnd = true ∧ l.dirNext = iterateNone ∧ l.scrollDelta < 0
      then l.next2.next1 else l.next1 := by
  unfold next
  simp only [nextDir_eq, scrollToEnd, more, next1, next2]
  cases hd : l.dirNext <;> cases hs : l.ScrollToEnd <;> cases hb : l.Position.BeforeEnd <;>
    by_cases h3 : l.scrollDelta < 0 <;> simp [h3]

theorem next_of_not_pinned (l : LayoutList κ) (h : l.scrollToEnd = false) :
    l.next = l.next1 := by
  rw [next_eq]; simp [h]

theorem next1_post (l : LayoutList κ) (h0 : 0 ≤ l.Position.First)
    (h1 : l.Position.First + (l.children.length : Int) ≤ l.len) : Post l.next1 := by
  constructor
  all_goals
    simp only [next1, dirNext, offNext, vsize]
    split_ifs <;> simp <;> omega

/-! ### The invariant of the fill loop -/

theorem fillStep_forward (w : ListElement κ) (g : Context) (l : LayoutList κ)
    (h : l.dir = iterateForward) :
    fillStep w g l = .ok ((afterForward w g l).next,
      l.Position.First + (l.children.length : Int)) := by
  simp [fillStep, index, end_, h, afterForward, sizeAt, childAt]

theorem fillStep_backward (w : ListElement κ) (g : Context) (l : LayoutList κ)
    (h : l.dir = iterateBackward) :
    fillStep w g l = .ok ((afterBackward w g l).next, l.Position.First - 1) := by
  simp [fillStep, index, end_, h, afterBackward, sizeAt, childAt]

theorem more_iff (l : LayoutList κ) : l.more = true ↔ l.dir ≠ iterateNone := by
  simp [more]

theorem more_cases (l : LayoutList κ) (h : l.more = true) :
    l.dir = iterateForward ∨ l.dir = iterateBackward := by
  rw [more_iff] at h
  cases hd : l.dir <;> simp_all

theorem sameWindow_next1 (l : LayoutList κ) : SameWindow l l.next1 := by
  refine ⟨⟨?_, ?_, ?_, ?_, ?_, ?_⟩, ?_, ?_, ?_⟩ <;> rfl

theorem sameWindow_next2 (l : LayoutList κ) : SameWindow l l.next2 := by
  refine ⟨⟨?_, ?_, ?_, ?_, ?_, ?_⟩, ?_, ?_, ?_⟩ <;> rfl

theorem sameCore_trans {l l1 l2 : LayoutList κ} (h1 : SameCore l l1) (h2 : SameCore l1 l2) :
    SameCore l l2 :=
  ⟨h2.axis.trans h1.axis, h2.ste.trans h1.ste, h2.alignment.trans h1.alignment,
    h2.cs.trans h1.cs, h2.scrollDelta.trans h1.scrollDelta, h2.len.trans h1.len⟩

theorem sameWindow_trans {l l1 l2 : LayoutList κ} (h1 : SameWindow l l1)
    (h2 : SameWindow l1 l2) : SameWindow l l2 :=
  ⟨sameCore_trans h1.toSameCore h2.toSameCore, h2.first.trans h1.first, h2.maxSize.trans h1.maxSize,
    h2.children.trans h1.children⟩

theorem sameWindow_next (l : LayoutList κ) : SameWindow l l.next := by
  rw [next_eq]
  split_ifs
  · exact sameWindow_trans (sameWindow_next2 l) (sameWindow_next1 _)
  · exact sameWindow_next1 l

theorem sameCore_vsize {l l1 : LayoutList κ} (h : SameCore l l1) : l1.vsize = l.vsize := by
  simp [LayoutList.vsize, h.axis, h.cs]

theorem next_post (l : LayoutList κ) (h0 : 0 ≤ l.Position.First)
    (h1 : l.Position.First + (l.children.length : Int) ≤ l.len) : Post l.next := by
  rw [next_eq]
  split_ifs
  · have h := sameWindow_next2 l
    exact next1_post _ (by rw [h.first]; exact h0) (by rw [h.first, h.children, h.len]; exact h1)
  · exact next1_post l h0 h1

theorem struct_of_same {w : ListElement κ} {g : Context} {l l1 : LayoutList κ}
    (h : Struct w g l) (hs : SameWindow l l1) : Struct w g l1 := by
  obtain ⟨a, b, c, d⟩ := h
  constructor
  · rw [hs.first]; exact a
  · rw [hs.first, hs.children, hs.len]; exact b
  · rw [hs.first, hs.children]; exact c
  · rw [hs.first, hs.children, hs.maxSize, hs.axis]; exact d

theorem struct_afterForward {w : ListElement κ} {g : Context} {l : LayoutList κ}
    (h : Struct w g l) (hl : l.Position.First + (l.children.length : Int) < l.len) :
    Struct w g (afterForward w g l) := by
  obtain ⟨a, b, c, d⟩ := h
  constructor
  · exact a
  · simp only [afterForward, List.length_append, List.length_singleton]; push_cast; omega
  · simp only [afterForward, List.length_append, List.length_singleton]
    rw [window_succ, ← c]
  · simp only [afterForward, List.length_append, List.length_singleton]
    rw [wsum, ← d]

theorem struct_afterBackward {w : ListElement κ} {g : Context} {l : LayoutList κ}
    (h : Struct w g l) (hl : 0 < l.Position.First) :
    Struct w g (afterBackward w g l) := by
  obtain ⟨a, b, c, d⟩ := h
  constructor
  · simp only [afterBackward]; omega
  · simp only [afterBackward, List.length_cons]; push_cast; omega
  · simp only [afterBackward, List.length_cons]
    rw [window_cons]
    simp only [sub_add_cancel]
    rw [← c]
  · simp only [afterBackward, List.length_cons]
    rw [wsum_cons]
    simp only [sub_add_cancel]
    rw [← d]; ring

theorem good_next {w : ListElement κ} {g : Context} {l0 l : LayoutList κ}
    (hs : SameCore l0 l) (h : Struct w g l) : Good w g l0 l.next :=
  ⟨sameCore_trans hs (sameWindow_next l).toSameCore, struct_of_same h (sameWindow_next l),
    by
      exact next_post l h.first_nonneg h.last_le⟩

theorem sameCore_afterForward (w : ListElement κ) (g : Context) (l : LayoutList κ) :
    SameCore l (afterForward w g l) := by
  refine ⟨?_, ?_, ?_, ?_, ?_, ?_⟩ <;> rfl

theorem sameCore_afterBackward (w : ListElement κ) (g : Context) (l : LayoutList κ) :
    SameCore l (afterBackward w g l) := by
  refine ⟨?_, ?_, ?_, ?_, ?_, ?_⟩ <;> rfl

/-- One round of the fill loop keeps the invariant, builds a valid index and adds one
child. -/
theorem good_step {w : ListElement κ} {g : Context} {l0 l : LayoutList κ}
    (h : Good w g l0 l) (hm : l.more = true) :
    ∃ l1 i, fillStep w g l = .ok (l1, i) ∧ Good w g l0 l1 ∧
      l1.children.length = l.children.length + 1 ∧ 0 ≤ i ∧ i < l.len ∧
      (l1 = (afterForward w g l).next ∧ l.dir = iterateForward ∧
          i = l.Position.First + (l.children.length : Int) ∨
       l1 = (afterBackward w g l).next ∧ l.dir = iterateBackward ∧
          i = l.Position.First - 1) := by
  rcases more_cases l hm with hd | hd
  · refine ⟨_, _, fillStep_forward w g l hd, ?_, ?_, ?_, ?_, Or.inl ⟨rfl, hd, rfl⟩⟩
    · exact good_next (sameCore_trans h.same (sameCore_afterForward w g l))
        (struct_afterForward h.struct (h.post.fwd hd).1)
    · rw [(sameWindow_next _).children]; simp [afterForward]
    · have := h.struct.first_nonneg; omega
    · exact (h.post.fwd hd).1
  · refine ⟨_, _, fillStep_backward w g l hd, ?_, ?_, ?_, ?_, Or.inr ⟨rfl, hd, rfl⟩⟩
    · exact good_next (sameCore_trans h.same (sameCore_afterBackward w g l))
        (struct_afterBackward h.struct (h.post.bwd hd).1)
    · rw [(sameWindow_next _).children]; simp [afterBackward]
    · have := (h.post.bwd hd).1; omega
    · have := h.struct.last_le; omega

/-! ### The fill loop and `init` -/

theorem fillIter_zero (w : ListElement κ) (g : Context) (l : LayoutList κ) :
    fillIter w g 0 l = .ok (l, []) := rfl

theorem fillIter_done (w : ListElement κ) (g : Context) (n : Nat) (l : LayoutList κ)
    (h : l.more = false) : fillIter w g n l = .ok (l, []) := by
  cases n with
  | zero => rfl
  | succ n => simp [fillIter, h]

theorem fillIter_step (w : ListElement κ) (g : Context) (n : Nat) (l l1 l2 : LayoutList κ)
    (i : Int) (tr : List Int) (h : l.more = true) (h1 : fillStep w g l = .ok (l1, i))
    (h2 : fillIter w g n l1 = .ok (l2, tr)) :
    fillIter w g (n + 1) l = .ok (l2, i :: tr) := by
  simp [fillIter, h, h1, h2]

/-- The proof rule for the fill loop: a property of the list and of the indices built so
far that holds at the start and is kept by a forward and by a backward round holds
when the loop ends, and the loop ends within `roundsLeft` rounds. -/
theorem fillIter_rule (w : ListElement κ) (g : Context) (l0 : LayoutList κ)
    (I : LayoutList κ → List Int → Prop)
    (hfwd : ∀ l tr, Good w g l0 l → I l tr → l.dir = iterateForward →
      Good w g l0 (afterForward w g l).next →
      I (afterForward w g l).next (tr ++ [l.Position.First + (l.children.length : Int)]))
    (hbwd : ∀ l tr, Good w g l0 l → I l tr → l.dir = iterateBackward →
      Good w g l0 (afterBackward w g l).next →
      I (afterBackward w g l).next (tr ++ [l.Position.First - 1])) :
    ∀ (n : Nat) (l : LayoutList κ) (pre : List Int), Good w g l0 l → I l pre →
      ∃ l1 tr, fillIter w g n l = .ok (l1, tr) ∧ Good w g l0 l1 ∧ I l1 (pre ++ tr) ∧
        (roundsLeft l ≤ n → l1.dir = iterateNone) := by
  intro n
  induction n with
  | zero =>
    intro l pre hg hi
    refine ⟨l, [], rfl, hg, by simpa using hi, ?_⟩
    intro hr
    by_contra hd
    have hm : l.more = true := (more_iff l).2 hd
    have hb := hg.struct.last_le
    have hf := hg.struct.first_nonneg
    simp only [roundsLeft] at hr
    rcases more_cases l hm with h | h
    · have := (hg.post.fwd h).1; omega
    · have := (hg.post.bwd h).1; omega
  | succ n ih =>
    intro l pre hg hi
    by_cases hm : l.more = true
    · obtain ⟨l1, i, hstep, hg1, hlen, _, _, hcase⟩ := good_step hg hm
      have hi1 : I l1 (pre ++ [i]) := by
        rcases hcase with ⟨e1, hd, e2⟩ | ⟨e1, hd, e2⟩
        · rw [e1, e2]; rw [e1] at hg1; exact hfwd l pre hg hi hd hg1
        · rw [e1, e2]; rw [e1] at hg1; exact hbwd l pre hg hi hd hg1
      obtain ⟨l2, tr, hrun, hg2, hi2, hdone⟩ := ih l1 (pre ++ [i]) hg1 hi1
      refine ⟨l2, i :: tr, fillIter_step w g n l l1 l2 i tr hm hstep hrun, hg2,
        by simpa using hi2, ?_⟩
      intro hr
      apply hdone
      have e1 : l1.len = l.len := by rw [hg1.same.len, hg.same.len]
      simp only [roundsLeft, e1, hlen] at hr ⊢
      push_cast
      omega
    · have hm1 : l.more = false := by simpa using hm
      refine ⟨l, [], fillIter_done w g _ l hm1, hg, by simpa using hi, ?_⟩
      intro _
      simpa [more] using hm1

theorem fillLoop_of_fillIter (w : ListElement κ) (g : Context) (n : Nat)
    (l l1 : LayoutList κ) (tr : List Int) (h : fillIter w g n l = .ok (l1, tr))
    (hd : l1.dir = iterateNone) : fillLoop w g n l = .ok (l1, tr) := by
  simp [fillLoop, h, more, hd]

theorem init_eq (l : LayoutList κ) (gtx : Context) (len : Int) (h : l.dir = iterateNone) :
    l.init gtx len = .ok (l.initOk gtx len) := by
  simp only [init, more, h, update, initOk, scrollToEnd]
  by_cases h1 : l.Position.First > len <;> cases l.ScrollToEnd <;> cases l.Position.BeforeEnd <;>
    simp [h1]

theorem init_error (l : LayoutList κ) (gtx : Context) (len : Int) (h : l.dir ≠ iterateNone) :
    l.init gtx len = .error .unfinishedChild := by
  simp [init, more, h]

theorem Layout_eq (fuel : Nat) (l : LayoutList κ) (gtx : Context) (len : Int)
    (w : ListElement κ) (h : l.dir = iterateNone) :
    Layout fuel l gtx len w =
      match fillLoop w (childContext l.Axis gtx) fuel (l.initOk gtx len).next with
      | .error e => .error e
      | .ok (l1, built) => l1.layout built := by
  have ha : (l.initOk gtx len).Axis = l.Axis := by
    simp only [initOk]; split_ifs <;> rfl
  simp only [Layout, init_eq l gtx len h, ha, childContext]

theorem initOk_struct (w : ListElement κ) (g : Context) (l : LayoutList κ) (gtx : Context)
    (len : Int) (hF : 0 ≤ l.Position.First) (hlen : 0 ≤ len) :
    Struct w g (l.initOk gtx len) := by
  simp only [initOk]
  split_ifs with h
  · constructor <;> simp [window, wsum, hlen]
  · constructor <;> simp [window, wsum, hF]
    omega

/-! ### The trimming loops of `layout` -/

theorem mainSum_window (a : GioLayout.Axis) (w : ListElement κ) (g : Context) (F : Int) (n : Nat) :
    mainSum a (window w g F n) = wsum (sizeAt a w g) F n := by
  induction n with
  | zero => simp [mainSum, window, wsum]
  | succ n ih =>
    rw [window_succ, wsum, ← ih]
    simp [mainSum, sizeAt, childAt]

theorem window_take (w : ListElement κ) (g : Context) (F : Int) (n k : Nat) (h : k ≤ n) :
    (window w g F n).take k = window w g F k := by
  simp only [window, ← List.map_take, List.take_range, Nat.min_eq_left h]

theorem window_drop (w : ListElement κ) (g : Context) (F : Int) (n k : Nat) :
    (window w g F n).drop k = window w g (F + (k : Int)) (n - k) := by
  induction k generalizing F n with
  | zero => simp
  | succ k ih =>
    cases n with
    | zero => simp [window]
    | succ n =>
      rw [window_cons, List.drop_succ_cons, ih]
      have : F + 1 + (k : Int) = F + ((k + 1 : Nat) : Int) := by push_cast; ring
      rw [this, Nat.add_sub_add_right]

theorem skipInvisible_spec (a : GioLayout.Axis) (p : GioLayout.Position)
    (cs : List (scrollChild κ)) :
    ∃ k : Nat, k ≤ cs.length ∧ (skipInvisible a p cs).2 = cs.drop k ∧
      (skipInvisible a p cs).1 =
        { p with First := p.First + (k : Int), Offset := p.Offset - mainSum a (cs.take k) } ∧
      (∀ c rest, cs.drop k = c :: rest → (skipInvisible a p cs).1.Offset ≤ axisMain a c.size) ∧
      ((∀ c ∈ cs, 0 ≤ axisMain a c.size) → 0 ≤ p.Offset →
        0 ≤ (skipInvisible a p cs).1.Offset ∧ (0 < k → 0 < (skipInvisible a p cs).1.Offset)) := by
  induction cs generalizing p with
  | nil =>
    refine ⟨0, le_refl _, rfl, ?_, ?_, ?_⟩
    · simp [skipInvisible, mainSum]
    · intro c rest h; simp at h
    · intro _ h; simpa [skipInvisible] using h
  | cons c cs ih =>
    by_cases hc : p.Offset ≤ axisMain a c.size
    · refine ⟨0, Nat.zero_le _, ?_, ?_, ?_, ?_⟩
      · simp [skipInvisible, hc]
      · simp [skipInvisible, hc, mainSum]
      · intro c1 rest h
        simp only [List.drop_zero, List.cons.injEq] at h
        simp only [skipInvisible, hc, if_true]
        rw [← h.1]; exact hc
      · intro _ h; simp [skipInvisible, hc, h]
    · obtain ⟨k, hk, h2, h1, h3, h4⟩ :=
        ih { p with First := p.First + 1, Offset := p.Offset - axisMain a c.size }
      refine ⟨k + 1, by simpa using hk, ?_, ?_, ?_, ?_⟩
      · simp only [skipInvisible, hc, if_false, List.drop_succ_cons]; exact h2
      · simp only [skipInvisible, hc, if_false, List.take_succ_cons]
        rw [h1]
        simp only [mainSum, List.map_cons, List.sum_cons, Nat.cast_add, Nat.cast_one]
        congr 1 <;> ring
      · intro c1 rest h
        simp only [skipInvisible, hc, if_false]
        exact h3 c1 rest (by simpa using h)
      · intro hnn hp
        simp only [skipInvisible, hc, if_false]
        have hcs : 0 ≤ axisMain a c.size := hnn c (by simp)
        have := h4 (fun c1 hc1 => hnn c1 (by simp [hc1])) (by simp only []; omega)
        refine ⟨this.1, fun _ => ?_⟩
        rcases Nat.eq_zero_or_pos k with hk0 | hk0
        · subst hk0
          rw [h1]; simp only [mainSum, List.take_zero, List.map_nil, List.sum_nil]; omega
        · exact this.2 hk0

theorem trimTrailing_spec (a : GioLayout.Axis) (V : Int) (size mc : Int)
    (cs : List (scrollChild κ)) :
    ∃ m : Nat, m ≤ cs.length ∧ (trimTrailing a V size mc cs).2.2 = cs.take m ∧
      (cs ≠ [] → 0 < m) ∧
      (trimTrailing a V size mc cs).1 = size + mainSum a (cs.take m) ∧
      (m < cs.length → V ≤ (trimTrailing a V size mc cs).1) ∧
      (∀ j : Nat, 0 < j → j < m → size + mainSum a (cs.take j) < V) := by
  induction cs generalizing size mc with
  | nil =>
    refine ⟨0, le_refl _, rfl, by simp, by simp [trimTrailing, mainSum], by simp, ?_⟩
    intro j h1 h2; omega
  | cons c cs ih =>
    by_cases hc : size + axisMain a c.size ≥ V
    · refine ⟨1, by simp, by simp [trimTrailing, hc], by simp, by simp [trimTrailing, hc, mainSum],
        ?_, ?_⟩
      · intro _; simp [trimTrailing, hc]
      · intro j h1 h2; omega
    · obtain ⟨m, hm, h1, h2, h3, h4, h5⟩ := ih (size + axisMain a c.size)
        (if axisCross a c.size > mc then axisCross a c.size else mc)
      refine ⟨m + 1, by simpa using hm, ?_, by simp, ?_, ?_, ?_⟩
      · simp only [trimTrailing, hc, if_false, List.take_succ_cons]; rw [h1]
      · simp only [trimTrailing, hc, if_false, List.take_succ_cons]
        rw [h3]; simp only [mainSum, List.map_cons, List.sum_cons]; ring
      · intro hlt
        simp only [trimTrailing, hc, if_false]
        exact h4 (by simpa using hlt)
      · intro j hj1 hj2
        obtain ⟨j, rfl⟩ : ∃ i, j = i + 1 := ⟨j - 1, by omega⟩
        simp only [List.take_succ_cons, mainSum, List.map_cons, List.sum_cons]
        rcases Nat.eq_zero_or_pos j with hj0 | hj0
        · subst hj0; simp; omega
        · have := h5 j hj0 (by omega)
          simp only [mainSum] at this; omega

/-! ### The finalizer and the run of a frame -/

theorem layout_ok (l : LayoutList κ) (built : List Int) (h : l.dir = iterateNone) :
    ∃ l2 f, l.layout built = .ok (l2, f) ∧ SameCore l l2 ∧
      l2.Position.First = l.finSkip.1.First ∧ l2.Position.Offset = l.finSkip.1.Offset ∧
      l2.Position.BeforeEnd = !l.finAtEnd ∧ l2.dir = iterateNone ∧
      f.children = l.finTrim.2.2 ∧ f.placed = l.finPlace.1 ∧ f.pos = l.finPlace.2 ∧
      f.built = built ∧
      f.stopped = ((decide (l.finSkip.1.First = 0) && decide (l.finSkip.1.Offset ≤ 0) &&
          decide (l.scrollDelta < 0)) || (l.finAtEnd && decide (l.scrollDelta > 0))) ∧
      f.dims = ⟨axisPoint l.Axis
        (if (if l.finPlace.2 < (axisMainConstraint l.Axis l.cs).1
              then (axisMainConstraint l.Axis l.cs).1 else l.finPlace.2) > l.vsize
          then l.vsize
          else (if l.finPlace.2 < (axisMainConstraint l.Axis l.cs).1
              then (axisMainConstraint l.Axis l.cs).1 else l.finPlace.2))
        l.finTrim.2.1, 0⟩ := by
  have e : l.more = false := by simp [more, h]
  unfold layout
  rw [if_neg (by simp [e])]
  refine ⟨_, _, rfl, ⟨rfl, rfl, rfl, rfl, rfl, rfl⟩, rfl, rfl, ?_, h, rfl, ?_, ?_, rfl, ?_, ?_⟩
  all_goals
    simp only [finAtEnd, finPlace, finStart, finTrim, finSkip, vsize]
    try rfl

/-- The run of a frame: with fuel for `len` rounds, `Layout` runs the fill loop to a list
that needs no more children and then lays it out; a property kept by the rounds of the
loop holds for that list. -/
theorem Layout_run (w : ListElement κ) (l : LayoutList κ) (gtx : Context) (len : Int)
    (fuel : Nat) (I : LayoutList κ → List Int → Prop)
    (hd : l.dir = iterateNone) (hF : 0 ≤ l.Position.First) (hlen : 0 ≤ len)
    (hfuel : len.toNat ≤ fuel)
    (h0 : Good w (childContext l.Axis gtx) (l.initOk gtx len) (l.initOk gtx len).next →
      I (l.initOk gtx len).next [])
    (hfwd : ∀ l1 tr, Good w (childContext l.Axis gtx) (l.initOk gtx len) l1 → I l1 tr →
      l1.dir = iterateForward →
      Good w (childContext l.Axis gtx) (l.initOk gtx len)
        (afterForward w (childContext l.Axis gtx) l1).next →
      I (afterForward w (childContext l.Axis gtx) l1).next
        (tr ++ [l1.Position.First + (l1.children.length : Int)]))
    (hbwd : ∀ l1 tr, Good w (childContext l.Axis gtx) (l.initOk gtx len) l1 → I l1 tr →
      l1.dir = iterateBackward →
      Good w (childContext l.Axis gtx) (l.initOk gtx len)
        (afterBackward w (childContext l.Axis gtx) l1).next →
      I (afterBackward w (childContext l.Axis gtx) l1).next (tr ++ [l1.Position.First - 1])) :
    ∃ l1 tr, Good w (childContext l.Axis gtx) (l.initOk gtx len) l1 ∧ I l1 tr ∧
      l1.dir = iterateNone ∧ Layout fuel l gtx len w = l1.layout tr := by
  have hs := initOk_struct w (childContext l.Axis gtx) l gtx len hF hlen
  have hg : Good w (childContext l.Axis gtx) (l.initOk gtx len) (l.initOk gtx len).next :=
    good_next ⟨rfl, rfl, rfl, rfl, rfl, rfl⟩ hs
  obtain ⟨l1, tr, hrun, hg1, hi1, hdone⟩ :=
    fillIter_rule w (childContext l.Axis gtx) (l.initOk gtx len) I hfwd hbwd fuel _ [] hg (h0 hg)
  have hr : roundsLeft (l.initOk gtx len).next ≤ fuel := by
    have e1 := (sameWindow_next (l.initOk gtx len)).len
    have e2 := (sameWindow_next (l.initOk gtx len)).children
    have e3 : (l.initOk gtx len).len = len := by simp only [initOk]; split_ifs <;> rfl
    have e4 : (l.initOk gtx len).children = [] := by simp only [initOk]; split_ifs <;> rfl
    simp only [roundsLeft, e1, e2, e3, e4, List.length_nil]
    simpa using hfuel
  have hd1 := hdone hr
  refine ⟨l1, tr, hg1, by simpa using hi1, hd1, ?_⟩
  rw [Layout_eq fuel l gtx len w hd, fillLoop_of_fillIter _ _ _ _ _ _ hrun hd1]

/-! ### Contiguity of the window -/

theorem contiguous_iff (w : ListElement κ) (g : Context) (F : Int) (cs : List (scrollChild κ)) :
    Contiguous w g F cs ↔ cs = window w g F cs.length := by
  constructor
  · intro h
    apply List.ext_get (by simp [window_length])
    intro i h1 h2
    rw [h i h1]
    simp [window, childAt]
  · intro h i hi
    have h2 : i < (window w g F cs.length).length := by simpa [window_length] using hi
    have : cs.get ⟨i, hi⟩ = (window w g F cs.length).get ⟨i, h2⟩ := by
      simp only [List.get_eq_getElem]
      exact List.getElem_of_eq h hi
    rw [this]
    simp [window, childAt]

/-- Contiguity alone is kept by the rounds of the fill loop, whatever the position. -/
theorem fillIter_contiguous (w : ListElement κ) (g : Context) :
    ∀ (n : Nat) (l : LayoutList κ),
      l.children = window w g l.Position.First l.children.length →
      ∃ l1 tr, fillIter w g n l = .ok (l1, tr) ∧
        l1.children = window w g l1.Position.First l1.children.length := by
  intro n
  induction n with
  | zero => intro l h; exact ⟨l, [], rfl, h⟩
  | succ n ih =>
    intro l h
    by_cases hm : l.more = true
    · rcases more_cases l hm with hd | hd
      · have hc : (afterForward w g l).next.children =
            window w g (afterForward w g l).next.Position.First
              (afterForward w g l).next.children.length := by
          rw [(sameWindow_next _).children, (sameWindow_next _).first]
          simp only [afterForward, List.length_append, List.length_singleton]
          rw [window_succ, ← h]
        obtain ⟨l2, tr, h2, h3⟩ := ih _ hc
        exact ⟨l2, _, fillIter_step w g n l _ l2 _ tr hm (fillStep_forward w g l hd) h2, h3⟩
      · have hc : (afterBackward w g l).next.children =
            window w g (afterBackward w g l).next.Position.First
              (afterBackward w g l).next.children.length := by
          rw [(sameWindow_next _).children, (sameWindow_next _).first]
          simp only [afterBackward, List.length_cons]
          rw [window_cons]
          simp only [sub_add_cancel]
          rw [← h]
        obtain ⟨l2, tr, h2, h3⟩ := ih _ hc
        exact ⟨l2, _, fillIter_step w g n l _ l2 _ tr hm (fillStep_backward w g l hd) h2, h3⟩
    · exact ⟨l, [], fillIter_done w g _ l (by simpa using hm), h⟩

theorem end_contiguous (w : ListElement κ) (g : Context) (l : LayoutList κ)
    (h : l.children = window w g l.Position.First l.children.length) (hm : l.more = true) :
    ∃ i l2, l.index = .ok i ∧ l.end_ (w g i).1 (w g i).2 = .ok l2 ∧
      l2.children = window w g l2.Position.First l2.children.length := by
  rcases more_cases l hm with hd | hd
  · refine ⟨l.Position.First + (l.children.length : Int), afterForward w g l,
      by simp only [index, hd], by simp [end_, hd, afterForward, sizeAt, childAt], ?_⟩
    simp only [afterForward, List.length_append, List.length_singleton]
    rw [window_succ, ← h]
  · refine ⟨l.Position.First - 1, afterBackward w g l,
      by simp only [index, hd], by simp [end_, hd, afterBackward, sizeAt, childAt], ?_⟩
    simp only [afterBackward, List.length_cons]
    rw [window_cons]
    simp only [sub_add_cancel]
    rw [← h]

theorem skip_contiguous (w : ListElement κ) (g : Context) (a : GioLayout.Axis)
    (p : GioLayout.Position) (cs : List (scrollChild κ))
    (h : cs = window w g p.First cs.length) :
    (skipInvisible a p cs).2 =
      window w g (skipInvisible a p cs).1.First (skipInvisible a p cs).2.length := by
  obtain ⟨k, hk, h2, h1, _, _⟩ := skipInvisible_spec a p cs
  rw [h2, h1]
  simp only [List.length_drop]
  conv_lhs => rw [h]
  rw [window_drop]

/-! ### Coverage, contiguity and the final position (C1 to C4) -/

theorem mem_window_sizes (P : Int → Prop) (a : GioLayout.Axis) (w : ListElement κ)
    (g : Context) (F : Int) (n : Nat) (h : ∀ i, F ≤ i → i < F + (n : Int) → P (sizeAt a w g i)) :
    ∀ c ∈ window w g F n, P (axisMain a c.size) := by
  intro c hc
  simp only [window, List.mem_map, List.mem_range] at hc
  obtain ⟨j, hj, rfl⟩ := hc
  exact h (F + (j : Int)) (by omega) (by omega)

theorem initOk_axis (l : LayoutList κ) (gtx : Context) (len : Int) :
    (l.initOk gtx len).Axis = l.Axis := by
  simp only [initOk]; split_ifs <;> rfl

theorem initOk_len (l : LayoutList κ) (gtx : Context) (len : Int) :
    (l.initOk gtx len).len = len := by
  simp only [initOk]; split_ifs <;> rfl

theorem initOk_cs (l : LayoutList κ) (gtx : Context) (len : Int) :
    (l.initOk gtx len).cs = gtx.Constraints := by
  simp only [initOk]; split_ifs <;> rfl

theorem initOk_vsize (l : LayoutList κ) (gtx : Context) (len : Int) :
    (l.initOk gtx len).vsize = (axisMainConstraint l.Axis gtx.Constraints).2 := by
  simp only [vsize, initOk_axis, initOk_cs]

/-- What the standard assumptions give for the list at the end of the fill loop: its
children have non-negative sizes and `maxSize` is their total. -/
theorem good_sizes {w : ListElement κ} {g : Context} {l0 l : LayoutList κ}
    (hg : Good w g l0 l)
    (hs : ∀ i, 0 ≤ i → i < l0.len → 0 ≤ sizeAt l0.Axis w g i) :
    (∀ c ∈ l.children, 0 ≤ axisMain l.Axis c.size) ∧ mainSum l.Axis l.children = l.maxSize ∧
      0 ≤ l.maxSize := by
  have hb := hg.struct.last_le
  have hf := hg.struct.first_nonneg
  have hlen := hg.same.len
  have hax := hg.same.axis
  have hnn : ∀ i, l.Position.First ≤ i → i < l.Position.First + (l.children.length : Int) →
      0 ≤ sizeAt l.Axis w g i := by
    intro i h1 h2
    rw [hax]
    exact hs i (by omega) (by omega)
  refine ⟨?_, ?_, ?_⟩
  · rw [hg.struct.children_eq]
    exact mem_window_sizes (fun x => 0 ≤ x) _ _ _ _ _ hnn
  · conv_lhs => rw [hg.struct.children_eq]
    rw [mainSum_window, ← hg.struct.maxSize_eq]
  · rw [hg.struct.maxSize_eq]
    exact wsum_nonneg _ _ _ hnn

theorem next1_none (l : LayoutList κ) (h : l.next1.dir = iterateNone) :
    l.next1.maxSize - l.next1.Position.Offset ≥ (axisMainConstraint l.next1.Axis l.next1.cs).2 ∨
      (l.next1.children.length : Int) = l.next1.len := by
  simp only [next1, dirNext, vsize] at h ⊢
  split_ifs at h with h1 h2 h3
  · exact Or.inr h1
  · left; omega

/-- C1. Full coverage or exhaustion: whenever `next` leaves the direction at
`iterateNone`, either `maxSize - Position.Offset` is at least the main axis maximum of
the viewport or the number of children equals the item count. -/
theorem next_none_covers_or_exhausts (l : LayoutList κ) (h : l.next.dir = iterateNone) :
    l.next.maxSize - l.next.Position.Offset ≥ (axisMainConstraint l.next.Axis l.next.cs).2 ∨
      (l.next.children.length : Int) = l.next.len := by
  rw [next_eq] at h ⊢
  split_ifs at h ⊢
  · exact next1_none _ h
  · exact next1_none _ h

/-- C2. Window contiguity: in a frame started by `init`, after any number of rounds of the
fill loop the child at place `i` is the one the element callback built for index
`Position.First + i`; the same holds after `end` in the next round, and after the loop
that skips the invisible children in `layout`. -/
theorem window_contiguity (w : ListElement κ) (l l0 : LayoutList κ) (gtx : Context)
    (len : Int) (hinit : l.init gtx len = .ok l0) (n : Nat) :
    ∃ l1 tr, fillIter w (childContext l.Axis gtx) n l0.next = .ok (l1, tr) ∧
      Contiguous w (childContext l.Axis gtx) l1.Position.First l1.children ∧
      (l1.more = true → ∃ i l2, l1.index = .ok i ∧
        l1.end_ (w (childContext l.Axis gtx) i).1 (w (childContext l.Axis gtx) i).2 = .ok l2 ∧
        Contiguous w (childContext l.Axis gtx) l2.Position.First l2.children) ∧
      Contiguous w (childContext l.Axis gtx)
        (skipInvisible l1.Axis l1.Position l1.children).1.First
        (skipInvisible l1.Axis l1.Position l1.children).2 := by
  have hd : l.dir = iterateNone := by
    by_contra hd
    rw [init_error l gtx len hd] at hinit
    cases hinit
  rw [init_eq l gtx len hd] at hinit
  have e0 : l0 = l.initOk gtx len := by cases hinit; rfl
  have hc0 : l0.next.children =
      window w (childContext l.Axis gtx) l0.next.Position.First l0.next.children.length := by
    rw [(sameWindow_next _).children, e0]
    have : (l.initOk gtx len).children = [] := by simp only [initOk]; split_ifs <;> rfl
    rw [this]; rfl
  obtain ⟨l1, tr, hrun, hc1⟩ := fillIter_contiguous w (childContext l.Axis gtx) n _ hc0
  refine ⟨l1, tr, hrun, (contiguous_iff _ _ _ _).2 hc1, ?_, ?_⟩
  · intro hm
    obtain ⟨i, l2, h1, h2, h3⟩ := end_contiguous w _ l1 hc1 hm
    exact ⟨i, l2, h1, h2, (contiguous_iff _ _ _ _).2 h3⟩
  · exact (contiguous_iff _ _ _ _).2 (skip_contiguous w _ _ _ _ hc1)

/-- The list at the end of the fill loop and the result of `layout` on it, under the
standing assumptions on a frame. -/
theorem Layout_final (w : ListElement κ) (l : LayoutList κ) (gtx : Context) (len : Int)
    (fuel : Nat) (hd : l.dir = iterateNone) (hF : 0 ≤ l.Position.First) (hlen : 0 ≤ len)
    (hfuel : len.toNat ≤ fuel) :
    ∃ l1 tr l2 f, Good w (childContext l.Axis gtx) (l.initOk gtx len) l1 ∧
      l1.dir = iterateNone ∧ Layout fuel l gtx len w = .ok (l2, f) ∧
      l1.layout tr = .ok (l2, f) := by
  obtain ⟨l1, tr, hg, _, hd1, hL⟩ := Layout_run w l gtx len fuel (fun _ _ => True) hd hF hlen
    hfuel (fun _ => trivial) (fun _ _ _ _ _ _ => trivial) (fun _ _ _ _ _ _ => trivial)
  obtain ⟨l2, f, h1, _⟩ := layout_ok l1 tr hd1
  exact ⟨l1, tr, l2, f, hg, hd1, hL.trans h1, h1⟩

/-- C3. Range of `Position.First` after `Layout`: with a non-negative item count, a
non-negative main axis maximum of the viewport, non-negative item sizes and a starting
`Position.First ≥ 0`, `Layout` returns, `0 ≤ Position.First ≤ len` afterwards, and when
`Position.First = len` no child is kept or drawn and `Position.Offset = 0`. -/
theorem first_in_range_after_Layout (w : ListElement κ) (l : LayoutList κ) (gtx : Context)
    (len : Int) (fuel : Nat) (hd : l.dir = iterateNone) (hF : 0 ≤ l.Position.First)
    (hlen : 0 ≤ len) (hV : 0 ≤ (axisMainConstraint l.Axis gtx.Constraints).2)
    (hs : ∀ i, 0 ≤ i → i < len → 0 ≤ axisMain l.Axis (w (childContext l.Axis gtx) i).1.Size)
    (hfuel : len.toNat ≤ fuel) :
    ∃ l2 f, Layout fuel l gtx len w = .ok (l2, f) ∧
      0 ≤ l2.Position.First ∧ l2.Position.First ≤ len ∧
      (l2.Position.First = len → f.children = [] ∧ f.placed = [] ∧ l2.Position.Offset = 0) := by
  obtain ⟨l1, tr, l2, f, hg, hd1, hL, hlay⟩ := Layout_final w l gtx len fuel hd hF hlen hfuel
  obtain ⟨l2', f', h1, _, hfirst, hoff, _, _, hch, hpl, _⟩ := layout_ok l1 tr hd1
  rw [hlay] at h1
  cases h1
  obtain ⟨hnn, hsum, hms⟩ := good_sizes hg (by
    intro i h1 h2; rw [initOk_axis]; rw [initOk_len] at h2; exact hs i h1 h2)
  obtain ⟨k, hk, hdrop, hpos, _, hoff2⟩ := skipInvisible_spec l1.Axis l1.Position l1.children
  obtain ⟨m, hm, htake, _⟩ := trimTrailing_spec l1.Axis l1.vsize (-l1.finSkip.1.Offset) 0
    l1.finSkip.2
  have hb := hg.struct.last_le
  have hf := hg.struct.first_nonneg
  have hl1 : l1.len = len := by rw [hg.same.len, initOk_len]
  have hv1 : l1.vsize = (axisMainConstraint l.Axis gtx.Constraints).2 := by
    rw [sameCore_vsize hg.same, initOk_vsize]
  have hfin := hg.post.fin hd1
  have hoff3 := hoff2 hnn hfin.1
  have e1 : l2.Position.First = l1.Position.First + (k : Int) := by
    rw [hfirst]; simp only [finSkip, hpos]
  have e2 : l2.Position.Offset = l1.Position.Offset - mainSum l1.Axis (l1.children.take k) := by
    rw [hoff]; simp only [finSkip, hpos]
  refine ⟨l2, f, hL, by omega, by omega, ?_⟩
  intro hlast
  have hkn : k = l1.children.length := by omega
  have hempty : l1.finSkip.2 = [] := by
    simp only [finSkip, hdrop, hkn, List.drop_length]
  have hch2 : f.children = [] := by
    rw [hch]; simp only [finTrim]; rw [htake, hempty]; simp
  refine ⟨hch2, ?_, ?_⟩
  · rw [hpl]; simp only [finPlace]; rw [← hch, hch2]; rfl
  · rw [hkn, List.take_length, hsum] at e2
    simp only [finSkip] at hoff
    rw [hoff] at e2 ⊢
    rcases Nat.eq_zero_or_pos k with hk0 | hk0
    · have hn0 : l1.children.length = 0 := by omega
      have hm0 : l1.maxSize = 0 := by
        rw [hg.struct.maxSize_eq, hn0]; rfl
      rcases hfin.2 with h | h <;> omega
    · have := hoff3.2 hk0
      rcases hfin.2 with h | h <;> omega

/-- C4. The offset is normalised at the end of `Layout`: with a non-negative item count,
non-negative item sizes and a starting `Position.First ≥ 0` (and any main axis maximum
of the viewport, non-negative ones included), `Layout` returns with
`Position.Offset ≥ 0`, and when a child is kept for display the first kept child is the
item of index `Position.First` and `Position.Offset` is at most its main axis size. -/
theorem offset_normalized_after_Layout (w : ListElement κ) (l : LayoutList κ) (gtx : Context)
    (len : Int) (fuel : Nat) (hd : l.dir = iterateNone) (hF : 0 ≤ l.Position.First)
    (hlen : 0 ≤ len)
    (hs : ∀ i, 0 ≤ i → i < len → 0 ≤ axisMain l.Axis (w (childContext l.Axis gtx) i).1.Size)
    (hfuel : len.toNat ≤ fuel) :
    ∃ l2 f, Layout fuel l gtx len w = .ok (l2, f) ∧ 0 ≤ l2.Position.Offset ∧
      (f.children ≠ [] →
        f.children.head? = some ⟨(w (childContext l.Axis gtx) l2.Position.First).1.Size,
          (w (childContext l.Axis gtx) l2.Position.First).2⟩ ∧
        l2.Position.Offset ≤
          axisMain l.Axis (w (childContext l.Axis gtx) l2.Position.First).1.Size) := by
  obtain ⟨l1, tr, l2, f, hg, hd1, hL, hlay⟩ := Layout_final w l gtx len fuel hd hF hlen hfuel
  obtain ⟨l2', f', h1, _, hfirst, hoff, _, _, hch, _⟩ := layout_ok l1 tr hd1
  rw [hlay] at h1
  cases h1
  obtain ⟨hnn, _, _⟩ := good_sizes hg (by
    intro i h1 h2; rw [initOk_axis]; rw [initOk_len] at h2; exact hs i h1 h2)
  obtain ⟨k, hk, hdrop, hpos, hle, hoff2⟩ := skipInvisible_spec l1.Axis l1.Position l1.children
  obtain ⟨m, hm, htake, hm0, _⟩ := trimTrailing_spec l1.Axis l1.vsize (-l1.finSkip.1.Offset) 0
    l1.finSkip.2
  have hfin := hg.post.fin hd1
  have hoff3 := hoff2 hnn hfin.1
  have hcont := skip_contiguous w (childContext l.Axis gtx) l1.Axis l1.Position l1.children
    hg.struct.children_eq
  have hax : l1.Axis = l.Axis := by rw [hg.same.axis, initOk_axis]
  refine ⟨l2, f, hL, by rw [hoff]; exact hoff3.1, ?_⟩
  intro hne
  rw [hch] at hne ⊢
  simp only [finTrim] at hne ⊢
  rw [htake] at hne ⊢
  have hne2 : l1.finSkip.2 ≠ [] := by
    intro h; rw [h] at hne; simp at hne
  have hmpos := hm0 hne2
  simp only [finSkip] at hne2 hmpos hfirst hoff ⊢
  rw [hfirst, hoff]
  cases hsk : (skipInvisible l1.Axis l1.Position l1.children).2 with
  | nil => exact absurd hsk hne2
  | cons c rest =>
    rw [hsk] at hcont
    simp only [List.length_cons, window_cons, List.cons.injEq] at hcont
    obtain ⟨m, rfl⟩ : ∃ i, m = i + 1 := ⟨m - 1, by omega⟩
    simp only [List.take_succ_cons, List.head?_cons, Option.some.injEq]
    have hc := hle c rest (by rw [← hdrop]; exact hsk)
    have hc1 : c = ⟨(w (childContext l.Axis gtx)
          (skipInvisible l1.Axis l1.Position l1.children).1.First).1.Size,
        (w (childContext l.Axis gtx)
          (skipInvisible l1.Axis l1.Position l1.children).1.First).2⟩ := hcont.1
    refine ⟨hc1, ?_⟩
    have hc2 : c.size = (w (childContext l.Axis gtx)
        (skipInvisible l1.Axis l1.Position l1.children).1.First).1.Size := by
      rw [hc1]
    rw [← hc2, ← hax]; exact hc

/-! ### Stop at the start of the list (C9) -/

theorem next_of_ste_false (l : LayoutList κ) (h : l.ScrollToEnd = false) : l.next = l.next1 :=
  next_of_not_pinned l (by simp [scrollToEnd, h])

theorem skipInvisible_of_le (a : GioLayout.Axis) (p : GioLayout.Position)
    (cs : List (scrollChild κ)) (h : ∀ c rest, cs = c :: rest → p.Offset ≤ axisMain a c.size) :
    skipInvisible a p cs = (p, cs) := by
  cases cs with
  | nil => rfl
  | cons c rest => simp [skipInvisible, h c rest rfl]

theorem offNext_of_no_clamp (l : LayoutList κ)
    (h1 : l.vsize ≤ l.maxSize - l.Position.Offset ∨
      l.Position.First + (l.children.length : Int) ≠ l.len)
    (h2 : 0 ≤ l.Position.Offset ∨ l.Position.First ≠ 0) : l.offNext = l.Position.Offset := by
  simp only [offNext]
  split_ifs <;> omega

theorem dirNext_ne_forward (l : LayoutList κ) (h : l.vsize ≤ l.maxSize - l.offNext) :
    l.dirNext ≠ iterateForward := by
  simp only [dirNext]
  split_ifs <;> simp
  omega

theorem wsum_add (s : Int → Int) (F : Int) (n m : Nat) :
    wsum s F (n + m) = wsum s F n + wsum s (F + (n : Int)) m := by
  induction m with
  | zero => simp [wsum]
  | succ m ih =>
    rw [← Nat.add_assoc, wsum, ih, wsum]
    have : F + ((n + m : Nat) : Int) = F + (n : Int) + (m : Int) := by push_cast; ring
    rw [this]; ring

/-- The total main axis size of a window inside `[0, N)` is at most the total over all
`N` items, when the items have non-negative sizes. -/
theorem wsum_le_total (s : Int → Int) (N : Nat) (h : ∀ i, 0 ≤ i → i < (N : Int) → 0 ≤ s i)
    (F : Int) (n : Nat) (hF : 0 ≤ F) (hn : F + (n : Int) ≤ (N : Int)) :
    wsum s F n ≤ wsum s 0 N := by
  obtain ⟨a, rfl⟩ : ∃ a : Nat, F = (a : Int) := ⟨F.toNat, by omega⟩
  obtain ⟨r, rfl⟩ : ∃ r : Nat, N = a + n + r := ⟨N - (a + n), by omega⟩
  rw [wsum_add, wsum_add]
  have h1 := wsum_nonneg s 0 a (fun i h1 h2 => h i h1 (by push_cast; omega))
  have h2 := wsum_nonneg s (0 + ((a + n : Nat) : Int)) r
    (fun i h1 h2 => h i (by omega) (by push_cast at h2 ⊢; omega))
  simp only [zero_add] at h1 h2 ⊢
  omega

theorem place_snd (a : GioLayout.Axis) (al : GioLayout.Alignment) (V mc : Int) (pos : Int)
    (cs : List (scrollChild κ)) : (place a al V mc pos cs).2 = pos + mainSum a cs := by
  induction cs generalizing pos with
  | nil => simp [place, mainSum]
  | cons c cs ih =>
    simp only [place, ih, mainSum, List.map_cons, List.sum_cons]
    ring

theorem axisMain_axisPoint (a : GioLayout.Axis) (m c : Int) : axisMain a (axisPoint a m c) = m := by
  cases a <;> rfl

theorem axisCross_axisPoint (a : GioLayout.Axis) (m c : Int) : axisCross a (axisPoint a m c) = c := by
  cases a <;> rfl

/-- The main axis positions at which `place` draws the children: each child starts where
the one before it ends. -/
theorem place_offsets (a : GioLayout.Axis) (al : GioLayout.Alignment) (V mc : Int) (pos : Int)
    (cs : List (scrollChild κ)) :
    (place a al V mc pos cs).1.map (fun p => axisMain a p.offset) =
      (List.range cs.length).map (fun i => pos + mainSum a (cs.take i)) := by
  induction cs generalizing pos with
  | nil => rfl
  | cons c cs ih =>
    simp only [place, List.map_cons, axisMain_axisPoint, List.length_cons,
      List.range_succ_eq_map, List.map_map, ih]
    congr 1
    · simp [mainSum]
    · apply List.map_congr_left
      intro i _
      simp only [Function.comp, List.take_succ_cons, mainSum, List.map_cons, List.sum_cons]
      ring

/-- When the running size stays below the viewport size for every proper prefix that
`trimTrailing` could cut at, all children are kept. -/
theorem trimTrailing_all (a : GioLayout.Axis) (V size mc : Int) (cs : List (scrollChild κ))
    (h : ∀ j : Nat, 0 < j → j < cs.length → size + mainSum a (cs.take j) < V) :
    (trimTrailing a V size mc cs).2.2 = cs ∧
      (trimTrailing a V size mc cs).1 = size + mainSum a cs := by
  obtain ⟨m, hm, h1, h2, h3, h4, _⟩ := trimTrailing_spec a V size mc cs
  have hml : m = cs.length := by
    by_contra hne
    have hlt : m < cs.length := by omega
    have := h4 hlt
    have hpos : 0 < m := h2 (by intro h0; rw [h0] at hlt; simp at hlt)
    have := h m hpos hlt
    omega
  rw [h1, h3, hml, List.take_length]
  exact ⟨rfl, rfl⟩

/-! ### End alignment of short content (C10) -/

/-- C10. End alignment of short content: for a list with `ScrollToEnd` true, at least one
item, non-negative item sizes whose total `T` is smaller than the main axis maximum `V`
of the viewport, any starting position with `First ≥ 0` and any scroll delta, `Layout`
returns, keeps all items, and draws item `i` at main axis position
`V - T + (size of the items before i)`; the first one is at `V - T`. -/
theorem end_alignment_short_content (w : ListElement κ) (l : LayoutList κ) (gtx : Context)
    (len : Int) (fuel : Nat) (hd : l.dir = iterateNone) (hste : l.ScrollToEnd = true)
    (hlen : 1 ≤ len) (hF : 0 ≤ l.Position.First)
    (hs : ∀ i, 0 ≤ i → i < len → 0 ≤ sizeAt l.Axis w (childContext l.Axis gtx) i)
    (hT : wsum (sizeAt l.Axis w (childContext l.Axis gtx)) 0 len.toNat <
      (axisMainConstraint l.Axis gtx.Constraints).2)
    (hfuel : len.toNat ≤ fuel) :
    ∃ l2 f, Layout fuel l gtx len w = .ok (l2, f) ∧
      f.children.length = len.toNat ∧
      Contiguous w (childContext l.Axis gtx) 0 f.children ∧
      f.placed.map (fun p => axisMain l.Axis p.offset) =
        (List.range len.toNat).map (fun i =>
          (axisMainConstraint l.Axis gtx.Constraints).2 -
            wsum (sizeAt l.Axis w (childContext l.Axis gtx)) 0 len.toNat +
            wsum (sizeAt l.Axis w (childContext l.Axis gtx)) 0 i) ∧
      f.placed.head?.map (fun p => axisMain l.Axis p.offset) =
        some ((axisMainConstraint l.Axis gtx.Constraints).2 -
          wsum (sizeAt l.Axis w (childContext l.Axis gtx)) 0 len.toNat) := by
  obtain ⟨l1, tr, l2, f, hg, hd1, hL, hlay⟩ :=
    Layout_final w l gtx len fuel hd hF (by omega) hfuel
  obtain ⟨l2', f', h1, _, hfirst, hoff, _, _, hch, hpl, _⟩ := layout_ok l1 tr hd1
  rw [hlay] at h1
  cases h1
  have hax : l1.Axis = l.Axis := by rw [hg.same.axis, initOk_axis]
  have hl1 : l1.len = len := by rw [hg.same.len, initOk_len]
  have hv1 : l1.vsize = (axisMainConstraint l.Axis gtx.Constraints).2 := by
    rw [sameCore_vsize hg.same, initOk_vsize]
  have hste1 : l1.ScrollToEnd = true := by
    rw [hg.same.ste]; simp only [initOk]; split_ifs <;> exact hste
  obtain ⟨hnn, hsum, hms⟩ := good_sizes hg (by
    intro i h1 h2; rw [initOk_axis]; rw [initOk_len] at h2; exact hs i h1 h2)
  have hb := hg.struct.last_le
  have hf := hg.struct.first_nonneg
  have hfin := hg.post.fin hd1
  have hs' : ∀ i, 0 ≤ i → i < ((len.toNat : Nat) : Int) →
      0 ≤ sizeAt l.Axis w (childContext l.Axis gtx) i := by
    intro i h1 h2; exact hs i h1 (by omega)
  -- the window is the whole list and the offset is zero
  have hle := wsum_le_total (sizeAt l.Axis w (childContext l.Axis gtx)) len.toNat hs'
    l1.Position.First l1.children.length hf (by omega)
  have hmax := hg.struct.maxSize_eq
  rw [hax] at hmax
  have hall : (l1.children.length : Int) = l1.len ∧ l1.Position.Offset = 0 := by
    rcases hfin.2 with h | h
    · omega
    · exact h
  have hF0 : l1.Position.First = 0 := by omega
  have hn : l1.children.length = len.toNat := by omega
  have hchild : l1.children = window w (childContext l.Axis gtx) 0 len.toNat := by
    have := hg.struct.children_eq
    rw [hF0, hn] at this
    exact this
  have hT1 : l1.maxSize = wsum (sizeAt l.Axis w (childContext l.Axis gtx)) 0 len.toNat := by
    rw [hmax, hF0, hn]
  -- nothing is skipped
  have hsk : l1.finSkip = (l1.Position, l1.children) := by
    apply skipInvisible_of_le
    intro c rest hc
    rw [hall.2]
    exact hnn c (by rw [hc]; simp)
  -- nothing is cut at the end
  have htrim := trimTrailing_all l1.Axis l1.vsize (-l1.Position.Offset) 0 l1.children (by
    intro j hj1 hj2
    rw [hall.2, hv1, hax, hchild, window_take _ _ _ _ _ (by rw [hchild, window_length] at hj2; omega),
      mainSum_window]
    have := wsum_le_total (sizeAt l.Axis w (childContext l.Axis gtx)) len.toNat hs' 0 j
      (le_refl _) (by rw [hchild, window_length] at hj2; omega)
    omega)
  have hft : l1.finTrim.2.2 = l1.children ∧ l1.finTrim.1 = -l1.Position.Offset + l1.maxSize := by
    simp only [finTrim, hsk]
    rw [← hsum]
    exact htrim
  have hstart : l1.finStart = (axisMainConstraint l.Axis gtx.Constraints).2 -
      wsum (sizeAt l.Axis w (childContext l.Axis gtx)) 0 len.toNat := by
    simp only [finStart, hft.2, hsk, hall.2, hste1, hv1, hT1]
    rw [if_pos (by constructor <;> [trivial; omega])]
    ring
  have hplaced : f.placed.map (fun p => axisMain l.Axis p.offset) =
      (List.range len.toNat).map (fun i =>
        (axisMainConstraint l.Axis gtx.Constraints).2 -
          wsum (sizeAt l.Axis w (childContext l.Axis gtx)) 0 len.toNat +
          wsum (sizeAt l.Axis w (childContext l.Axis gtx)) 0 i) := by
    rw [hpl]
    simp only [finPlace, hft.1, hstart]
    rw [← hax, place_offsets, hn]
    apply List.map_congr_left
    intro i hi
    rw [List.mem_range] at hi
    rw [hax, hchild, window_take _ _ _ _ _ (by omega), mainSum_window]
  refine ⟨l2, f, hL, by rw [hch, hft.1, hn], ?_, hplaced, ?_⟩
  · rw [hch, hft.1, contiguous_iff, hn]; exact hchild
  · have hpos : 0 < len.toNat := by omega
    obtain ⟨k, hk⟩ : ∃ k, len.toNat = k + 1 := ⟨len.toNat - 1, by omega⟩
    have := congrArg List.head? hplaced
    rw [List.head?_map] at this
    rw [this, hk]
    simp [List.range_succ_eq_map, wsum]

/-! ### Backward fill (C8) -/

theorem wsum_const (s : Int → Int) (c : Int) (F : Int) (n : Nat)
    (h : ∀ i, F ≤ i → i < F + (n : Int) → s i = c) : wsum s F n = c * (n : Int) := by
  induction n with
  | zero => simp [wsum]
  | succ n ih =>
    rw [wsum, ih (fun i h1 h2 => h i h1 (by push_cast; omega)),
      h (F + (n : Int)) (by omega) (by push_cast; omega)]
    push_cast; ring

theorem initOk_of_not_pinned (l : LayoutList κ) (gtx : Context) (len : Int)
    (h1 : l.scrollToEnd = false) (h2 : l.Position.First ≤ len) :
    l.initOk gtx len = { l with
      cs := gtx.Constraints, maxSize := 0, children := [], len := len, scrollDelta := gtx.delta
      Position := { l.Position with Offset := l.Position.Offset + gtx.delta } } := by
  simp only [initOk, h1]
  rw [if_neg (by simp; omega)]

/-- C8. Backward fill: starting at `Position{First: 10, Offset: -5}` with `ScrollToEnd`
false, zero scroll delta and items of uniform main axis size 20, for an item count
`len > 10` and a viewport size `V` with `20 * (len - 10) + 5 ≥ V`, `Layout` returns, the
indices built are a run of forward indices `10, 11, …` followed by the single backward
index `9`, and afterwards `Position.First = 9` and `Position.Offset = 15`. -/
theorem backward_fill (w : ListElement κ) (l : LayoutList κ) (gtx : Context) (len : Int)
    (fuel : Nat) (hd : l.dir = iterateNone) (hste : l.ScrollToEnd = false)
    (hF : l.Position.First = 10) (hO : l.Position.Offset = -5) (hdelta : gtx.delta = 0)
    (hs : ∀ i, 0 ≤ i → i < len → sizeAt l.Axis w (childContext l.Axis gtx) i = 20)
    (hlen : 10 < len)
    (hV : (axisMainConstraint l.Axis gtx.Constraints).2 ≤ 20 * (len - 10) + 5)
    (hfuel : len.toNat ≤ fuel) :
    ∃ l2 f, Layout fuel l gtx len w = .ok (l2, f) ∧
      (∃ k : Nat, f.built = (List.range k).map (fun (j : Nat) => (10 : Int) + j) ++ [9]) ∧
      l2.Position.First = 9 ∧ l2.Position.Offset = 15 := by
  have hinit := initOk_of_not_pinned l gtx len (by simp [scrollToEnd, hste]) (by omega)
  have hste0 : (l.initOk gtx len).ScrollToEnd = false := by rw [hinit]; exact hste
  -- facts shared by all lists of the run
  have hfacts : ∀ l1, Good w (childContext l.Axis gtx) (l.initOk gtx len) l1 →
      l1.ScrollToEnd = false ∧ l1.len = len ∧
      l1.vsize = (axisMainConstraint l.Axis gtx.Constraints).2 ∧
      l1.maxSize = 20 * (l1.children.length : Int) ∧
      (∀ c ∈ l1.children, axisMain l1.Axis c.size = 20) := by
    intro l1 hg
    have hax : l1.Axis = l.Axis := by rw [hg.same.axis, initOk_axis]
    have hl1 : l1.len = len := by rw [hg.same.len, initOk_len]
    have hb := hg.struct.last_le
    have hf := hg.struct.first_nonneg
    have hu : ∀ i, l1.Position.First ≤ i → i < l1.Position.First + (l1.children.length : Int) →
        sizeAt l1.Axis w (childContext l.Axis gtx) i = 20 := by
      intro i h1 h2; rw [hax]; exact hs i (by omega) (by omega)
    refine ⟨by rw [hg.same.ste]; exact hste0, hl1,
      by rw [sameCore_vsize hg.same, initOk_vsize], ?_, ?_⟩
    · rw [hg.struct.maxSize_eq]; exact wsum_const _ _ _ _ hu
    · rw [hg.struct.children_eq]
      exact mem_window_sizes (fun x => x = 20) _ _ _ _ _ hu
  obtain ⟨l1, tr, hg, hI, hd1, hL⟩ := Layout_run w l gtx len fuel
    (fun l1 tr =>
      (l1.Position.First = 10 ∧ l1.Position.Offset = -5 ∧
        tr = (List.range l1.children.length).map (fun (j : Nat) => (10 : Int) + j)) ∨
      (l1.Position.First = 9 ∧ l1.Position.Offset = 15 ∧ l1.dir = iterateNone ∧
        ∃ k : Nat, tr = (List.range k).map (fun (j : Nat) => (10 : Int) + j) ++ [9]))
    hd (by omega) (by omega) hfuel
    (by
      intro hg
      left
      rw [next_of_ste_false _ hste0]
      refine ⟨by rw [hinit]; exact hF, ?_, by rw [hinit]; rfl⟩
      show (l.initOk gtx len).offNext = -5
      rw [offNext_of_no_clamp]
      · rw [hinit]; show l.Position.Offset + gtx.delta = -5; omega
      · right; rw [hinit]; show l.Position.First + ((0 : Nat) : Int) ≠ len; omega
      · right; rw [hinit]; show l.Position.First ≠ 0; omega)
    (by
      intro l1 tr hg hI hf hg1
      obtain ⟨hs1, hl1, hv1, hm1, _⟩ := hfacts _ hg
      obtain ⟨hs2, hl2, hv2, hm2, _⟩ := hfacts _ hg1
      rcases hI with ⟨h1, h2, h3⟩ | ⟨_, _, h3, _⟩
      · left
        have hw := sameWindow_next (afterForward w (childContext l.Axis gtx) l1)
        rw [next_of_ste_false (afterForward w (childContext l.Axis gtx) l1) hs1] at hg1 hm2 hw ⊢
        have hlen2 : (afterForward w (childContext l.Axis gtx) l1).next1.children.length
            = l1.children.length + 1 := by
          rw [hw.children]; simp [afterForward]
        have hms : (afterForward w (childContext l.Axis gtx) l1).maxSize =
            20 * ((l1.children.length : Int) + 1) := by
          rw [← hw.maxSize, hm2, hlen2]; push_cast; ring
        refine ⟨h1, ?_, ?_⟩
        · show (afterForward w (childContext l.Axis gtx) l1).offNext = -5
          rw [offNext_of_no_clamp]
          · exact h2
          · have e1 : (afterForward w (childContext l.Axis gtx) l1).vsize = l1.vsize := rfl
            have e2 : (afterForward w (childContext l.Axis gtx) l1).Position = l1.Position := rfl
            have e3 : (afterForward w (childContext l.Axis gtx) l1).len = l1.len := rfl
            have e4 : (afterForward w (childContext l.Axis gtx) l1).children.length =
                l1.children.length + 1 := by simp [afterForward]
            rw [e1, e2, e3, e4, hms, hv1, hl1, h1, h2]
            push_cast
            omega
          · right; show l1.Position.First ≠ 0; omega
        · rw [hlen2, List.range_succ, List.map_append, h3, h1]; rfl
      · rw [h3] at hf; cases hf)
    (by
      intro l1 tr hg hI hb hg1
      obtain ⟨hs1, hl1, hv1, hm1, _⟩ := hfacts _ hg
      rcases hI with ⟨h1, h2, h3⟩ | ⟨_, _, h3, _⟩
      · right
        have hb2 := (hg.post.bwd hb).2.2
        have hax : l1.Axis = l.Axis := by rw [hg.same.axis, initOk_axis]
        have hs9 : sizeAt l1.Axis w (childContext l.Axis gtx) (l1.Position.First - 1) = 20 := by
          rw [hax, h1]; exact hs 9 (by omega) (by omega)
        rw [next_of_ste_false (afterBackward w (childContext l.Axis gtx) l1) hs1] at hg1 ⊢
        have hoff : (afterBackward w (childContext l.Axis gtx) l1).offNext = 15 := by
          rw [offNext_of_no_clamp]
          · show l1.Position.Offset + sizeAt l1.Axis w (childContext l.Axis gtx)
              (l1.Position.First - 1) = 15
            rw [hs9, h2]; rfl
          · left
            show l1.vsize ≤ l1.maxSize + sizeAt l1.Axis w (childContext l.Axis gtx)
              (l1.Position.First - 1) - (l1.Position.Offset + sizeAt l1.Axis w
                (childContext l.Axis gtx) (l1.Position.First - 1))
            omega
          · left
            show 0 ≤ l1.Position.Offset + sizeAt l1.Axis w (childContext l.Axis gtx)
              (l1.Position.First - 1)
            omega
        refine ⟨by show l1.Position.First - 1 = 9; omega, hoff, ?_, ⟨_, by rw [h3, h1]; rfl⟩⟩
        have hp := hg1.post
        have hms : (afterBackward w (childContext l.Axis gtx) l1).next1.maxSize =
            l1.maxSize + 20 := by
          show l1.maxSize + sizeAt l1.Axis w (childContext l.Axis gtx)
            (l1.Position.First - 1) = _
          rw [hs9]
        have hvs : (afterBackward w (childContext l.Axis gtx) l1).next1.vsize = l1.vsize := rfl
        have ho : (afterBackward w (childContext l.Axis gtx) l1).next1.Position.Offset = 15 := hoff
        cases hdir : (afterBackward w (childContext l.Axis gtx) l1).next1.dir with
        | iterateNone => rfl
        | iterateForward => have := (hp.fwd hdir).2; omega
        | iterateBackward => have := (hp.bwd hdir).2.1; omega
      · rw [h3] at hb; cases hb)
  obtain ⟨l2, f, h1, _, hfirst, hoff, _, _, _, _, _, hbuilt, _⟩ := layout_ok l1 tr hd1
  obtain ⟨_, _, _, _, hsz⟩ := hfacts _ hg
  have hB : l1.Position.First = 9 ∧ l1.Position.Offset = 15 ∧
      ∃ k : Nat, tr = (List.range k).map (fun (j : Nat) => (10 : Int) + j) ++ [9] := by
    rcases hI with ⟨_, h2, _⟩ | ⟨h1, h2, _, h4⟩
    · have := (hg.post.fin hd1).1; omega
    · exact ⟨h1, h2, h4⟩
  have hsk : l1.finSkip = (l1.Position, l1.children) := by
    apply skipInvisible_of_le
    intro c rest hc
    rw [hB.2.1, hsz c (by rw [hc]; simp)]
    decide
  exact ⟨l2, f, hL.trans h1, by rw [hbuilt]; exact hB.2.2, by rw [hfirst, hsk]; exact hB.1,
    by rw [hoff, hsk]; exact hB.2.1⟩

/-! ### Scrolling past the end (C6) -/

theorem wsum_pos (s : Int → Int) (F : Int) (n : Nat) (hn : 0 < n)
    (h : ∀ i, F ≤ i → i < F + (n : Int) → 0 < s i) : 0 < wsum s F n := by
  obtain ⟨m, rfl⟩ : ∃ m, n = m + 1 := ⟨n - 1, by omega⟩
  rw [wsum]
  have h1 := wsum_nonneg s F m (fun i h1 h2 => le_of_lt (h i h1 (by push_cast; omega)))
  have h2 := h (F + (m : Int)) (by omega) (by push_cast; omega)
  omega

/-- With positive sizes a proper prefix of a window is strictly smaller than the window. -/
theorem wsum_lt (s : Int → Int) (F : Int) (j n : Nat) (hj : j < n)
    (h : ∀ i, F ≤ i → i < F + (n : Int) → 0 < s i) : wsum s F j < wsum s F n := by
  obtain ⟨r, rfl⟩ : ∃ r, n = j + r := ⟨n - j, by omega⟩
  rw [wsum_add]
  have := wsum_pos s (F + (j : Int)) r (by omega)
    (fun i h1 h2 => h i (by omega) (by push_cast; omega))
  omega

theorem window_getLast (w : ListElement κ) (g : Context) (F : Int) (n : Nat) (hn : 0 < n) :
    (window w g F n).getLast? = some (childAt w g (F + (n : Int) - 1)) := by
  obtain ⟨m, rfl⟩ : ∃ m, n = m + 1 := ⟨n - 1, by omega⟩
  rw [window_succ, List.getLast?_append]
  have : F + ((m + 1 : Nat) : Int) - 1 = F + (m : Int) := by push_cast; ring
  rw [this]
  rfl

/-- What the window invariant gives about `maxSize` when all items have positive size:
it is the sum over the window, at most the total `T`, strictly less when the window
stops before the end of the list, and equal to `T` when the window is the whole list. -/
theorem good_total {w : ListElement κ} {g : Context} {l0 l : LayoutList κ}
    (hg : Good w g l0 l) (hlen : 0 ≤ l0.len)
    (hs : ∀ i, 0 ≤ i → i < l0.len → 0 < sizeAt l0.Axis w g i) :
    l.maxSize ≤ totalSize l0.Axis w g l0.len ∧
    (l.Position.First + (l.children.length : Int) < l0.len →
      l.maxSize < totalSize l0.Axis w g l0.len) ∧
    (l.Position.First = 0 → (l.children.length : Int) = l0.len →
      l.maxSize = totalSize l0.Axis w g l0.len) ∧
    (0 < l.children.length → 0 < l.maxSize) ∧
    (l.children.length = 0 → l.maxSize = 0) := by
  have hb := hg.struct.last_le
  have hf := hg.struct.first_nonneg
  have hl := hg.same.len
  have hm := hg.struct.maxSize_eq
  rw [hg.same.axis] at hm
  have hs' : ∀ i, 0 ≤ i → i < ((l0.len.toNat : Nat) : Int) → 0 ≤ sizeAt l0.Axis w g i :=
    fun i h1 h2 => le_of_lt (hs i h1 (by omega))
  refine ⟨?_, ?_, ?_, ?_, ?_⟩
  · rw [hm]
    exact wsum_le_total _ _ hs' _ _ hf (by omega)
  · intro hlt
    have h1 := wsum_le_total _ _ hs' l.Position.First (l.children.length + 1) hf
      (by push_cast; omega)
    rw [wsum] at h1
    have h2 := hs (l.Position.First + (l.children.length : Int)) (by omega) hlt
    rw [hm]
    simp only [totalSize]
    omega
  · intro h0 hn
    rw [hm, h0]
    simp only [totalSize]
    congr 1
    omega
  · intro hpos
    rw [hm]
    exact wsum_pos _ _ _ hpos (fun i h1 h2 => hs i (by omega) (by omega))
  · intro h0
    rw [hm, h0]; rfl

/-- One `next` in a frame that scrolls past the end. -/
theorem pastEnd_next {w : ListElement κ} {g : Context} {l0 : LayoutList κ} (a : LayoutList κ)
    (hg : Good w g l0 a.next) (hlen : 0 ≤ l0.len)
    (hs : ∀ i, 0 ≤ i → i < l0.len → 0 < sizeAt l0.Axis w g i)
    (hV : 0 ≤ l0.vsize) (hTV : l0.vsize ≤ totalSize l0.Axis w g l0.len)
    (hpin : a.scrollToEnd = false)
    (h : (totalSize l0.Axis w g l0.len ≤ a.Position.Offset ∧
          (0 < l0.vsize ∨ 0 < a.children.length ∨
            a.Position.First + (a.children.length : Int) < a.len)) ∨
         (a.Position.First + (a.children.length : Int) = a.len ∧
          a.maxSize - a.Position.Offset = a.vsize ∧ 0 < a.children.length)) :
    PastEnd (totalSize l0.Axis w g l0.len) a.next := by
  rw [next_of_not_pinned a hpin] at hg ⊢
  obtain ⟨ht1, ht2, ht3, ht4, ht5⟩ := good_total hg hlen hs
  have hb := hg.struct.last_le
  have hf := hg.struct.first_nonneg
  have hl : a.len = l0.len := hg.same.len
  have hv : a.vsize = l0.vsize := (sameCore_vsize hg.same : a.next1.vsize = l0.vsize)
  have e1 : a.next1.maxSize = a.maxSize := rfl
  have e2 : a.next1.children = a.children := rfl
  have e3 : a.next1.Position.First = a.Position.First := rfl
  have e4 : a.next1.len = a.len := rfl
  have e5 : a.next1.vsize = a.vsize := rfl
  have e6 : a.next1.Position.Offset = a.offNext := rfl
  rw [e1] at ht1 ht2 ht3 ht4 ht5
  rw [e2] at ht2 ht3 ht4 ht5 hb
  rw [e3] at ht2 ht3 hb hf
  rw [e4] at hb
  have hp := hg.post
  refine ⟨hpin, ?_⟩
  rw [e6, e2, e3, e4, e1, e5]
  rcases h with ⟨hT, hne⟩ | ⟨hlast, hedge, hpos⟩
  · by_cases hlast : a.Position.First + (a.children.length : Int) = a.len
    · right
      have hoff : a.offNext = a.maxSize - a.vsize := by
        simp only [offNext]
        split_ifs <;> omega
      exact ⟨hlast, by omega, by omega⟩
    · left
      have hoff : a.offNext = a.Position.Offset := by
        apply offNext_of_no_clamp <;> omega
      refine ⟨by omega, ?_⟩
      cases hdir : a.next1.dir with
      | iterateForward => rfl
      | iterateNone =>
        have := hp.fin hdir
        rw [e6, e2, e1, e4, e5] at this
        omega
      | iterateBackward =>
        have := (hp.bwd hdir).2.1
        rw [e6] at this
        omega
  · right
    have hoff : a.offNext = a.Position.Offset := by
      simp only [offNext]
      split_ifs <;> omega
    exact ⟨hlast, by omega, by omega⟩

/-- The fill loop of a frame that scrolls past the end ends with the window at the end
of the list and its trailing edge on the trailing edge of the viewport. -/
theorem pastEnd_run (w : ListElement κ) (l : LayoutList κ) (gtx : Context) (len : Int)
    (fuel : Nat) (hd : l.dir = iterateNone) (hpin : l.scrollToEnd = false) (hlen : 0 ≤ len)
    (hs : ∀ i, 0 ≤ i → i < len → 0 < sizeAt l.Axis w (childContext l.Axis gtx) i)
    (hTV : (axisMainConstraint l.Axis gtx.Constraints).2 ≤
      totalSize l.Axis w (childContext l.Axis gtx) len)
    (hF : 0 ≤ l.Position.First) (hFl : l.Position.First ≤ len) (hO : 0 ≤ l.Position.Offset)
    (hdelta : totalSize l.Axis w (childContext l.Axis gtx) len ≤ gtx.delta)
    (hV : 0 < (axisMainConstraint l.Axis gtx.Constraints).2 ∨
      ((axisMainConstraint l.Axis gtx.Constraints).2 = 0 ∧ l.Position.First < len))
    (hfuel : len.toNat ≤ fuel) :
    ∃ l1 tr, Good w (childContext l.Axis gtx) (l.initOk gtx len) l1 ∧ l1.dir = iterateNone ∧
      Layout fuel l gtx len w = l1.layout tr ∧
      l1.Position.First + (l1.children.length : Int) = len ∧
      l1.maxSize - l1.Position.Offset = (axisMainConstraint l.Axis gtx.Constraints).2 ∧
      0 < l1.children.length ∧ 0 ≤ l1.Position.Offset := by
  have hinit := initOk_of_not_pinned l gtx len hpin hFl
  have hs0 : ∀ i, 0 ≤ i → i < (l.initOk gtx len).len →
      0 < sizeAt (l.initOk gtx len).Axis w (childContext l.Axis gtx) i := by
    intro i h1 h2; rw [initOk_axis]; rw [initOk_len] at h2; exact hs i h1 h2
  have hlen0 : 0 ≤ (l.initOk gtx len).len := by rw [initOk_len]; exact hlen
  have hV0 : 0 ≤ (l.initOk gtx len).vsize := by rw [initOk_vsize]; omega
  have hTV0 : (l.initOk gtx len).vsize ≤
      totalSize (l.initOk gtx len).Axis w (childContext l.Axis gtx) (l.initOk gtx len).len := by
    rw [initOk_vsize, initOk_axis, initOk_len]; exact hTV
  have hT0 : totalSize (l.initOk gtx len).Axis w (childContext l.Axis gtx)
      (l.initOk gtx len).len = totalSize l.Axis w (childContext l.Axis gtx) len := by
    rw [initOk_axis, initOk_len]
  obtain ⟨l1, tr, hg, hI, hd1, hL⟩ := Layout_run w l gtx len fuel
    (fun l1 _ => PastEnd (totalSize l.Axis w (childContext l.Axis gtx) len) l1)
    hd hF hlen hfuel
    (by
      intro hg
      rw [← hT0]
      apply pastEnd_next _ hg hlen0 hs0 hV0 hTV0
      · rw [hinit]; exact hpin
      · left
        rw [hT0, initOk_vsize, initOk_len, hinit]
        refine ⟨?_, ?_⟩
        · show _ ≤ l.Position.Offset + gtx.delta
          omega
        · show _ ∨ _ ∨ l.Position.First + ((0 : Nat) : Int) < len
          omega)
    (by
      intro l1 tr hg hI hf hg1
      rw [← hT0]
      apply pastEnd_next _ hg1 hlen0 hs0 hV0 hTV0
      · exact hI.1
      · left
        rcases hI.2 with ⟨h1, _⟩ | ⟨h1, _⟩
        · refine ⟨by rw [hT0]; exact h1, Or.inr (Or.inl ?_)⟩
          simp [afterForward]
        · have := (hg.post.fwd hf).1
          omega)
    (by
      intro l1 tr hg hI hb hg1
      rw [← hT0]
      apply pastEnd_next _ hg1 hlen0 hs0 hV0 hTV0
      · exact hI.1
      · right
        rcases hI.2 with ⟨_, h2⟩ | ⟨h1, h2, _⟩
        · rw [h2] at hb; cases hb
        · refine ⟨?_, ?_, by simp [afterBackward]⟩
          · simp only [afterBackward, List.length_cons]; push_cast; omega
          · show l1.maxSize + _ - (l1.Position.Offset + _) = l1.vsize
            omega)
  have hl1 : l1.len = len := by rw [hg.same.len, initOk_len]
  have hv1 : l1.vsize = (axisMainConstraint l.Axis gtx.Constraints).2 := by
    rw [sameCore_vsize hg.same, initOk_vsize]
  obtain ⟨_, _, _, ht4, ht5⟩ := good_total hg hlen0 hs0
  have hfin := hg.post.fin hd1
  rcases hI.2 with ⟨_, h2⟩ | ⟨h1, h2, h3⟩
  · rw [h2] at hd1; cases hd1
  · refine ⟨l1, tr, hg, hd1, hL, by omega, by omega, ?_, hfin.1⟩
    by_contra hn
    have hn0 : l1.children.length = 0 := by omega
    have := ht5 hn0
    have := hfin.1
    by_cases hvz : l1.vsize = 0
    · have := h3 hvz; omega
    · omega

/-- The finalizer on a window that ends at the end of the list with its trailing edge on
the trailing edge of the viewport, for items of positive size: the kept children are a
window that ends with the last item, the last item ends at the viewport size, and the
list is at its end. -/
theorem layout_flush {w : ListElement κ} {g : Context} {l0 l1 : LayoutList κ}
    (hg : Good w g l0 l1) (hd1 : l1.dir = iterateNone) (tr : List Int)
    (hs : ∀ i, 0 ≤ i → i < l0.len → 0 < sizeAt l0.Axis w g i)
    (hlast : l1.Position.First + (l1.children.length : Int) = l1.len)
    (hedge : l1.maxSize - l1.Position.Offset = l1.vsize) (hV : 0 ≤ l1.vsize)
    (hpos : 0 < l1.children.length) (hO : 0 ≤ l1.Position.Offset) :
    ∃ l2 f, l1.layout tr = .ok (l2, f) ∧ l2.Position.BeforeEnd = false ∧
      f.children.getLast? = some (childAt w g (l1.len - 1)) ∧ f.pos = l1.vsize ∧
      f.children = window w g l2.Position.First f.children.length ∧
      l2.Position.First + (f.children.length : Int) = l1.len := by
  obtain ⟨l2, f, h1, _, hfirst, hoff, hbe, _, hch, _, hfpos, _⟩ := layout_ok l1 tr hd1
  have hax : l1.Axis = l0.Axis := hg.same.axis
  have hl1 : l1.len = l0.len := hg.same.len
  have hb := hg.struct.last_le
  have hf := hg.struct.first_nonneg
  have hpos' : ∀ i, l1.Position.First ≤ i → i < l1.Position.First + (l1.children.length : Int) →
      0 < sizeAt l1.Axis w g i := by
    intro i h1 h2; rw [hax]; exact hs i (by omega) (by omega)
  have hnn : ∀ c ∈ l1.children, 0 ≤ axisMain l1.Axis c.size := by
    rw [hg.struct.children_eq]
    exact mem_window_sizes (fun x => 0 ≤ x) _ _ _ _ _ (fun i h1 h2 => le_of_lt (hpos' i h1 h2))
  obtain ⟨k, hk, hdrop, hsk, _, hoff2⟩ := skipInvisible_spec l1.Axis l1.Position l1.children
  have hoff3 := hoff2 hnn hO
  have hms := hg.struct.maxSize_eq
  have htake : mainSum l1.Axis (l1.children.take k) =
      wsum (sizeAt l1.Axis w g) l1.Position.First k := by
    conv_lhs => rw [hg.struct.children_eq]
    rw [window_take _ _ _ _ _ hk, mainSum_window]
  have hO' : l1.finSkip.1.Offset =
      l1.Position.Offset - wsum (sizeAt l1.Axis w g) l1.Position.First k := by
    simp only [finSkip, hsk, htake]
  have hF' : l1.finSkip.1.First = l1.Position.First + (k : Int) := by
    simp only [finSkip, hsk]
  have hR : l1.finSkip.2 =
      window w g (l1.Position.First + (k : Int)) (l1.children.length - k) := by
    simp only [finSkip, hdrop]
    conv_lhs => rw [hg.struct.children_eq]
    rw [window_drop]
  have hsplit : l1.maxSize = wsum (sizeAt l1.Axis w g) l1.Position.First k +
      wsum (sizeAt l1.Axis w g) (l1.Position.First + (k : Int)) (l1.children.length - k) := by
    rw [hms, ← wsum_add]
    congr 1
    omega
  have hkn : k < l1.children.length := by
    by_contra hge
    have hkeq : k = l1.children.length := by omega
    have h0 := hoff3.2 (by omega)
    simp only [finSkip] at hO'
    rw [hO', hkeq, ← hms] at h0
    omega
  have htrim := trimTrailing_all l1.Axis l1.vsize (-l1.finSkip.1.Offset) 0 l1.finSkip.2 (by
    intro j hj1 hj2
    rw [hR, window_length] at hj2
    rw [hR, window_take _ _ _ _ _ (le_of_lt hj2), mainSum_window, hO']
    have := wsum_lt (sizeAt l1.Axis w g) (l1.Position.First + (k : Int)) j
      (l1.children.length - k) hj2 (fun i h1 h2 => hpos' i (by omega) (by omega))
    omega)
  have hkeep : l1.finTrim.2.2 = l1.finSkip.2 := htrim.1
  have hsumR : mainSum l1.Axis l1.finSkip.2 =
      wsum (sizeAt l1.Axis w g) (l1.Position.First + (k : Int)) (l1.children.length - k) := by
    rw [hR, mainSum_window]
  have hsize : l1.finTrim.1 = l1.vsize := by
    have e : l1.finTrim.1 = -l1.finSkip.1.Offset + mainSum l1.Axis l1.finSkip.2 := htrim.2
    rw [e, hsumR, hO']
    omega
  have hstart : l1.finStart = -l1.finSkip.1.Offset := by
    simp only [finStart, hsize]
    rw [if_neg (by omega)]
  have hend : l1.finPlace.2 = l1.vsize := by
    simp only [finPlace, place_snd, hstart, hkeep]
    rw [hsumR, hO']
    omega
  have hlen : l1.finTrim.2.2.length = l1.children.length - k := by
    rw [hkeep, hR, window_length]
  have hatEnd : l1.finAtEnd = true := by
    simp only [finAtEnd, hend, hlen, hF']
    simp only [ge_iff_le, le_refl, decide_True, Bool.and_true, decide_eq_true_eq]
    omega
  refine ⟨l2, f, h1, by rw [hbe, hatEnd]; rfl, ?_, by rw [hfpos, hend], ?_, ?_⟩
  · rw [hch, hkeep, hR, window_getLast _ _ _ _ (by omega)]
    congr 2
    omega
  · rw [hch, hfirst, hkeep, hF', hR, window_length]
  · rw [hch, hfirst, hlen, hF']
    omega

/-- Scrolling past the end over unbounded integers: for a list whose items all have positive main
axis size and whose total size `T` is at least the main axis maximum `V` of the viewport,
with `V > 0`, or `V = 0` and `First < len`, starting from a position with
`0 ≤ First ≤ len` and `Offset ≥ 0` that is not pinned to the end, a `Layout` call with a
scroll delta `d ≥ T` returns with `Position.BeforeEnd = false`, the last kept child is
item `len - 1`, and the running main axis position after it is `V`. -/
theorem pastEnd_clamp (w : ListElement κ) (l : LayoutList κ) (gtx : Context)
    (len : Int) (fuel : Nat) (hd : l.dir = iterateNone) (hpin : l.scrollToEnd = false)
    (hlen : 0 ≤ len)
    (hs : ∀ i, 0 ≤ i → i < len → 0 < sizeAt l.Axis w (childContext l.Axis gtx) i)
    (hTV : (axisMainConstraint l.Axis gtx.Constraints).2 ≤
      totalSize l.Axis w (childContext l.Axis gtx) len)
    (hF : 0 ≤ l.Position.First) (hFl : l.Position.First ≤ len) (hO : 0 ≤ l.Position.Offset)
    (hdelta : totalSize l.Axis w (childContext l.Axis gtx) len ≤ gtx.delta)
    (hV : 0 < (axisMainConstraint l.Axis gtx.Constraints).2 ∨
      ((axisMainConstraint l.Axis gtx.Constraints).2 = 0 ∧ l.Position.First < len))
    (hfuel : len.toNat ≤ fuel) :
    ∃ l2 f, Layout fuel l gtx len w = .ok (l2, f) ∧ l2.Position.BeforeEnd = false ∧
      f.children.getLast? = some ⟨(w (childContext l.Axis gtx) (len - 1)).1.Size,
        (w (childContext l.Axis gtx) (len - 1)).2⟩ ∧
      f.pos = (axisMainConstraint l.Axis gtx.Constraints).2 := by
  obtain ⟨l1, tr, hg, hd1, hL, hlast, hedge, hpos, hO1⟩ :=
    pastEnd_run w l gtx len fuel hd hpin hlen hs hTV hF hFl hO hdelta hV hfuel
  have hl1 : l1.len = len := by rw [hg.same.len, initOk_len]
  have hv1 : l1.vsize = (axisMainConstraint l.Axis gtx.Constraints).2 := by
    rw [sameCore_vsize hg.same, initOk_vsize]
  obtain ⟨l2, f, h1, h2, h3, h4, _⟩ := layout_flush hg hd1 tr
    (by intro i h1 h2; rw [initOk_axis]; rw [initOk_len] at h2; exact hs i h1 h2)
    (by rw [hl1]; exact hlast) (by rw [hv1]; exact hedge) (by rw [hv1]; omega) hpos hO1
  exact ⟨l2, f, hL.trans h1, h2, by rw [h3, hl1]; rfl, by rw [h4, hv1]⟩

/-! ### Two frames without input (C5) -/

theorem wsum_mono (s : Int → Int) (F : Int) (j n : Nat) (hj : j ≤ n)
    (h : ∀ i, F ≤ i → i < F + (n : Int) → 0 ≤ s i) : wsum s F j ≤ wsum s F n := by
  obtain ⟨r, rfl⟩ : ∃ r, n = j + r := ⟨n - j, by omega⟩
  rw [wsum_add]
  have := wsum_nonneg s (F + (j : Int)) r (fun i h1 h2 => h i (by omega) (by push_cast; omega))
  omega

theorem next_none_covers_or_exhausts_witness :
    ((exFilled false false 1 4 0 25 5 3).next.dir = iterateNone ∧
      (exFilled false false 0 5 0 50 3 3).next.dir = iterateNone ∧
      (exFilled true false 2 5 (-3) 25 5 3).next.dir = iterateNone) ∧
    (((exFilled false false 1 4 0 25 5 3).next.maxSize -
          (exFilled false false 1 4 0 25 5 3).next.Position.Offset ≥
        (axisMainConstraint (exFilled false false 1 4 0 25 5 3).next.Axis
          (exFilled false false 1 4 0 25 5 3).next.cs).2 ∨
      ((exFilled false false 1 4 0 25 5 3).next.children.length : Int) =
        (exFilled false false 1 4 0 25 5 3).next.len) ∧
    ((exFilled false false 0 5 0 50 3 3).next.maxSize -
          (exFilled false false 0 5 0 50 3 3).next.Position.Offset ≥
        (axisMainConstraint (exFilled false false 0 5 0 50 3 3).next.Axis
          (exFilled false false 0 5 0 50 3 3).next.cs).2 ∨
      ((exFilled false false 0 5 0 50 3 3).next.children.length : Int) =
        (exFilled false false 0 5 0 50 3 3).next.len) ∧
    ((exFilled true false 2 5 (-3) 25 5 3).next.maxSize -
          (exFilled true false 2 5 (-3) 25 5 3).next.Position.Offset ≥
        (axisMainConstraint (exFilled true false 2 5 (-3) 25 5 3).next.Axis
          (exFilled true false 2 5 (-3) 25 5 3).next.cs).2 ∨
      ((exFilled true false 2 5 (-3) 25 5 3).next.children.length : Int) =
        (exFilled true false 2 5 (-3) 25 5 3).next.len)) ∧
    ((exFilled false false 1 4 0 25 5 3).next.Position = ⟨false, 1, 4⟩ ∧
      (exFilled false false 0 5 0 50 3 3).next.Position = ⟨false, 0, 0⟩ ∧
      (exFilled true false 2 5 (-3) 25 5 3).next.Position = ⟨true, 2, 2⟩) :=
  ⟨⟨by decide, by decide, by decide⟩,
    ⟨next_none_covers_or_exhausts (exFilled false false 1 4 0 25 5 3) (by decide),
      next_none_covers_or_exhausts (exFilled false false 0 5 0 50 3 3) (by decide),
      next_none_covers_or_exhausts (exFilled true false 2 5 (-3) 25 5 3) (by decide)⟩,
    ⟨by decide, by decide, by decide⟩⟩

theorem window_contiguity_witness :
    exList.init (exContext 50 0) 3 = .ok (exList.initOk (exContext 50 0) 3) ∧
    ∃ l1 tr, fillIter (exUniform 10) (childContext exList.Axis (exContext 50 0)) 2
        (exList.initOk (exContext 50 0) 3).next = .ok (l1, tr) ∧
      Contiguous (exUniform 10) (childContext exList.Axis (exContext 50 0))
        l1.Position.First l1.children ∧
      (l1.more = true → ∃ i l2, l1.index = .ok i ∧
        l1.end_ (exUniform 10 (childContext exList.Axis (exContext 50 0)) i).1
          (exUniform 10 (childContext exList.Axis (exContext 50 0)) i).2 = .ok l2 ∧
        Contiguous (exUniform 10) (childContext exList.Axis (exContext 50 0))
          l2.Position.First l2.children) ∧
      Contiguous (exUniform 10) (childContext exList.Axis (exContext 50 0))
        (skipInvisible l1.Axis l1.Position l1.children).1.First
        (skipInvisible l1.Axis l1.Position l1.children).2 :=
  ⟨rfl, window_contiguity (exUniform 10) exList _ (exContext 50 0) 3 rfl 2⟩

theorem first_in_range_after_Layout_witness :
    (exList.dir = iterateNone ∧ 0 ≤ exList.Position.First ∧ (0 : Int) ≤ 3 ∧
      0 ≤ (axisMainConstraint exList.Axis (exContext 50 7).Constraints).2 ∧
      (∀ i : Int, 0 ≤ i → i < 3 → 0 ≤ axisMain exList.Axis
        (exUniform 10 (childContext exList.Axis (exContext 50 7)) i).1.Size) ∧
      (3 : Int).toNat ≤ 3) ∧
    ∃ l2 f, Layout 3 exList (exContext 50 7) 3 (exUniform 10) = .ok (l2, f) ∧
      0 ≤ l2.Position.First ∧ l2.Position.First ≤ 3 ∧
      (l2.Position.First = 3 → f.children = [] ∧ f.placed = [] ∧ l2.Position.Offset = 0) :=
  ⟨⟨rfl, by decide, by decide, by decide, fun _ _ _ => (by decide : (0 : Int) ≤ 10), by decide⟩,
    first_in_range_after_Layout (exUniform 10) exList (exContext 50 7) 3 3 rfl (by decide)
      (by decide) (by decide) (fun _ _ _ => (by decide : (0 : Int) ≤ 10)) (by decide)⟩

theorem offset_normalized_after_Layout_witness :
    (exList.dir = iterateNone ∧ 0 ≤ exList.Position.First ∧ (0 : Int) ≤ 3 ∧
      (∀ i : Int, 0 ≤ i → i < 3 → 0 ≤ axisMain exList.Axis
        (exUniform 10 (childContext exList.Axis (exContext 50 7)) i).1.Size) ∧
      (3 : Int).toNat ≤ 3) ∧
    ∃ l2 f, Layout 3 exList (exContext 50 7) 3 (exUniform 10) = .ok (l2, f) ∧
      0 ≤ l2.Position.Offset ∧
      (f.children ≠ [] →
        f.children.head? = some
          ⟨(exUniform 10 (childContext exList.Axis (exContext 50 7)) l2.Position.First).1.Size,
            (exUniform 10 (childContext exList.Axis (exContext 50 7)) l2.Position.First).2⟩ ∧
        l2.Position.Offset ≤ axisMain exList.Axis
          (exUniform 10 (childContext exList.Axis (exContext 50 7)) l2.Position.First).1.Size) :=
  ⟨⟨rfl, by decide, by decide, fun _ _ _ => (by decide : (0 : Int) ≤ 10), by decide⟩,
    offset_normalized_after_Layout (exUniform 10) exList (exContext 50 7) 3 3 rfl (by decide)
      (by decide) (fun _ _ _ => (by decide : (0 : Int) ≤ 10)) (by decide)⟩

set_option maxRecDepth 100000 in
/-- C7, the code at the input of the claim: 100 items of size 10, a viewport of main axis
size 50, the zero position and a scroll delta of 1000, or of 1000000. `Layout` ends with
`Position.First = 94` and `Position.Offset = 10` and keeps the six items 94..99, the
first of which lies wholly before the viewport; the claim expects `First = 95`,
`Offset = 0` and the five items 95..99. -/
theorem scroll_to_end_example_outcome :
    outcome (Layout 100 exList (exContext 50 1000) 100 (exUniform 10)) =
        some (⟨false, 94, 10⟩, [94, 95, 96, 97, 98, 99]) ∧
      outcome (Layout 100 exList (exContext 50 1000000) 100 (exUniform 10)) =
        some (⟨false, 94, 10⟩, [94, 95, 96, 97, 98, 99]) := by
  decide

theorem backward_fill_witness :
    ((exListAt false false 10 (-5)).dir = iterateNone ∧
      (exListAt false false 10 (-5)).ScrollToEnd = false ∧
      (exListAt false false 10 (-5)).Position.First = 10 ∧
      (exListAt false false 10 (-5)).Position.Offset = -5 ∧ (exContext 40 0).delta = 0 ∧
      (∀ i : Int, 0 ≤ i → i < 12 → sizeAt (exListAt false false 10 (-5)).Axis (exUniform 20)
        (childContext (exListAt false false 10 (-5)).Axis (exContext 40 0)) i = 20) ∧
      (10 : Int) < 12 ∧
      (axisMainConstraint (exListAt false false 10 (-5)).Axis
        (exContext 40 0).Constraints).2 ≤ 20 * (12 - 10) + 5 ∧
      (12 : Int).toNat ≤ 12) ∧
    ∃ l2 f, Layout 12 (exListAt false false 10 (-5)) (exContext 40 0) 12 (exUniform 20) =
        .ok (l2, f) ∧
      (∃ k : Nat, f.built = (List.range k).map (fun (j : Nat) => (10 : Int) + j) ++ [9]) ∧
      l2.Position.First = 9 ∧ l2.Position.Offset = 15 :=
  ⟨⟨rfl, rfl, rfl, rfl, rfl, fun _ _ _ => rfl, by decide, by decide, by decide⟩,
    backward_fill (exUniform 20) (exListAt false false 10 (-5)) (exContext 40 0) 12 12 rfl rfl
      rfl rfl rfl (fun _ _ _ => rfl) (by decide) (by decide) (by decide)⟩

theorem end_alignment_short_content_witness :
    ((exListAt true true 0 0).dir = iterateNone ∧ (exListAt true true 0 0).ScrollToEnd = true ∧
      (1 : Int) ≤ 3 ∧ 0 ≤ (exListAt true true 0 0).Position.First ∧
      (∀ i : Int, 0 ≤ i → i < 3 → 0 ≤ sizeAt (exListAt true true 0 0).Axis (exUniform 10)
        (childContext (exListAt true true 0 0).Axis (exContext 50 0)) i) ∧
      wsum (sizeAt (exListAt true true 0 0).Axis (exUniform 10)
          (childContext (exListAt true true 0 0).Axis (exContext 50 0))) 0 (3 : Int).toNat <
        (axisMainConstraint (exListAt true true 0 0).Axis (exContext 50 0).Constraints).2 ∧
      (3 : Int).toNat ≤ 3) ∧
    ∃ l2 f, Layout 3 (exListAt true true 0 0) (exContext 50 0) 3 (exUniform 10) = .ok (l2, f) ∧
      f.children.length = (3 : Int).toNat ∧
      Contiguous (exUniform 10) (childContext (exListAt true true 0 0).Axis (exContext 50 0))
        0 f.children ∧
      f.placed.map (fun p => axisMain (exListAt true true 0 0).Axis p.offset) =
        (List.range (3 : Int).toNat).map (fun i =>
          (axisMainConstraint (exListAt true true 0 0).Axis (exContext 50 0).Constraints).2 -
            wsum (sizeAt (exListAt true true 0 0).Axis (exUniform 10)
              (childContext (exListAt true true 0 0).Axis (exContext 50 0))) 0 (3 : Int).toNat +
            wsum (sizeAt (exListAt true true 0 0).Axis (exUniform 10)
              (childContext (exListAt true true 0 0).Axis (exContext 50 0))) 0 i) ∧
      f.placed.head?.map (fun p => axisMain (exListAt true true 0 0).Axis p.offset) =
        some ((axisMainConstraint (exListAt true true 0 0).Axis (exContext 50 0).Constraints).2 -
          wsum (sizeAt (exListAt true true 0 0).Axis (exUniform 10)
            (childContext (exListAt true true 0 0).Axis (exContext 50 0))) 0 (3 : Int).toNat) :=
  ⟨⟨rfl, rfl, by decide, by decide, fun _ _ _ => (by decide : (0 : Int) ≤ 10), by decide,
      by decide⟩,
    end_alignment_short_content (exUniform 10) (exListAt true true 0 0) (exContext 50 0) 3 3
      rfl rfl (by decide) (by decide) (fun _ _ _ => (by decide : (0 : Int) ≤ 10)) (by decide)
      (by decide)⟩

/-! ### `init`, the protocol and the leftovers of earlier frames (C13 to C15) -/

/-- `Layout` depends on the list only through what `init` makes of it. -/
theorem Layout_of_init_eq (fuel : Nat) (l l1 : LayoutList κ) (gtx : Context) (len : Int)
    (w : ListElement κ) (h : l1.init gtx len = l.init gtx len) :
    Layout fuel l1 gtx len w = Layout fuel l gtx len w := by
  simp only [Layout, h]

/-- The list that `init` returns does not depend on the fields that `init` resets. -/
theorem initOk_of_agree (l l1 : LayoutList κ) (gtx : Context) (len : Int)
    (hP : l1.Position = l.Position) (hA : l1.Axis = l.Axis)
    (hS : l1.ScrollToEnd = l.ScrollToEnd) (hAl : l1.Alignment = l.Alignment)
    (hd : l1.dir = l.dir) : l1.initOk gtx len = l.initOk gtx len := by
  simp only [initOk, scrollToEnd, hP, hA, hS, hAl, hd]

/-- C14. Protocol misuse fails exactly when out of sequence: `index` and `end` panic if
and only if no request is outstanding and return otherwise; `init` and `layout` panic if
and only if a request is outstanding and return otherwise; and a list returned by `end`
has no request outstanding. -/
theorem protocol_misuse_fails (l : LayoutList κ) (gtx : Context) (len : Int)
    (dims : Dimensions) (call : κ) (built : List Int) :
    (l.index = .error .indexBeforeNext ↔ l.dir = iterateNone) ∧
    ((∃ i, l.index = .ok i) ↔ l.dir ≠ iterateNone) ∧
    (l.end_ dims call = .error .nextBeforeEnd ↔ l.dir = iterateNone) ∧
    ((∃ l1, l.end_ dims call = .ok l1) ↔ l.dir ≠ iterateNone) ∧
    (l.init gtx len = .error .unfinishedChild ↔ l.dir ≠ iterateNone) ∧
    ((∃ l1, l.init gtx len = .ok l1) ↔ l.dir = iterateNone) ∧
    (l.layout built = .error .unfinishedChild ↔ l.dir ≠ iterateNone) ∧
    ((∃ r, l.layout built = .ok r) ↔ l.dir = iterateNone) ∧
    (∀ l1, l.end_ dims call = .ok l1 → l1.dir = iterateNone) := by
  refine ⟨?_, ?_, ?_, ?_, ?_, ?_, ?_, ?_, ?_⟩
  · cases hd : l.dir <;> simp [index, hd]
  · cases hd : l.dir <;> simp [index, hd]
  · cases hd : l.dir <;> simp [end_, hd]
  · cases hd : l.dir <;> simp [end_, hd]
  · constructor
    · intro h hd
      rw [init_eq l gtx len hd] at h
      cases h
    · exact init_error l gtx len
  · constructor
    · rintro ⟨l1, h⟩
      by_contra hd
      rw [init_error l gtx len hd] at h
      cases h
    · intro hd
      exact ⟨_, init_eq l gtx len hd⟩
  · constructor
    · intro h hd
      obtain ⟨l2, f, h2, _⟩ := layout_ok l built hd
      rw [h2] at h
      cases h
    · intro hd
      simp [layout, more, hd]
  · constructor
    · rintro ⟨r, h⟩
      by_contra hd
      simp [layout, more, hd] at h
    · intro hd
      obtain ⟨l2, f, h2, _⟩ := layout_ok l built hd
      exact ⟨_, h2⟩
  · intro l1 h
    cases hd : l.dir <;> simp only [end_, hd] at h
    · cases h
    · cases h; rfl
    · cases h; rfl

/-- C15. No hidden state: two lists with no outstanding request that agree on the
position and on the configuration (`Axis`, `ScrollToEnd`, `Alignment`), whatever their
fields `cs`, `scrollDelta`, `len`, `maxSize` and `children` hold, give the same result of
`Layout` for the same constraints, item count, element callback and scroll delta: the
same dimensions, indices built, placed children and final position (and the same panic or
lack of fuel when there is no result). -/
theorem no_hidden_state (fuel : Nat) (l l1 : LayoutList κ) (gtx : Context) (len : Int)
    (w : ListElement κ) (hd : l.dir = iterateNone) (hd1 : l1.dir = iterateNone)
    (hP : l1.Position = l.Position) (hA : l1.Axis = l.Axis)
    (hS : l1.ScrollToEnd = l.ScrollToEnd) (hAl : l1.Alignment = l.Alignment) :
    Layout fuel l1 gtx len w = Layout fuel l gtx len w := by
  apply Layout_of_init_eq
  rw [init_eq l gtx len hd, init_eq l1 gtx len hd1,
    initOk_of_agree l l1 gtx len hP hA hS hAl (hd1.trans hd.symm)]

/-! ### The indices built in a frame (C19, C20) -/

theorem enumerates_nil (F : Int) : Enumerates [] F 0 := by
  refine ⟨rfl, List.nodup_nil, ?_⟩
  intro i
  simp only [List.not_mem_nil, Nat.cast_zero, add_zero, false_iff, not_and, not_lt]
  exact fun h => h

theorem enumerates_forward {tr : List Int} {F : Int} {n : Nat} (h : Enumerates tr F n) :
    Enumerates (tr ++ [F + (n : Int)]) F (n + 1) := by
  obtain ⟨h1, h2, h3⟩ := h
  refine ⟨by simp [h1], ?_, ?_⟩
  · rw [List.nodup_append]
    refine ⟨h2, List.nodup_singleton _, ?_⟩
    intro a ha hb
    rw [List.mem_singleton] at hb
    have := (h3 a).1 ha
    omega
  · intro i
    rw [List.mem_append, List.mem_singleton, h3]
    push_cast
    omega

theorem enumerates_backward {tr : List Int} {F : Int} {n : Nat} (h : Enumerates tr F n) :
    Enumerates (tr ++ [F - 1]) (F - 1) (n + 1) := by
  obtain ⟨h1, h2, h3⟩ := h
  refine ⟨by simp [h1], ?_, ?_⟩
  · rw [List.nodup_append]
    refine ⟨h2, List.nodup_singleton _, ?_⟩
    intro a ha hb
    rw [List.mem_singleton] at hb
    have := (h3 a).1 ha
    omega
  · intro i
    rw [List.mem_append, List.mem_singleton, h3]
    push_cast
    omega

/-- The rounds of the fill loop keep the list of the indices built an enumeration of the
indices of the window, in any number of rounds. -/
theorem fillIter_enumerates (w : ListElement κ) (l : LayoutList κ) (gtx : Context)
    (len : Int) (hF : 0 ≤ l.Position.First) (hlen : 0 ≤ len) (n : Nat) :
    ∃ l1 tr, fillIter w (childContext l.Axis gtx) n (l.initOk gtx len).next = .ok (l1, tr) ∧
      Good w (childContext l.Axis gtx) (l.initOk gtx len) l1 ∧
      Enumerates tr l1.Position.First l1.children.length ∧
      (len.toNat ≤ n → l1.dir = iterateNone) := by
  have hs := initOk_struct w (childContext l.Axis gtx) l gtx len hF hlen
  have hg : Good w (childContext l.Axis gtx) (l.initOk gtx len) (l.initOk gtx len).next :=
    good_next ⟨rfl, rfl, rfl, rfl, rfl, rfl⟩ hs
  have e2 := (sameWindow_next (l.initOk gtx len)).children
  have e4 : (l.initOk gtx len).children = [] := by simp only [initOk]; split_ifs <;> rfl
  obtain ⟨l1, tr, hrun, hg1, hi1, hdone⟩ :=
    fillIter_rule w (childContext l.Axis gtx) (l.initOk gtx len)
      (fun l1 tr => Enumerates tr l1.Position.First l1.children.length)
      (by
        intro l1 tr _ hI _ _
        rw [(sameWindow_next _).first, (sameWindow_next _).children]
        simp only [afterForward, List.length_append, List.length_singleton]
        exact enumerates_forward hI)
      (by
        intro l1 tr _ hI _ _
        rw [(sameWindow_next _).first, (sameWindow_next _).children]
        simp only [afterBackward, List.length_cons]
        exact enumerates_backward hI)
      n _ [] hg (by show Enumerates [] _ _; rw [e2, e4]; exact enumerates_nil _)
  refine ⟨l1, tr, hrun, hg1, by simpa using hi1, ?_⟩
  intro hn
  apply hdone
  have e1 := (sameWindow_next (l.initOk gtx len)).len
  simp only [roundsLeft, e1, e2, initOk_len, e4, List.length_nil]
  simpa using hn

/-- The indices that enumerate a window inside `[0, len)` are indices of the list, and
there are at most `len` of them. -/
theorem enumerates_bounds {tr : List Int} {F len : Int} {n : Nat} (h : Enumerates tr F n)
    (hF : 0 ≤ F) (hl : F + (n : Int) ≤ len) :
    (∀ i ∈ tr, 0 ≤ i ∧ i < len) ∧ tr.length ≤ len.toNat := by
  refine ⟨?_, ?_⟩
  · intro i hi
    have := (h.2.2 i).1 hi
    omega
  · rw [h.1]
    omega

/-- C19. Requested indices are always valid: in a frame started with an item count
`len ≥ 0` and `Position.First ≥ 0`, after any number of rounds of the fill loop every
index built so far lies in `[0, len)`, the index that `index` returns for the next round
lies in `[0, len)`, a forward item is requested only when `First + |children| < len` and
a backward item only when `First > 0`; hence all indices built in a `Layout` call lie in
`[0, len)`. -/
theorem requested_indices_valid (w : ListElement κ) (l l0 : LayoutList κ) (gtx : Context)
    (len : Int) (hinit : l.init gtx len = .ok l0) (hF : 0 ≤ l.Position.First)
    (hlen : 0 ≤ len) :
    (∀ n : Nat, ∃ l1 tr, fillIter w (childContext l.Axis gtx) n l0.next = .ok (l1, tr) ∧
      (∀ i ∈ tr, 0 ≤ i ∧ i < len) ∧
      (l1.more = true → ∃ i, l1.index = .ok i ∧ 0 ≤ i ∧ i < len) ∧
      (l1.dir = iterateForward → l1.Position.First + (l1.children.length : Int) < len) ∧
      (l1.dir = iterateBackward → 0 < l1.Position.First)) ∧
    (∀ fuel : Nat, len.toNat ≤ fuel →
      ∃ l2 f, Layout fuel l gtx len w = .ok (l2, f) ∧ ∀ i ∈ f.built, 0 ≤ i ∧ i < len) := by
  have hd : l.dir = iterateNone := by
    by_contra hd
    rw [init_error l gtx len hd] at hinit
    cases hinit
  rw [init_eq l gtx len hd] at hinit
  have e0 : l0 = l.initOk gtx len := by cases hinit; rfl
  subst e0
  constructor
  · intro n
    obtain ⟨l1, tr, hrun, hg, hI, _⟩ := fillIter_enumerates w l gtx len hF hlen n
    have hl1 : l1.len = len := by rw [hg.same.len, initOk_len]
    have hb := hg.struct.last_le
    have hf := hg.struct.first_nonneg
    rw [hl1] at hb
    refine ⟨l1, tr, hrun, (enumerates_bounds hI hf hb).1, ?_, ?_, ?_⟩
    · intro hm
      rcases more_cases l1 hm with h | h
      · have := (hg.post.fwd h).1
        exact ⟨l1.Position.First + (l1.children.length : Int), by simp only [index, h],
          by omega, by omega⟩
      · have := (hg.post.bwd h).1
        exact ⟨l1.Position.First - 1, by simp only [index, h], by omega, by omega⟩
    · intro h
      have := (hg.post.fwd h).1
      omega
    · intro h
      exact (hg.post.bwd h).1
  · intro fuel hfuel
    obtain ⟨l1, tr, hrun, hg, hI, hdone⟩ := fillIter_enumerates w l gtx len hF hlen fuel
    have hd1 := hdone hfuel
    have hl1 : l1.len = len := by rw [hg.same.len, initOk_len]
    have hb := hg.struct.last_le
    have hf := hg.struct.first_nonneg
    rw [hl1] at hb
    obtain ⟨l2, f, h1, _, _, _, _, _, _, _, _, hbuilt, _⟩ := layout_ok l1 tr hd1
    refine ⟨l2, f, ?_, by rw [hbuilt]; exact (enumerates_bounds hI hf hb).1⟩
    rw [Layout_eq fuel l gtx len w hd, fillLoop_of_fillIter _ _ _ _ _ _ hrun hd1]
    exact h1

/-- C20. The fill loop terminates: for a `Layout` call with an item count `len ≥ 0` and a
starting `Position.First ≥ 0`, the loop `for l.next(); l.more(); l.next()` run with fuel
for `len` rounds (or more) ends with direction `iterateNone`, after at most `len` calls
of the element callback and without building an index twice, and `Layout` returns with
these indices. -/
theorem fill_loop_terminates (w : ListElement κ) (l l0 : LayoutList κ) (gtx : Context)
    (len : Int) (fuel : Nat) (hinit : l.init gtx len = .ok l0) (hF : 0 ≤ l.Position.First)
    (hlen : 0 ≤ len) (hfuel : len.toNat ≤ fuel) :
    ∃ l1 tr, fillLoop w (childContext l.Axis gtx) fuel l0.next = .ok (l1, tr) ∧
      l1.dir = iterateNone ∧ tr.length ≤ len.toNat ∧ tr.Nodup ∧
      ∃ l2 f, Layout fuel l gtx len w = .ok (l2, f) ∧ f.built = tr := by
  have hd : l.dir = iterateNone := by
    by_contra hd
    rw [init_error l gtx len hd] at hinit
    cases hinit
  rw [init_eq l gtx len hd] at hinit
  have e0 : l0 = l.initOk gtx len := by cases hinit; rfl
  subst e0
  obtain ⟨l1, tr, hrun, hg, hI, hdone⟩ := fillIter_enumerates w l gtx len hF hlen fuel
  have hd1 := hdone hfuel
  have hl1 : l1.len = len := by rw [hg.same.len, initOk_len]
  have hb := hg.struct.last_le
  have hf := hg.struct.first_nonneg
  rw [hl1] at hb
  have hloop := fillLoop_of_fillIter _ _ _ _ _ _ hrun hd1
  obtain ⟨l2, f, h1, _, _, _, _, _, _, _, _, hbuilt, _⟩ := layout_ok l1 tr hd1
  refine ⟨l1, tr, hloop, hd1, (enumerates_bounds hI hf hb).2, hI.2.1, l2, f, ?_, hbuilt⟩
  rw [Layout_eq fuel l gtx len w hd, hloop]
  exact h1

/-! ### Cross axis alignment and clip rectangles (C11, C17) -/

theorem mem_window (w : ListElement κ) (g : Context) (F : Int) (n : Nat) (c : scrollChild κ)
    (h : c ∈ window w g F n) :
    ∃ i, F ≤ i ∧ i < F + (n : Int) ∧ c = childAt w g i := by
  simp only [window, List.mem_map, List.mem_range] at h
  obtain ⟨j, hj, rfl⟩ := h
  exact ⟨F + (j : Int), by omega, by omega, rfl⟩

/-- The value of `maxCross` after the second loop of `layout` is the larger of its
initial value and the cross sizes of the children kept. -/
theorem trimTrailing_maxCross (a : GioLayout.Axis) (V size mc : Int)
    (cs : List (scrollChild κ)) :
    mc ≤ (trimTrailing a V size mc cs).2.1 ∧
    (∀ c ∈ (trimTrailing a V size mc cs).2.2,
      axisCross a c.size ≤ (trimTrailing a V size mc cs).2.1) ∧
    ((trimTrailing a V size mc cs).2.1 = mc ∨
      ∃ c ∈ (trimTrailing a V size mc cs).2.2,
        axisCross a c.size = (trimTrailing a V size mc cs).2.1) := by
  induction cs generalizing size mc with
  | nil => simp [trimTrailing]
  | cons c cs ih =>
    by_cases hc : size + axisMain a c.size ≥ V
    · simp only [trimTrailing, hc, if_true, List.mem_singleton, forall_eq, exists_eq_left]
      split_ifs <;> omega
    · by_cases hgt : axisCross a c.size > mc
      · obtain ⟨h1, h2, h3⟩ := ih (size + axisMain a c.size) (axisCross a c.size)
        simp only [trimTrailing, hc, if_false, hgt, if_true, List.mem_cons, forall_eq_or_imp,
          exists_eq_or_imp]
        refine ⟨by omega, ⟨h1, h2⟩, ?_⟩
        rcases h3 with h3 | h3
        · right; left; exact h3.symm
        · right; right; exact h3
      · obtain ⟨h1, h2, h3⟩ := ih (size + axisMain a c.size) mc
        simp only [trimTrailing, hc, if_false, hgt, List.mem_cons, forall_eq_or_imp,
          exists_eq_or_imp]
        refine ⟨h1, ⟨by omega, h2⟩, ?_⟩
        rcases h3 with h3 | h3
        · left; exact h3
        · right; right; exact h3

/-- The cross axis offsets at which `place` draws the children. -/
theorem place_cross (a : GioLayout.Axis) (al : GioLayout.Alignment) (V mc : Int) (pos : Int)
    (cs : List (scrollChild κ)) :
    (place a al V mc pos cs).1.map (fun p => axisCross a p.offset) =
      cs.map (fun c =>
        match al with
        | .Start => 0
        | .End => mc - axisCross a c.size
        | .Middle => (mc - axisCross a c.size).tdiv 2) := by
  induction cs generalizing pos with
  | nil => rfl
  | cons c cs ih =>
    simp only [place, List.map_cons, axisCross_axisPoint, ih]
    cases al <;> rfl

theorem zip_of_map_eq {α β γ : Type} (f : α → γ) (g : β → γ) :
    ∀ (xs : List α) (ys : List β), xs.map f = ys.map g →
      ∀ p ∈ xs.zip ys, f p.1 = g p.2 := by
  intro xs
  induction xs with
  | nil => intro ys _ p hp; simp at hp
  | cons x xs ih =>
    intro ys h p hp
    cases ys with
    | nil => simp at hp
    | cons y ys =>
      simp only [List.map_cons, List.cons.injEq] at h
      simp only [List.zip_cons_cons, List.mem_cons] at hp
      rcases hp with rfl | hp
      · exact h.1
      · exact ih ys h.2 p hp

theorem mainSum_cons (a : GioLayout.Axis) (c : scrollChild κ) (cs : List (scrollChild κ)) :
    mainSum a (c :: cs) = axisMain a c.size + mainSum a cs := by
  simp [mainSum]

theorem mainSum_nonneg (a : GioLayout.Axis) (cs : List (scrollChild κ))
    (h : ∀ c ∈ cs, 0 ≤ axisMain a c.size) : 0 ≤ mainSum a cs := by
  induction cs with
  | nil => simp [mainSum]
  | cons c cs ih =>
    rw [mainSum_cons]
    have h1 := h c (by simp)
    have h2 := ih (fun c1 hc1 => h c1 (by simp [hc1]))
    omega

theorem mainSum_take_le (a : GioLayout.Axis) (cs : List (scrollChild κ))
    (h : ∀ c ∈ cs, 0 ≤ axisMain a c.size) (j : Nat) :
    mainSum a (cs.take j) ≤ mainSum a cs := by
  induction cs generalizing j with
  | nil => simp
  | cons c cs ih =>
    cases j with
    | zero =>
      simp only [List.take_zero]
      have := mainSum_nonneg a (c :: cs) h
      simpa [mainSum] using this
    | succ j =>
      rw [List.take_succ_cons, mainSum_cons, mainSum_cons]
      have := ih (fun c1 hc1 => h c1 (by simp [hc1])) j
      omega

/-- A property of every element that the callback can build holds for the children at any
point of the fill loop, whatever the position the loop starts from. -/
theorem fillIter_children (P : scrollChild κ → Prop) (w : ListElement κ) (g : Context)
    (hP : ∀ i, P (childAt w g i)) :
    ∀ (n : Nat) (l l1 : LayoutList κ) (tr : List Int), fillIter w g n l = .ok (l1, tr) →
      (∀ c ∈ l.children, P c) → (∀ c ∈ l1.children, P c) ∧ SameCore l l1 := by
  intro n
  induction n with
  | zero =>
    intro l l1 tr h hc
    rw [fillIter_zero] at h
    cases h
    exact ⟨hc, ⟨rfl, rfl, rfl, rfl, rfl, rfl⟩⟩
  | succ n ih =>
    intro l l1 tr h hc
    by_cases hm : l.more = true
    · have key : ∀ (l0 : LayoutList κ) (i : Int), fillStep w g l = .ok (l0.next, i) →
          (∀ c ∈ l0.children, P c) → SameCore l l0 →
          (∀ c ∈ l1.children, P c) ∧ SameCore l l1 := by
        intro l0 i hstep hc0 hsame
        simp only [fillIter, hm, if_true, hstep] at h
        cases hr : fillIter w g n l0.next with
        | error e => rw [hr] at h; cases h
        | ok r =>
          obtain ⟨l2, tr2⟩ := r
          rw [hr] at h
          simp only [Except.ok.injEq, Prod.mk.injEq] at h
          obtain ⟨rfl, _⟩ := h
          have h2 := ih l0.next l2 tr2 hr (by rw [(sameWindow_next l0).children]; exact hc0)
          exact ⟨h2.1,
            sameCore_trans (sameCore_trans hsame (sameWindow_next l0).toSameCore) h2.2⟩
      rcases more_cases l hm with hd | hd
      · refine key _ _ (fillStep_forward w g l hd) ?_ (sameCore_afterForward w g l)
        intro c hc1
        simp only [afterForward, List.mem_append, List.mem_singleton] at hc1
        rcases hc1 with h1 | rfl
        · exact hc c h1
        · exact hP _
      · refine key _ _ (fillStep_backward w g l hd) ?_ (sameCore_afterBackward w g l)
        intro c hc1
        simp only [afterBackward, List.mem_cons] at hc1
        rcases hc1 with rfl | h1
        · exact hP _
        · exact hc c h1
    · have hm1 : l.more = false := by simpa using hm
      rw [fillIter_done w g _ l hm1] at h
      cases h
      exact ⟨hc, ⟨rfl, rfl, rfl, rfl, rfl, rfl⟩⟩

/-- A `Layout` call that returns had no request outstanding, ran the fill loop to a list
that needs no more children, and returns what `layout` makes of that list. -/
theorem Layout_ok_inv (fuel : Nat) (l : LayoutList κ) (gtx : Context) (len : Int)
    (w : ListElement κ) (l2 : LayoutList κ) (f : Frame κ)
    (h : Layout fuel l gtx len w = .ok (l2, f)) :
    l.dir = iterateNone ∧
      ∃ l1 tr, fillIter w (childContext l.Axis gtx) fuel (l.initOk gtx len).next = .ok (l1, tr) ∧
        l1.dir = iterateNone ∧ l1.layout tr = .ok (l2, f) := by
  have hd : l.dir = iterateNone := by
    by_contra hd
    simp only [Layout, init_error l gtx len hd] at h
    cases h
  refine ⟨hd, ?_⟩
  rw [Layout_eq fuel l gtx len w hd] at h
  simp only [fillLoop] at h
  cases hr : fillIter w (childContext l.Axis gtx) fuel (l.initOk gtx len).next with
  | error e => rw [hr] at h; cases h
  | ok r =>
    obtain ⟨l1, tr⟩ := r
    rw [hr] at h
    by_cases hm : l1.more = true
    · simp only [hm, if_true] at h
      cases h
    · have hm1 : l1.more = false := by simpa using hm
      simp only [hm1] at h
      exact ⟨l1, tr, rfl, by simpa [more] using hm1, h⟩

/-- The cross axis part of `layout`, for children of non-negative cross axis size. -/
theorem layout_cross (l1 l2 : LayoutList κ) (f : Frame κ) (tr : List Int)
    (hd1 : l1.dir = iterateNone)
    (hnn : ∀ c ∈ l1.children, 0 ≤ axisCross l1.Axis c.size)
    (hlay : l1.layout tr = .ok (l2, f)) :
    (∀ c ∈ f.children, axisCross l1.Axis c.size ≤ axisCross l1.Axis f.dims.Size) ∧
    (f.children ≠ [] →
      ∃ c ∈ f.children, axisCross l1.Axis c.size = axisCross l1.Axis f.dims.Size) ∧
    (f.children = [] → axisCross l1.Axis f.dims.Size = 0) ∧
    f.placed.map (fun p => axisCross l1.Axis p.offset) =
      f.children.map (fun c =>
        match l1.Alignment with
        | .Start => 0
        | .End => axisCross l1.Axis f.dims.Size - axisCross l1.Axis c.size
        | .Middle => (axisCross l1.Axis f.dims.Size - axisCross l1.Axis c.size) / 2) ∧
    ∀ pc ∈ f.placed.zip f.children,
      0 ≤ axisCross l1.Axis pc.1.offset ∧
      axisCross l1.Axis pc.1.offset + axisCross l1.Axis pc.2.size ≤
        axisCross l1.Axis f.dims.Size := by
  obtain ⟨l2', f', h1, _, _, _, _, _, hch, hpl, _, _, _, hdims⟩ := layout_ok l1 tr hd1
  rw [hlay] at h1
  cases h1
  have hmc : axisCross l1.Axis f.dims.Size = l1.finTrim.2.1 := by
    rw [hdims, axisCross_axisPoint]
  -- the children kept are children of the window
  have hsub : ∀ c ∈ f.children, c ∈ l1.children := by
    intro c hc
    rw [hch] at hc
    obtain ⟨k, _, hdrop, _⟩ := skipInvisible_spec l1.Axis l1.Position l1.children
    obtain ⟨m, _, htake, _⟩ := trimTrailing_spec l1.Axis l1.vsize (-l1.finSkip.1.Offset) 0
      l1.finSkip.2
    have hc2 : c ∈ l1.finSkip.2.take m := by
      rw [← htake]; exact hc
    have hc3 : c ∈ l1.children.drop k := by
      rw [← hdrop]; exact List.mem_of_mem_take hc2
    exact List.mem_of_mem_drop hc3
  have hnn1 : ∀ c ∈ f.children, 0 ≤ axisCross l1.Axis c.size :=
    fun c hc => hnn c (hsub c hc)
  obtain ⟨m1, m2, m3⟩ := trimTrailing_maxCross l1.Axis l1.vsize (-l1.finSkip.1.Offset) 0
    l1.finSkip.2
  have hle : ∀ c ∈ f.children, axisCross l1.Axis c.size ≤ axisCross l1.Axis f.dims.Size := by
    intro c hc
    rw [hmc]
    exact m2 c (by rw [hch] at hc; exact hc)
  have hmap : f.placed.map (fun p => axisCross l1.Axis p.offset) =
      f.children.map (fun c =>
        match l1.Alignment with
        | .Start => 0
        | .End => axisCross l1.Axis f.dims.Size - axisCross l1.Axis c.size
        | .Middle => (axisCross l1.Axis f.dims.Size - axisCross l1.Axis c.size) / 2) := by
    rw [hpl, hmc]
    simp only [finPlace]
    rw [place_cross, ← hch]
    apply List.map_congr_left
    intro c hc
    have h1 := hle c hc
    rw [hmc] at h1
    cases l1.Alignment
    · rfl
    · rfl
    · exact Int.tdiv_eq_ediv (by omega) (by decide)
  refine ⟨hle, ?_, ?_, hmap, ?_⟩
  · intro hne
    rcases m3 with h0 | ⟨c, hc, hceq⟩
    · obtain ⟨c, rest, hcr⟩ := List.exists_cons_of_ne_nil hne
      have hcm : c ∈ f.children := by rw [hcr]; simp
      refine ⟨c, hcm, ?_⟩
      have h1 := hle c hcm
      have h2 := hnn1 c hcm
      have h3 : l1.finTrim.2.1 = 0 := h0
      rw [hmc, h3] at h1 ⊢
      omega
    · exact ⟨c, by rw [hch]; exact hc, by rw [hmc]; exact hceq⟩
  · intro hnil
    rcases m3 with h0 | ⟨c, hc, _⟩
    · rw [hmc]; exact h0
    · have hc1 : c ∈ f.children := by rw [hch]; exact hc
      rw [hnil] at hc1
      simp at hc1
  · intro pc hpc
    have h1 := zip_of_map_eq _ _ _ _ hmap pc hpc
    have h2 := hle pc.2 (List.of_mem_zip hpc).2
    have h3 := hnn1 pc.2 (List.of_mem_zip hpc).2
    simp only at h1
    rw [h1]
    cases l1.Alignment
    · simp only; omega
    · simp only; omega
    · simp only
      constructor
      · exact Int.ediv_nonneg (by omega) (by decide)
      · have := Int.ediv_le_self 2 (show 0 ≤ axisCross l1.Axis f.dims.Size -
          axisCross l1.Axis pc.2.size by omega)
        omega

/-- C11. Cross axis alignment: for every `Layout` call that returns, with non-negative
cross axis sizes of the items (of all that the element callback builds, when the call
starts at a negative `First` or with a negative item count), the cross extent `maxCross`
of the returned dimensions is the maximum cross axis size of the children kept (0 when
none is kept), every child kept is drawn at cross axis offset 0 for `Start`,
`maxCross - cross` for `End` and `(maxCross - cross) / 2` for `Middle`, and so inside
`[0, maxCross]`; and the call returns when no request is outstanding, `First ≥ 0`,
`len ≥ 0` and the fuel is enough for `len` rounds. -/
theorem cross_axis_alignment (w : ListElement κ) (l : LayoutList κ) (gtx : Context)
    (len : Int) (fuel : Nat)
    (hs : ∀ i, (0 ≤ l.Position.First → 0 ≤ len → 0 ≤ i ∧ i < len) →
      0 ≤ axisCross l.Axis (w (childContext l.Axis gtx) i).1.Size) :
    (l.dir = iterateNone → 0 ≤ l.Position.First → 0 ≤ len → len.toNat ≤ fuel →
      ∃ l2 f, Layout fuel l gtx len w = .ok (l2, f)) ∧
    ∀ l2 f, Layout fuel l gtx len w = .ok (l2, f) →
      (∀ c ∈ f.children, axisCross l.Axis c.size ≤ axisCross l.Axis f.dims.Size) ∧
      (f.children ≠ [] →
        ∃ c ∈ f.children, axisCross l.Axis c.size = axisCross l.Axis f.dims.Size) ∧
      (f.children = [] → axisCross l.Axis f.dims.Size = 0) ∧
      f.placed.map (fun p => axisCross l.Axis p.offset) =
        f.children.map (fun c =>
          match l.Alignment with
          | .Start => 0
          | .End => axisCross l.Axis f.dims.Size - axisCross l.Axis c.size
          | .Middle => (axisCross l.Axis f.dims.Size - axisCross l.Axis c.size) / 2) ∧
      ∀ pc ∈ f.placed.zip f.children,
        0 ≤ axisCross l.Axis pc.1.offset ∧
        axisCross l.Axis pc.1.offset + axisCross l.Axis pc.2.size ≤
          axisCross l.Axis f.dims.Size := by
  constructor
  · intro hd hF hlen hfuel
    obtain ⟨l1, tr, l2, f, _, _, hL, _⟩ := Layout_final w l gtx len fuel hd hF hlen hfuel
    exact ⟨l2, f, hL⟩
  · intro l2 f hL
    obtain ⟨hd, l1, tr, hrun, hd1, hlay⟩ := Layout_ok_inv fuel l gtx len w l2 f hL
    have e2 := (sameWindow_next (l.initOk gtx len)).children
    have e4 : (l.initOk gtx len).children = [] := by simp only [initOk]; split_ifs <;> rfl
    have hsame : SameCore (l.initOk gtx len) l1 :=
      sameCore_trans (sameWindow_next (l.initOk gtx len)).toSameCore
        (fillIter_children (fun _ => True) w (childContext l.Axis gtx) (fun _ => trivial)
          fuel _ l1 tr hrun (fun _ _ => trivial)).2
    have hax : l1.Axis = l.Axis := by rw [hsame.axis, initOk_axis]
    have hal : l1.Alignment = l.Alignment := by
      rw [hsame.alignment]; simp only [initOk]; split_ifs <;> rfl
    have hnn : ∀ c ∈ l1.children, 0 ≤ axisCross l1.Axis c.size := by
      rw [hax]
      by_cases hwf : 0 ≤ l.Position.First ∧ 0 ≤ len
      · obtain ⟨l1', tr', hrun', hg, _, _⟩ := fillIter_enumerates w l gtx len hwf.1 hwf.2 fuel
        rw [hrun] at hrun'
        simp only [Except.ok.injEq, Prod.mk.injEq] at hrun'
        obtain ⟨rfl, _⟩ := hrun'
        have hb := hg.struct.last_le
        have hf := hg.struct.first_nonneg
        have hl1 : l1.len = len := by rw [hg.same.len, initOk_len]
        intro c hc
        rw [hg.struct.children_eq] at hc
        obtain ⟨i, h1, h2, rfl⟩ := mem_window _ _ _ _ _ hc
        exact hs i (fun _ _ => ⟨by omega, by omega⟩)
      · refine (fillIter_children (fun c => 0 ≤ axisCross l.Axis c.size) w
          (childContext l.Axis gtx) (fun i => hs i (fun h1 h2 => absurd ⟨h1, h2⟩ hwf))
          fuel _ l1 tr hrun ?_).1
        intro c hc
        rw [e2, e4] at hc
        simp at hc
    have h := layout_cross l1 l2 f tr hd1 hnn hlay
    rw [hax, hal] at h
    exact h

theorem wsum_before (s : Int → Int) (F : Int) (k : Nat) (hF : 0 ≤ F) :
    wsum s 0 (F + (k : Int)).toNat = wsum s 0 F.toNat + wsum s F k := by
  have e : (F + (k : Int)).toNat = F.toNat + k := by omega
  rw [e, wsum_add]
  have e2 : (0 : Int) + (F.toNat : Int) = F := by omega
  rw [e2]

theorem scrolled_next (s : Int → Int) (T A : Int) (l : LayoutList κ)
    (hF : 0 ≤ l.Position.First)
    (hT : l.Position.First + (l.children.length : Int) = l.len →
      wsum s 0 l.Position.First.toNat + l.maxSize = T)
    (h : Scrolled s T l.vsize A l) : Scrolled s T l.vsize A l.next := by
  obtain ⟨hp, h⟩ := h
  rw [next_of_not_pinned l hp]
  refine ⟨by simpa [next1, scrollToEnd] using hp, ?_⟩
  have hB : l.Position.First = 0 → wsum s 0 l.Position.First.toNat = 0 := by
    intro h0; rw [h0]; rfl
  simp only [absPos] at h
  simp only [next1, absPos, offNext]
  generalize wsum s 0 l.Position.First.toNat = B at *
  split_ifs <;> omega

theorem scrolled_afterForward (s : Int → Int) (T V A : Int) (w : ListElement κ) (g : Context)
    (l : LayoutList κ) (h : Scrolled s T V A l) : Scrolled s T V A (afterForward w g l) := h

theorem scrolled_afterBackward (T V A : Int) (w : ListElement κ) (g : Context)
    (l : LayoutList κ) (hF : 0 < l.Position.First)
    (h : Scrolled (sizeAt l.Axis w g) T V A l) :
    Scrolled (sizeAt l.Axis w g) T V A (afterBackward w g l) := by
  obtain ⟨hp, h⟩ := h
  refine ⟨by simpa [afterBackward, scrollToEnd] using hp, ?_⟩
  have e := wsum_before (sizeAt l.Axis w g) (l.Position.First - 1) 1 (by omega)
  have e1 : l.Position.First - 1 + ((1 : Nat) : Int) = l.Position.First := by
    push_cast; ring
  rw [e1] at e
  simp only [wsum, add_zero, zero_add, Nat.cast_zero] at e
  simp only [absPos] at h
  simp only [afterBackward, absPos]
  omega

/-- The absolute scroll position over unbounded integers moves by the delta, clamped to
the scrollable range: for a list that is not pinned to its end, starts at a position with
`0 ≤ First ≤ len` and has items of non-negative main axis sizes of total `T`, a `Layout`
call with scroll delta `d` and viewport main maximum `V` returns and leaves the position
at the absolute position `min (max (abs + d) 0) (max (T - V) 0)`, where `abs` is the
absolute position at the start. -/
theorem absPos_clamped (w : ListElement κ) (l : LayoutList κ) (gtx : Context)
    (len : Int) (fuel : Nat) (hd : l.dir = iterateNone) (hpin : l.scrollToEnd = false)
    (hF : 0 ≤ l.Position.First) (hFl : l.Position.First ≤ len)
    (hs : ∀ i, 0 ≤ i → i < len → 0 ≤ sizeAt l.Axis w (childContext l.Axis gtx) i)
    (hfuel : len.toNat ≤ fuel) :
    ∃ l2 f, Layout fuel l gtx len w = .ok (l2, f) ∧
      absPos (sizeAt l.Axis w (childContext l.Axis gtx)) l2.Position =
        min (max (absPos (sizeAt l.Axis w (childContext l.Axis gtx)) l.Position + gtx.delta) 0)
          (max (totalSize l.Axis w (childContext l.Axis gtx) len -
            (axisMainConstraint l.Axis gtx.Constraints).2) 0) := by
  have hlen : 0 ≤ len := by omega
  have hinit := initOk_of_not_pinned l gtx len hpin hFl
  -- the facts that the window invariant gives to `scrolled_next`
  have hstep : ∀ l1 : LayoutList κ, SameCore (l.initOk gtx len) l1 →
      Struct w (childContext l.Axis gtx) l1 →
      Scrolled (sizeAt l.Axis w (childContext l.Axis gtx))
        (totalSize l.Axis w (childContext l.Axis gtx) len)
        (axisMainConstraint l.Axis gtx.Constraints).2
        (absPos (sizeAt l.Axis w (childContext l.Axis gtx)) l.Position + gtx.delta) l1 →
      Scrolled (sizeAt l.Axis w (childContext l.Axis gtx))
        (totalSize l.Axis w (childContext l.Axis gtx) len)
        (axisMainConstraint l.Axis gtx.Constraints).2
        (absPos (sizeAt l.Axis w (childContext l.Axis gtx)) l.Position + gtx.delta) l1.next := by
    intro l1 hsame hst h
    have hv : l1.vsize = (axisMainConstraint l.Axis gtx.Constraints).2 := by
      rw [sameCore_vsize hsame, initOk_vsize]
    have hax : l1.Axis = l.Axis := by rw [hsame.axis, initOk_axis]
    have hl : l1.len = len := by rw [hsame.len, initOk_len]
    rw [← hv] at h ⊢
    refine scrolled_next _ _ _ l1 hst.first_nonneg ?_ h
    intro he
    rw [hst.maxSize_eq, hax, ← wsum_before _ _ _ hst.first_nonneg, he, hl]
    rfl
  obtain ⟨l1, tr, hg, hI, hd1, hL⟩ := Layout_run w l gtx len fuel
    (fun l1 _ => Scrolled (sizeAt l.Axis w (childContext l.Axis gtx))
        (totalSize l.Axis w (childContext l.Axis gtx) len)
        (axisMainConstraint l.Axis gtx.Constraints).2
        (absPos (sizeAt l.Axis w (childContext l.Axis gtx)) l.Position + gtx.delta) l1)
    hd hF hlen hfuel
    (by
      intro _
      refine hstep _ ⟨rfl, rfl, rfl, rfl, rfl, rfl⟩ (initOk_struct w _ l gtx len hF hlen) ?_
      refine ⟨by rw [hinit]; exact hpin, Or.inl ?_⟩
      rw [hinit]
      simp only [absPos]
      ring)
    (by
      intro l1 tr hg hI hf _
      exact hstep _ (sameCore_trans hg.same (sameCore_afterForward _ _ l1))
        (struct_afterForward hg.struct (hg.post.fwd hf).1)
        (scrolled_afterForward _ _ _ _ w _ l1 hI))
    (by
      intro l1 tr hg hI hb _
      have hax : l1.Axis = l.Axis := by rw [hg.same.axis, initOk_axis]
      refine hstep _ (sameCore_trans hg.same (sameCore_afterBackward _ _ l1))
        (struct_afterBackward hg.struct (hg.post.bwd hb).1) ?_
      have := scrolled_afterBackward
        (totalSize l.Axis w (childContext l.Axis gtx) len)
        (axisMainConstraint l.Axis gtx.Constraints).2
        (absPos (sizeAt l.Axis w (childContext l.Axis gtx)) l.Position + gtx.delta)
        w (childContext l.Axis gtx) l1 (hg.post.bwd hb).1 (by rw [hax]; exact hI)
      rw [hax] at this
      exact this)
  obtain ⟨l2, f, hlay, _, hF2, hO2, _⟩ := layout_ok l1 tr hd1
  refine ⟨l2, f, by rw [hL]; exact hlay, ?_⟩
  have hax : l1.Axis = l.Axis := by rw [hg.same.axis, initOk_axis]
  have hl : l1.len = len := by rw [hg.same.len, initOk_len]
  have hv : l1.vsize = (axisMainConstraint l.Axis gtx.Constraints).2 := by
    rw [sameCore_vsize hg.same, initOk_vsize]
  have hfin := hg.post.fin hd1
  have hb := hg.struct.last_le
  have hf := hg.struct.first_nonneg
  -- the loop "Skip invisible children" keeps the absolute position
  obtain ⟨k, hk, _, hsk, _, _⟩ := skipInvisible_spec l1.Axis l1.Position l1.children
  have habs : absPos (sizeAt l.Axis w (childContext l.Axis gtx)) l2.Position =
      absPos (sizeAt l.Axis w (childContext l.Axis gtx)) l1.Position := by
    simp only [absPos]
    rw [hF2, hO2]
    have h1 : l1.finSkip.1 = _ := hsk
    rw [h1]
    simp only []
    rw [wsum_before _ _ _ hf]
    have h2 : mainSum l1.Axis (l1.children.take k) =
        wsum (sizeAt l.Axis w (childContext l.Axis gtx)) l1.Position.First k := by
      rw [hg.struct.children_eq, window_take _ _ _ _ _ (by simpa using hk), mainSum_window, hax]
    rw [h2]
    ring
  rw [habs]
  -- the end of the window is before the end of the list
  have hE : wsum (sizeAt l.Axis w (childContext l.Axis gtx)) 0 l1.Position.First.toNat +
      l1.maxSize ≤ totalSize l.Axis w (childContext l.Axis gtx) len := by
    rw [hg.struct.maxSize_eq, hax, ← wsum_before _ _ _ hf]
    apply wsum_mono
    · omega
    · intro i h1 h2
      exact hs i h1 (by omega)
  have hB : l1.Position.First = 0 →
      wsum (sizeAt l.Axis w (childContext l.Axis gtx)) 0 l1.Position.First.toNat = 0 := by
    intro h0; rw [h0]; rfl
  have hB0 : 0 ≤ wsum (sizeAt l.Axis w (childContext l.Axis gtx)) 0 l1.Position.First.toNat :=
    wsum_nonneg _ _ _ (fun i h1 h2 => hs i (by omega) (by omega))
  obtain ⟨_, hI⟩ := hI
  rw [hv] at hfin
  simp only [absPos] at hI ⊢
  generalize wsum (sizeAt l.Axis w (childContext l.Axis gtx)) 0 l1.Position.First.toNat = B at *
  generalize wsum (sizeAt l.Axis w (childContext l.Axis gtx)) 0 l.Position.First.toNat = B0 at *
  omega

/-! ### A list pinned to its end (C12) -/

theorem initOk_pinned (l : LayoutList κ) (gtx : Context) (len : Int)
    (hste : l.ScrollToEnd = true) (hbe : l.Position.BeforeEnd = false) :
    l.initOk gtx len = { l with
      cs := gtx.Constraints, maxSize := 0, children := [], len := len, scrollDelta := gtx.delta
      Position := ⟨false, len, 0⟩ } := by
  simp only [initOk, scrollToEnd, hste, hbe]
  simp

theorem next_of_delta_nonneg (l : LayoutList κ) (h : 0 ≤ l.scrollDelta) : l.next = l.next1 := by
  rw [next_eq, if_neg]
  omega

theorem pinned_next (s : Int → Int) (l : LayoutList κ) (hd : 0 ≤ l.scrollDelta)
    (hV : 0 < l.vsize) (hlen : 1 ≤ l.len)
    (hlast : l.Position.First + (l.children.length : Int) = l.len)
    (hpre : (l.children.length = 0 ∧ l.Position.Offset = 0 ∧ l.maxSize = 0) ∨
      (l.maxSize - l.Position.Offset = l.vsize ∧ 0 < l.children.length ∧
        l.Position.Offset ≤ s l.Position.First ∧ 0 ≤ s l.Position.First)) :
    PinnedRun s l.next := by
  rw [next_of_delta_nonneg l hd]
  have hv : l.next1.vsize = l.vsize := rfl
  simp only [PinnedRun, hv]
  simp only [next1, offNext]
  split_ifs <;> omega

theorem place_getLast (a : GioLayout.Axis) (al : GioLayout.Alignment) (V mc : Int)
    (cs : List (scrollChild κ)) :
    ∀ (pos : Int) (c : scrollChild κ), cs.getLast? = some c →
      ∃ p, (place a al V mc pos cs).1.getLast? = some p ∧
        axisMain a p.offset + axisMain a c.size = (place a al V mc pos cs).2 := by
  induction cs with
  | nil => intro pos c h; simp at h
  | cons c0 cs ih =>
    intro pos c h
    cases cs with
    | nil =>
      simp only [List.getLast?_singleton, Option.some.injEq] at h
      subst h
      refine ⟨_, rfl, ?_⟩
      simp [place, axisMain_axisPoint]
    | cons c1 cs1 =>
      rw [List.getLast?_cons_cons] at h
      obtain ⟨p, hp, hq⟩ := ih (pos + axisMain a c0.size) c h
      refine ⟨p, ?_, hq⟩
      have e : (place a al V mc pos (c0 :: c1 :: cs1)).1 =
          (place a al V mc pos [c0]).1 ++
            (place a al V mc (pos + axisMain a c0.size) (c1 :: cs1)).1 := rfl
      rw [e]
      cases hr : (place a al V mc (pos + axisMain a c0.size) (c1 :: cs1)).1 with
      | nil => rw [hr] at hp; simp at hp
      | cons q qs =>
        rw [hr] at hp
        rw [List.getLast?_append, hp]
        rfl

/-- The finalizer at the end of the fill loop of a pinned list: nothing is skipped or cut,
the last child ends at the viewport size and the list stays at its end. -/
theorem layout_pinned {w : ListElement κ} {g : Context} {l0 l1 : LayoutList κ}
    (hg : Good w g l0 l1) (hd1 : l1.dir = iterateNone) (tr : List Int)
    (hs : ∀ i, 0 ≤ i → i < l0.len → 0 ≤ sizeAt l0.Axis w g i)
    (hlast : 0 < sizeAt l0.Axis w g (l0.len - 1))
    (hste : l1.ScrollToEnd = true)
    (hI : PinnedRun (sizeAt l0.Axis w g) l1) :
    ∃ l2 f, l1.layout tr = .ok (l2, f) ∧ l2.Position.BeforeEnd = false ∧
      f.children.getLast? = some (childAt w g (l0.len - 1)) ∧ f.pos = l1.vsize ∧
      ∃ p, f.placed.getLast? = some p ∧
        axisMain l0.Axis p.offset + sizeAt l0.Axis w g (l0.len - 1) = l1.vsize := by
  obtain ⟨l2, f, h1, _, _, _, hbe, _, hch, hpl, hfpos, _⟩ := layout_ok l1 tr hd1
  obtain ⟨i1, i2, i3, i4⟩ := hI
  have hax : l1.Axis = l0.Axis := hg.same.axis
  have hl1 : l1.len = l0.len := hg.same.len
  have hf := hg.struct.first_nonneg
  have hfin := (hg.post.fin hd1).1
  have hn : 0 < l1.children.length := by
    by_contra h
    have := i4 (by omega)
    omega
  have hms : l1.maxSize = wsum (sizeAt l0.Axis w g) l1.Position.First l1.children.length := by
    rw [hg.struct.maxSize_eq, hax]
  -- nothing is skipped
  have hskip : l1.finSkip = (l1.Position, l1.children) := by
    apply skipInvisible_of_le
    intro c rest hc
    obtain ⟨m, hm⟩ : ∃ m, l1.children.length = m + 1 := ⟨l1.children.length - 1, by omega⟩
    have h2 := hg.struct.children_eq
    rw [hm, window_cons, hc] at h2
    simp only [List.cons.injEq] at h2
    rw [h2.1, hax]
    exact i3 hn
  have hsk1 : l1.finSkip.1 = l1.Position := by rw [hskip]
  have hsk2 : l1.finSkip.2 = l1.children := by rw [hskip]
  -- nothing is cut
  obtain ⟨m, hm⟩ : ∃ m, l1.children.length = m + 1 := ⟨l1.children.length - 1, by omega⟩
  have hlastidx : l1.Position.First + (m : Int) = l0.len - 1 := by
    rw [hm] at i1; push_cast at i1; omega
  have hsplit : l1.maxSize = wsum (sizeAt l0.Axis w g) l1.Position.First m +
      sizeAt l0.Axis w g (l0.len - 1) := by
    rw [hms, hm, wsum, hlastidx]
  have htrim := trimTrailing_all l1.Axis l1.vsize (-l1.finSkip.1.Offset) 0 l1.finSkip.2 (by
    intro j hj1 hj2
    rw [hsk1, hsk2] at *
    rw [hm] at hj2
    have e : mainSum l1.Axis (l1.children.take j) = wsum (sizeAt l0.Axis w g) l1.Position.First j := by
      conv_lhs => rw [hg.struct.children_eq]
      rw [window_take _ _ _ _ _ (by omega), mainSum_window, hax]
    rw [e]
    have hmono := wsum_mono (sizeAt l0.Axis w g) l1.Position.First j m (by omega)
      (fun i h1 h2 => hs i (by omega) (by omega))
    omega)
  have hkept : l1.finTrim.2.2 = l1.children := by
    have : l1.finTrim.2.2 = l1.finSkip.2 := htrim.1
    rw [this, hsk2]
  have hsum : mainSum l1.Axis l1.children = l1.maxSize := by
    conv_lhs => rw [hg.struct.children_eq]
    rw [mainSum_window, hax, hms]
  have hsize : l1.finTrim.1 = -l1.Position.Offset + l1.maxSize := by
    have : l1.finTrim.1 = -l1.finSkip.1.Offset + mainSum l1.Axis l1.finSkip.2 := htrim.2
    rw [this, hsk1, hsk2, hsum]
  have hstart : l1.finStart + l1.maxSize = l1.vsize := by
    simp only [finStart, hste, true_and]
    rw [hsize, hsk1]
    split_ifs <;> omega
  have hpos : l1.finPlace.2 = l1.vsize := by
    have : l1.finPlace.2 = l1.finStart + mainSum l1.Axis l1.finTrim.2.2 := place_snd _ _ _ _ _ _
    rw [this, hkept, hsum, hstart]
  have hlastc : l1.children.getLast? = some (childAt w g (l0.len - 1)) := by
    rw [hg.struct.children_eq, window_getLast _ _ _ _ hn]
    congr 2
    omega
  refine ⟨l2, f, h1, ?_, ?_, ?_, ?_⟩
  · rw [hbe]
    simp only [finAtEnd, Bool.not_eq_false', Bool.and_eq_true, decide_eq_true_eq]
    rw [hkept, hsk1, hpos]
    exact ⟨i1, le_refl _⟩
  · rw [hch, hkept]; exact hlastc
  · rw [hfpos, hpos]
  · have hlc : l1.finTrim.2.2.getLast? = some (childAt w g (l0.len - 1)) := by
      rw [hkept]; exact hlastc
    obtain ⟨p, hp1, hp2⟩ := place_getLast l1.Axis l1.Alignment l1.vsize l1.finTrim.2.1
      l1.finTrim.2.2 l1.finStart _ hlc
    refine ⟨p, by rw [hpl]; exact hp1, ?_⟩
    have hp3 : axisMain l1.Axis p.offset + axisMain l1.Axis (childAt w g (l0.len - 1)).size =
        l1.finPlace.2 := hp2
    rw [hpos, hax] at hp3
    exact hp3

/-- The frame of a list pinned to its end whose `Position.First` is not negative. -/
theorem pinned_frame (w : ListElement κ) (l : LayoutList κ) (gtx : Context)
    (len : Int) (fuel : Nat) (hd : l.dir = iterateNone) (hste : l.ScrollToEnd = true)
    (hbe : l.Position.BeforeEnd = false) (hF : 0 ≤ l.Position.First) (hlen : 1 ≤ len)
    (hs : ∀ i, 0 ≤ i → i < len → 0 ≤ sizeAt l.Axis w (childContext l.Axis gtx) i)
    (hlast : 0 < sizeAt l.Axis w (childContext l.Axis gtx) (len - 1))
    (hV : 0 < (axisMainConstraint l.Axis gtx.Constraints).2) (hdelta : 0 ≤ gtx.delta)
    (hfuel : len.toNat ≤ fuel) :
    ∃ l2 f, Layout fuel l gtx len w = .ok (l2, f) ∧ l2.Position.BeforeEnd = false ∧
      f.children.getLast? = some (childAt w (childContext l.Axis gtx) (len - 1)) ∧
      f.pos = (axisMainConstraint l.Axis gtx.Constraints).2 ∧
      ∃ p, f.placed.getLast? = some p ∧
        axisMain l.Axis p.offset + sizeAt l.Axis w (childContext l.Axis gtx) (len - 1) =
          (axisMainConstraint l.Axis gtx.Constraints).2 := by
  have hinit := initOk_pinned l gtx len hste hbe
  have hstep : ∀ l1 : LayoutList κ, SameCore (l.initOk gtx len) l1 →
      l1.Position.First + (l1.children.length : Int) = l1.len →
      ((l1.children.length = 0 ∧ l1.Position.Offset = 0 ∧ l1.maxSize = 0) ∨
        (l1.maxSize - l1.Position.Offset = l1.vsize ∧ 0 < l1.children.length ∧
          l1.Position.Offset ≤ sizeAt l.Axis w (childContext l.Axis gtx) l1.Position.First ∧
          0 ≤ sizeAt l.Axis w (childContext l.Axis gtx) l1.Position.First)) →
      PinnedRun (sizeAt l.Axis w (childContext l.Axis gtx)) l1.next := by
    intro l1 hsame h1 h2
    refine pinned_next _ l1 ?_ ?_ ?_ h1 h2
    · rw [hsame.scrollDelta, hinit]; exact hdelta
    · rw [sameCore_vsize hsame, initOk_vsize]; exact hV
    · rw [hsame.len, initOk_len]; exact hlen
  obtain ⟨l1, tr, hg, hI, hd1, hL⟩ := Layout_run w l gtx len fuel
    (fun l1 _ => PinnedRun (sizeAt l.Axis w (childContext l.Axis gtx)) l1)
    hd hF (by omega) hfuel
    (by
      intro _
      refine hstep _ ⟨rfl, rfl, rfl, rfl, rfl, rfl⟩ ?_ (Or.inl ?_)
      · rw [hinit]; simp
      · rw [hinit]; simp)
    (by
      intro l1 tr hg hI hf _
      have := (hg.post.fwd hf).1
      have := hI.1
      omega)
    (by
      intro l1 tr hg hI hb _
      obtain ⟨b1, b2, b3⟩ := hg.post.bwd hb
      obtain ⟨i1, i2, _, _⟩ := hI
      have hax : l1.Axis = l.Axis := by rw [hg.same.axis, initOk_axis]
      have hl : l1.len = len := by rw [hg.same.len, initOk_len]
      have hs1 := hs (l1.Position.First - 1) (by omega) (by omega)
      refine hstep _ (sameCore_trans hg.same (sameCore_afterBackward _ _ l1)) ?_ (Or.inr ?_)
      · simp only [afterBackward, List.length_cons]; push_cast; omega
      · have hv : (afterBackward w (childContext l.Axis gtx) l1).vsize = l1.vsize := rfl
        rw [hv]
        simp only [afterBackward, List.length_cons, hax]
        refine ⟨by omega, by omega, by omega, hs1⟩)
  have hax0 : (l.initOk gtx len).Axis = l.Axis := initOk_axis l gtx len
  have hl0 : (l.initOk gtx len).len = len := initOk_len l gtx len
  obtain ⟨l2, f, h1, h2, h3, h4, p, h5, h6⟩ := layout_pinned hg hd1 tr
    (by rw [hax0, hl0]; exact hs) (by rw [hax0, hl0]; exact hlast)
    (by rw [hg.same.ste, hinit]; exact hste) (by rw [hax0]; exact hI)
  have hv : l1.vsize = (axisMainConstraint l.Axis gtx.Constraints).2 := by
    rw [sameCore_vsize hg.same, initOk_vsize]
  rw [hl0] at h3
  rw [hv] at h4
  rw [hax0, hl0, hv] at h6
  exact ⟨l2, f, by rw [hL]; exact h1, h2, h3, h4, p, h5, h6⟩

/-- Where a pinned list does stay pinned, drawn with its last item at the bottom: for a list with `ScrollToEnd` true and `Position.BeforeEnd` false, an item count of at
least 1, items of non-negative main axis size the last of which has positive size, and a
viewport main maximum `V > 0`, a `Layout` call with a scroll delta `≥ 0` does not depend
on the incoming `First` and `Offset`, returns with `Position.BeforeEnd` false, keeps the
item `len - 1` as the last child, and places it with its trailing edge at `V`. -/
theorem pinned_positive_last (w : ListElement κ) (l : LayoutList κ) (gtx : Context)
    (len : Int) (fuel : Nat) (hd : l.dir = iterateNone) (hste : l.ScrollToEnd = true)
    (hbe : l.Position.BeforeEnd = false) (hlen : 1 ≤ len)
    (hs : ∀ i, 0 ≤ i → i < len → 0 ≤ sizeAt l.Axis w (childContext l.Axis gtx) i)
    (hlast : 0 < sizeAt l.Axis w (childContext l.Axis gtx) (len - 1))
    (hV : 0 < (axisMainConstraint l.Axis gtx.Constraints).2) (hdelta : 0 ≤ gtx.delta)
    (hfuel : len.toNat ≤ fuel) :
    (∀ F O : Int, Layout fuel { l with Position := ⟨false, F, O⟩ } gtx len w =
      Layout fuel l gtx len w) ∧
    ∃ l2 f, Layout fuel l gtx len w = .ok (l2, f) ∧ l2.Position.BeforeEnd = false ∧
      f.children.getLast? = some (childAt w (childContext l.Axis gtx) (len - 1)) ∧
      f.pos = (axisMainConstraint l.Axis gtx.Constraints).2 ∧
      ∃ p, f.placed.getLast? = some p ∧
        axisMain l.Axis p.offset + sizeAt l.Axis w (childContext l.Axis gtx) (len - 1) =
          (axisMainConstraint l.Axis gtx.Constraints).2 := by
  have hany : ∀ F O : Int, Layout fuel { l with Position := ⟨false, F, O⟩ } gtx len w =
      Layout fuel l gtx len w := by
    intro F O
    apply Layout_of_init_eq
    rw [init_eq l gtx len hd, init_eq _ gtx len (by exact hd), initOk_pinned l gtx len hste hbe,
      initOk_pinned _ gtx len (by exact hste) rfl]
  refine ⟨hany, ?_⟩
  rw [← hany 0 0]
  exact pinned_frame w { l with Position := ⟨false, 0, 0⟩ } gtx len fuel hd hste rfl
    (le_refl _) hlen hs hlast hV hdelta hfuel

/-! ### The number of children built (C18) -/

theorem cross_axis_alignment_witness :
    (∀ i : Int, (0 ≤ exMiddle.Position.First → (0 : Int) ≤ 3 → 0 ≤ i ∧ i < 3) →
      0 ≤ axisCross exMiddle.Axis
        (exSizes [⟨10, 30⟩, ⟨20, 30⟩, ⟨15, 30⟩]
          (childContext exMiddle.Axis (exContext 100 0)) i).1.Size) ∧
    ((exMiddle.dir = iterateNone → 0 ≤ exMiddle.Position.First → (0 : Int) ≤ 3 →
        (3 : Int).toNat ≤ 3 →
        ∃ l2 f, Layout 3 exMiddle (exContext 100 0) 3
          (exSizes [⟨10, 30⟩, ⟨20, 30⟩, ⟨15, 30⟩]) = .ok (l2, f)) ∧
      ∀ l2 f, Layout 3 exMiddle (exContext 100 0) 3
          (exSizes [⟨10, 30⟩, ⟨20, 30⟩, ⟨15, 30⟩]) = .ok (l2, f) →
        (∀ c ∈ f.children,
          axisCross exMiddle.Axis c.size ≤ axisCross exMiddle.Axis f.dims.Size) ∧
        (f.children ≠ [] →
          ∃ c ∈ f.children,
            axisCross exMiddle.Axis c.size = axisCross exMiddle.Axis f.dims.Size) ∧
        (f.children = [] → axisCross exMiddle.Axis f.dims.Size = 0) ∧
        f.placed.map (fun p => axisCross exMiddle.Axis p.offset) =
          f.children.map (fun c =>
            match exMiddle.Alignment with
            | .Start => 0
            | .End => axisCross exMiddle.Axis f.dims.Size - axisCross exMiddle.Axis c.size
            | .Middle =>
              (axisCross exMiddle.Axis f.dims.Size - axisCross exMiddle.Axis c.size) / 2) ∧
        ∀ pc ∈ f.placed.zip f.children,
          0 ≤ axisCross exMiddle.Axis pc.1.offset ∧
          axisCross exMiddle.Axis pc.1.offset + axisCross exMiddle.Axis pc.2.size ≤
            axisCross exMiddle.Axis f.dims.Size) ∧
    crossOffsets exMiddle.Axis (Layout 3 exMiddle (exContext 100 0) 3
      (exSizes [⟨10, 30⟩, ⟨20, 30⟩, ⟨15, 30⟩])) = [5, 0, 2] :=
  ⟨fun i h => by
      obtain ⟨h1, h2⟩ := h (by decide) (by decide)
      obtain rfl | rfl | rfl : i = 0 ∨ i = 1 ∨ i = 2 := by omega
      all_goals decide,
    cross_axis_alignment (exSizes [⟨10, 30⟩, ⟨20, 30⟩, ⟨15, 30⟩]) exMiddle (exContext 100 0) 3 3
      (fun i h => by
        obtain ⟨h1, h2⟩ := h (by decide) (by decide)
        obtain rfl | rfl | rfl : i = 0 ∨ i = 1 ∨ i = 2 := by omega
        all_goals decide),
    by decide⟩

theorem protocol_misuse_fails_witness :
    exList.dir = iterateNone ∧
    ((exList.index = .error .indexBeforeNext ↔ exList.dir = iterateNone) ∧
      ((∃ i, exList.index = .ok i) ↔ exList.dir ≠ iterateNone) ∧
      (exList.end_ ⟨⟨10, 10⟩, 0⟩ 0 = .error .nextBeforeEnd ↔ exList.dir = iterateNone) ∧
      ((∃ l1, exList.end_ ⟨⟨10, 10⟩, 0⟩ 0 = .ok l1) ↔ exList.dir ≠ iterateNone) ∧
      (exList.init (exContext 50 0) 3 = .error .unfinishedChild ↔ exList.dir ≠ iterateNone) ∧
      ((∃ l1, exList.init (exContext 50 0) 3 = .ok l1) ↔ exList.dir = iterateNone) ∧
      (exList.layout [] = .error .unfinishedChild ↔ exList.dir ≠ iterateNone) ∧
      ((∃ r, exList.layout [] = .ok r) ↔ exList.dir = iterateNone) ∧
      (∀ l1, exList.end_ ⟨⟨10, 10⟩, 0⟩ 0 = .ok l1 → l1.dir = iterateNone)) :=
  ⟨rfl, protocol_misuse_fails exList (exContext 50 0) 3 ⟨⟨10, 10⟩, 0⟩ 0 []⟩

theorem no_hidden_state_witness :
    (exList.dir = iterateNone ∧ exDirty.dir = iterateNone ∧
      exDirty.Position = exList.Position ∧ exDirty.Axis = exList.Axis ∧
      exDirty.ScrollToEnd = exList.ScrollToEnd ∧ exDirty.Alignment = exList.Alignment ∧
      exDirty.children ≠ exList.children) ∧
    Layout 3 exDirty (exContext 50 7) 3 (exUniform 10) =
      Layout 3 exList (exContext 50 7) 3 (exUniform 10) :=
  ⟨⟨rfl, rfl, rfl, rfl, rfl, rfl, by decide⟩,
    no_hidden_state 3 exList exDirty (exContext 50 7) 3 (exUniform 10) rfl rfl rfl rfl rfl rfl⟩

theorem requested_indices_valid_witness :
    (exList.init (exContext 25 7) 5 = .ok (exList.initOk (exContext 25 7) 5) ∧
      0 ≤ exList.Position.First ∧ (0 : Int) ≤ 5) ∧
    ((∀ n : Nat, ∃ l1 tr, fillIter (exUniform 10) (childContext exList.Axis (exContext 25 7)) n
          (exList.initOk (exContext 25 7) 5).next = .ok (l1, tr) ∧
        (∀ i ∈ tr, 0 ≤ i ∧ i < 5) ∧
        (l1.more = true → ∃ i, l1.index = .ok i ∧ 0 ≤ i ∧ i < 5) ∧
        (l1.dir = iterateForward → l1.Position.First + (l1.children.length : Int) < 5) ∧
        (l1.dir = iterateBackward → 0 < l1.Position.First)) ∧
      (∀ fuel : Nat, (5 : Int).toNat ≤ fuel →
        ∃ l2 f, Layout fuel exList (exContext 25 7) 5 (exUniform 10) = .ok (l2, f) ∧
          ∀ i ∈ f.built, 0 ≤ i ∧ i < 5)) :=
  ⟨⟨rfl, by decide, by decide⟩,
    requested_indices_valid (exUniform 10) exList _ (exContext 25 7) 5 rfl (by decide)
      (by decide)⟩

theorem fill_loop_terminates_witness :
    (exList.init (exContext 25 7) 5 = .ok (exList.initOk (exContext 25 7) 5) ∧
      0 ≤ exList.Position.First ∧ (0 : Int) ≤ 5 ∧ (5 : Int).toNat ≤ 5) ∧
    ∃ l1 tr, fillLoop (exUniform 10) (childContext exList.Axis (exContext 25 7)) 5
        (exList.initOk (exContext 25 7) 5).next = .ok (l1, tr) ∧
      l1.dir = iterateNone ∧ tr.length ≤ (5 : Int).toNat ∧ tr.Nodup ∧
      ∃ l2 f, Layout 5 exList (exContext 25 7) 5 (exUniform 10) = .ok (l2, f) ∧ f.built = tr :=
  ⟨⟨rfl, by decide, by decide, by decide⟩,
    fill_loop_terminates (exUniform 10) exList _ (exContext 25 7) 5 5 rfl (by decide)
      (by decide) (by decide)⟩

/-! ### Two frames in succession without scrolling (C5) -/

theorem wrap64_eq (x : Int) (h1 : minInt64 ≤ x) (h2 : x ≤ maxInt64) : wrap64 x = x := by
  simp only [minInt64, maxInt64] at h1 h2
  unfold wrap64
  omega

theorem wrap64_range (x : Int) : minInt64 ≤ wrap64 x ∧ wrap64 x ≤ maxInt64 := by
  simp only [minInt64, maxInt64]
  unfold wrap64
  omega

theorem nextDir64_eq (l : LayoutList κ)
    (h1 : wrap64 (l.maxSize - l.Position.Offset) = l.maxSize - l.Position.Offset)
    (h2 : wrap64 (l.maxSize - l.vsize) = l.maxSize - l.vsize)
    (h3 : wrap64 (l.Position.First + (l.children.length : Int)) =
      l.Position.First + (l.children.length : Int))
    (h4 : wrap64 (l.maxSize - (l.maxSize - l.vsize)) = l.maxSize - (l.maxSize - l.vsize))
    (h5 : wrap64 (l.maxSize - 0) = l.maxSize - 0) :
    l.nextDir64 = l.nextDir := by
  unfold nextDir64 nextDir
  simp only [vsize] at h2 h4
  simp only [h1, h2, h3]
  split_ifs <;> simp_all
  omega

theorem next64_eq (l : LayoutList κ) (hpin : l.scrollToEnd = false)
    (h : l.nextDir64 = l.nextDir) : l.next64 = l.next := by
  unfold next64 next
  rw [h, nextDir_eq]
  simp only [scrollToEnd] at hpin
  simp [scrollToEnd, hpin]

/-- The sum of a window inside the list is between 0 and the total size. -/
theorem window_sum_range {s : Int → Int} {len V : Int} (R : InRange s len V)
    (F : Int) (n : Nat) (hF : 0 ≤ F) (hn : F + (n : Int) ≤ len) :
    0 ≤ wsum s F n ∧ wsum s F n ≤ wsum s 0 len.toNat := by
  constructor
  · exact wsum_nonneg s F n (fun i h1 h2 => R.sizes i (by omega) (by omega))
  · exact wsum_le_total s len.toNat
      (fun i h1 h2 => R.sizes i h1 (by have := R.len_nonneg; omega)) F n hF
      (by have := R.len_nonneg; omega)

theorem nextDir64_of_fits {s : Int → Int} {len V : Int} (R : InRange s len V)
    (l : LayoutList κ) (hF : 0 ≤ l.Position.First)
    (hn : l.Position.First + (l.children.length : Int) ≤ len)
    (hms : l.maxSize = wsum s l.Position.First l.children.length) (hv : l.vsize = V)
    (h : Fits l) :
    l.nextDir64 = l.nextDir := by
  obtain ⟨_, h1, h2, h3⟩ := h
  obtain ⟨a1, a2⟩ := window_sum_range R _ _ hF hn
  rw [← hms] at a1 a2
  have b1 := R.view
  have b2 := R.total
  have b7 := R.len_fit
  have c1 : minInt64 = -9223372036854775808 := rfl
  have c2 : maxInt64 = 9223372036854775807 := rfl
  apply nextDir64_eq <;> apply wrap64_eq <;> omega

theorem offNext_fits {s : Int → Int} {len V : Int} (R : InRange s len V)
    (l : LayoutList κ) (hF : 0 ≤ l.Position.First)
    (hn : l.Position.First + (l.children.length : Int) ≤ len)
    (hms : l.maxSize = wsum s l.Position.First l.children.length) (hv : l.vsize = V)
    (h : Fits l) : Fits l.next := by
  obtain ⟨hp, h1, h2, h3⟩ := h
  obtain ⟨a1, a2⟩ := window_sum_range R _ _ hF hn
  rw [← hms] at a1 a2
  have b1 := R.view
  have b2 := R.total
  have c1 : minInt64 = -9223372036854775808 := rfl
  have c2 : maxInt64 = 9223372036854775807 := rfl
  rw [next_of_not_pinned l hp]
  have hm : l.next1.maxSize = l.maxSize := rfl
  refine ⟨by simpa [next1, scrollToEnd] using hp, ?_, ?_, ?_⟩
  · simp only [next1, offNext]
    split_ifs <;> omega
  · simp only [next1, offNext]
    split_ifs <;> omega
  · rw [hm]
    simp only [next1, offNext]
    split_ifs <;> omega

theorem fillStep64_forward (w : ListElement κ) (g : Context) (l : LayoutList κ)
    (h : l.dir = iterateForward)
    (h1 : wrap64 (l.Position.First + (l.children.length : Int)) =
      l.Position.First + (l.children.length : Int))
    (h2 : wrap64 (l.maxSize +
        sizeAt l.Axis w g (l.Position.First + (l.children.length : Int))) =
      l.maxSize + sizeAt l.Axis w g (l.Position.First + (l.children.length : Int)))
    (h3 : (afterForward w g l).next64 = (afterForward w g l).next) :
    fillStep64 w g l = .ok ((afterForward w g l).next,
      l.Position.First + (l.children.length : Int)) := by
  rw [← h3]
  simp only [sizeAt] at h2
  simp [fillStep64, index64, end64, h, afterForward, sizeAt, childAt, h1, h2]

theorem fillStep64_backward (w : ListElement κ) (g : Context) (l : LayoutList κ)
    (h : l.dir = iterateBackward)
    (h1 : wrap64 (l.Position.First - 1) = l.Position.First - 1)
    (h2 : wrap64 (l.maxSize + sizeAt l.Axis w g (l.Position.First - 1)) =
      l.maxSize + sizeAt l.Axis w g (l.Position.First - 1))
    (h4 : wrap64 (l.Position.Offset + sizeAt l.Axis w g (l.Position.First - 1)) =
      l.Position.Offset + sizeAt l.Axis w g (l.Position.First - 1))
    (h3 : (afterBackward w g l).next64 = (afterBackward w g l).next) :
    fillStep64 w g l = .ok ((afterBackward w g l).next, l.Position.First - 1) := by
  rw [← h3]
  simp only [sizeAt] at h2 h4
  simp [fillStep64, index64, end64, h, afterBackward, sizeAt, childAt, h1, h2, h4]

/-- One round of the fill loop of a list that fits the range: the round on 64 bit integers
is the round on mathematical integers, and the list that it leaves fits the range. -/
theorem fits_step {w : ListElement κ} {g : Context} {l0 l : LayoutList κ}
    {V : Int} (R : InRange (sizeAt l0.Axis w g) l0.len V) (hv : l0.vsize = V)
    (hg : Good w g l0 l) (hfit : Fits l) (hm : l.more = true) :
    ∃ l1 i, fillStep w g l = .ok (l1, i) ∧ fillStep64 w g l = .ok (l1, i) ∧
      Good w g l0 l1 ∧ Fits l1 := by
  obtain ⟨hp, f1, f2, f3⟩ := hfit
  have hax : l.Axis = l0.Axis := hg.same.axis
  have hl : l.len = l0.len := hg.same.len
  have hvl : l.vsize = V := by rw [sameCore_vsize hg.same, hv]
  have hf := hg.struct.first_nonneg
  have hb := hg.struct.last_le
  have b1 := R.view
  have b2 := R.total
  have b7 := R.len_fit
  have b8 := R.len_nonneg
  have c1 : minInt64 = -9223372036854775808 := rfl
  have c2 : maxInt64 = 9223372036854775807 := rfl
  rcases more_cases l hm with hd | hd
  · obtain ⟨p1, p2⟩ := hg.post.fwd hd
    have hst := struct_afterForward hg.struct p1
    have hsame := sameCore_trans hg.same (sameCore_afterForward w g l)
    have hg1 : Good w g l0 (afterForward w g l).next := good_next hsame hst
    have hms := hst.maxSize_eq
    rw [hsame.axis] at hms
    obtain ⟨a1, a2⟩ := window_sum_range R _ _ hst.first_nonneg
      (by rw [← hsame.len]; exact hst.last_le)
    rw [← hms] at a1 a2
    have e : (afterForward w g l).maxSize = l.maxSize +
        sizeAt l.Axis w g (l.Position.First + (l.children.length : Int)) := rfl
    obtain ⟨a3, a4⟩ := window_sum_range R (l.Position.First + (l.children.length : Int)) 1
      (by omega) (by omega)
    simp only [wsum, add_zero, zero_add, Nat.cast_zero] at a3 a4
    rw [hax] at e
    have hpre : Fits (afterForward w g l) :=
      ⟨hp, f1, f2, by
        have eo : (afterForward w g l).Position.Offset = l.Position.Offset := rfl
        rw [e, eo]
        omega⟩
    have hfit1 := offNext_fits R (afterForward w g l) hst.first_nonneg
      (by rw [← hsame.len]; exact hst.last_le) hms
      (by rw [sameCore_vsize hsame, hv]) hpre
    have hnd := nextDir64_of_fits R (afterForward w g l) hst.first_nonneg
      (by rw [← hsame.len]; exact hst.last_le) hms
      (by rw [sameCore_vsize hsame, hv]) hpre
    refine ⟨_, _, fillStep_forward w g l hd, ?_, hg1, hfit1⟩
    apply fillStep64_forward w g l hd
    · apply wrap64_eq <;> omega
    · rw [hax]; apply wrap64_eq <;> omega
    · exact next64_eq _ hp hnd
  · obtain ⟨p1, p2, p3⟩ := hg.post.bwd hd
    have hst := struct_afterBackward hg.struct p1
    have hsame := sameCore_trans hg.same (sameCore_afterBackward w g l)
    have hg1 : Good w g l0 (afterBackward w g l).next := good_next hsame hst
    have hms := hst.maxSize_eq
    rw [hsame.axis] at hms
    have hs1 := R.sizes (l.Position.First - 1) (by omega) (by omega)
    obtain ⟨a1, a2⟩ := window_sum_range R _ _ hst.first_nonneg
      (by rw [← hsame.len]; exact hst.last_le)
    rw [← hms] at a1 a2
    have e : (afterBackward w g l).maxSize = l.maxSize +
        sizeAt l.Axis w g (l.Position.First - 1) := rfl
    have e2 : (afterBackward w g l).Position.Offset = l.Position.Offset +
        sizeAt l.Axis w g (l.Position.First - 1) := rfl
    obtain ⟨a3, a4⟩ := window_sum_range R (l.Position.First - 1) 1 (by omega) (by omega)
    simp only [wsum, add_zero, zero_add, Nat.cast_zero] at a3 a4
    rw [hax] at e e2
    have hpre : Fits (afterBackward w g l) :=
      ⟨by simpa [afterBackward, scrollToEnd] using hp, by rw [e2]; omega, by rw [e2]; omega,
        by rw [e, e2]; omega⟩
    have hfit1 := offNext_fits R (afterBackward w g l) hst.first_nonneg
      (by rw [← hsame.len]; exact hst.last_le) hms
      (by rw [sameCore_vsize hsame, hv]) hpre
    have hnd := nextDir64_of_fits R (afterBackward w g l) hst.first_nonneg
      (by rw [← hsame.len]; exact hst.last_le) hms
      (by rw [sameCore_vsize hsame, hv]) hpre
    refine ⟨_, _, fillStep_backward w g l hd, ?_, hg1, hfit1⟩
    apply fillStep64_backward w g l hd
    · apply wrap64_eq <;> omega
    · rw [hax]; apply wrap64_eq <;> omega
    · rw [hax]; apply wrap64_eq <;> omega
    · exact next64_eq _ hpre.1 hnd

/-- The fill loop of a list that fits the range runs on 64 bit integers as it does on
mathematical integers. -/
theorem fillIter64_eq {w : ListElement κ} {g : Context} {l0 : LayoutList κ}
    {V : Int} (R : InRange (sizeAt l0.Axis w g) l0.len V) (hv : l0.vsize = V) :
    ∀ (n : Nat) (l : LayoutList κ), Good w g l0 l → Fits l →
      fillIter64 w g n l = fillIter w g n l := by
  intro n
  induction n with
  | zero => intro l _ _; rfl
  | succ n ih =>
    intro l hg hfit
    by_cases hm : l.more = true
    · obtain ⟨l1, i, h1, h2, hg1, hfit1⟩ := fits_step R hv hg hfit hm
      simp only [fillIter64, fillIter, hm, if_true, h1, h2, ih l1 hg1 hfit1]
    · have hm1 : l.more = false := by simpa using hm
      simp [fillIter64, fillIter, hm1]

theorem skipInvisible64_eq (a : GioLayout.Axis) (p : GioLayout.Position)
    (cs : List (scrollChild κ)) (hnn : ∀ c ∈ cs, 0 ≤ axisMain a c.size)
    (hO : p.Offset ≤ maxInt64) (hF : minInt64 ≤ p.First)
    (hn : p.First + (cs.length : Int) ≤ maxInt64) :
    skipInvisible64 a p cs = skipInvisible a p cs := by
  have c1 : minInt64 = -9223372036854775808 := rfl
  have c2 : maxInt64 = 9223372036854775807 := rfl
  induction cs generalizing p with
  | nil => rfl
  | cons c cs ih =>
    by_cases hc : p.Offset ≤ axisMain a c.size
    · simp [skipInvisible64, skipInvisible, hc]
    · have h0 := hnn c (by simp)
      simp only [List.length_cons] at hn
      push_cast at hn
      have e1 : wrap64 (p.First + 1) = p.First + 1 := by apply wrap64_eq <;> omega
      have e2 : wrap64 (p.Offset - axisMain a c.size) = p.Offset - axisMain a c.size := by
        apply wrap64_eq <;> omega
      simp only [skipInvisible64, skipInvisible, hc, if_false, e1, e2]
      apply ih
      · intro c1 hc1; exact hnn c1 (by simp [hc1])
      · show p.Offset - axisMain a c.size ≤ maxInt64
        omega
      · show minInt64 ≤ p.First + 1
        omega
      · show p.First + 1 + (cs.length : Int) ≤ maxInt64
        omega

theorem trimTrailing64_eq (a : GioLayout.Axis) (V size mc : Int) (cs : List (scrollChild κ))
    (hnn : ∀ c ∈ cs, 0 ≤ axisMain a c.size) (h1 : minInt64 ≤ size)
    (h2 : size + mainSum a cs ≤ maxInt64) :
    trimTrailing64 a V size mc cs = trimTrailing a V size mc cs := by
  have c1 : minInt64 = -9223372036854775808 := rfl
  have c2 : maxInt64 = 9223372036854775807 := rfl
  induction cs generalizing size mc with
  | nil => rfl
  | cons c cs ih =>
    have h0 := hnn c (by simp)
    have h3 := mainSum_nonneg a cs (fun c1 hc1 => hnn c1 (by simp [hc1]))
    rw [mainSum_cons] at h2
    have e1 : wrap64 (size + axisMain a c.size) = size + axisMain a c.size := by
      apply wrap64_eq <;> omega
    simp only [trimTrailing64, trimTrailing, e1]
    rw [ih _ _ (fun c1 hc1 => hnn c1 (by simp [hc1])) (by omega) (by omega)]

theorem place64_snd (a : GioLayout.Axis) (al : GioLayout.Alignment) (V mc pos : Int)
    (cs : List (scrollChild κ)) (hnn : ∀ c ∈ cs, 0 ≤ axisMain a c.size)
    (h1 : minInt64 ≤ pos) (h2 : pos + mainSum a cs ≤ maxInt64) :
    (place64 a al V mc pos cs).2 = (place a al V mc pos cs).2 := by
  have c1 : minInt64 = -9223372036854775808 := rfl
  have c2 : maxInt64 = 9223372036854775807 := rfl
  induction cs generalizing pos with
  | nil => rfl
  | cons c cs ih =>
    have h0 := hnn c (by simp)
    have h3 := mainSum_nonneg a cs (fun c1 hc1 => hnn c1 (by simp [hc1]))
    rw [mainSum_cons] at h2
    have e1 : wrap64 (pos + axisMain a c.size) = pos + axisMain a c.size := by
      apply wrap64_eq <;> omega
    simp only [place64, place, e1]
    exact ih _ (fun c1 hc1 => hnn c1 (by simp [hc1])) (by omega) (by omega)

/-- The finalizer on 64 bit integers returns what the finalizer on mathematical integers
returns, but for the cross axis arithmetic of the placed children, when the offset and
the sizes fit the range. -/
theorem layout64_eq (l : LayoutList κ) (built : List Int) (hd : l.dir = iterateNone)
    (hnn : ∀ c ∈ l.children, 0 ≤ axisMain l.Axis c.size)
    (hO : 0 ≤ l.Position.Offset) (hV : 0 ≤ l.vsize)
    (hOV : l.Position.Offset + l.vsize ≤ maxInt64)
    (hms : mainSum l.Axis l.children ≤ maxInt64)
    (hF : 0 ≤ l.Position.First)
    (hn : l.Position.First + (l.children.length : Int) ≤ maxInt64) :
    l.layout64 built =
      match l.layout built with
      | .ok (l2, f) => .ok (l2, { f with placed :=
          (place64 l.Axis l.Alignment l.vsize l.finTrim.2.1 l.finStart l.finTrim.2.2).1 })
      | .error e => .error e := by
  have c1 : minInt64 = -9223372036854775808 := rfl
  have c2 : maxInt64 = 9223372036854775807 := rfl
  have e : l.more = false := by simp [more, hd]
  obtain ⟨k, hk, hdrop, hsk, _, hoff⟩ := skipInvisible_spec l.Axis l.Position l.children
  obtain ⟨o1, _⟩ := hoff hnn hO
  have hO1 : l.finSkip.1.Offset ≤ l.Position.Offset := by
    have h1 : l.finSkip.1 = _ := hsk
    have h2 := mainSum_nonneg l.Axis (l.children.take k)
      (fun c hc => hnn c (List.mem_of_mem_take hc))
    rw [h1]
    show l.Position.Offset - _ ≤ _
    omega
  have hO0 : 0 ≤ l.finSkip.1.Offset := o1
  have hF1 : l.finSkip.1.First = l.Position.First + (k : Int) := by
    have h1 : l.finSkip.1 = _ := hsk
    rw [h1]
  have hnn2 : ∀ c ∈ l.finSkip.2, 0 ≤ axisMain l.Axis c.size := by
    intro c hc
    have h1 : l.finSkip.2 = l.children.drop k := hdrop
    rw [h1] at hc
    exact hnn c (List.mem_of_mem_drop hc)
  have hsum2 : mainSum l.Axis l.finSkip.2 ≤ mainSum l.Axis l.children := by
    have h1 : l.finSkip.2 = l.children.drop k := hdrop
    have h2 := mainSum_nonneg l.Axis (l.children.take k)
      (fun c hc => hnn c (List.mem_of_mem_take hc))
    have h3 : mainSum l.Axis l.children =
        mainSum l.Axis (l.children.take k) + mainSum l.Axis (l.children.drop k) := by
      conv_lhs => rw [← List.take_append_drop k l.children]
      simp [mainSum]
    rw [h1]
    omega
  obtain ⟨m, hm, htake, _, hsize, _, _⟩ :=
    trimTrailing_spec l.Axis l.vsize (-l.finSkip.1.Offset) 0 l.finSkip.2
  have hkept : l.finTrim.2.2 = l.finSkip.2.take m := htake
  have hsz : l.finTrim.1 = -l.finSkip.1.Offset + mainSum l.Axis l.finTrim.2.2 := by
    rw [hkept]; exact hsize
  have hnn3 : ∀ c ∈ l.finTrim.2.2, 0 ≤ axisMain l.Axis c.size := by
    intro c hc
    rw [hkept] at hc
    exact hnn2 c (List.mem_of_mem_take hc)
  have hsum3 : mainSum l.Axis l.finTrim.2.2 ≤ mainSum l.Axis l.finSkip.2 := by
    rw [hkept]; exact mainSum_take_le _ _ hnn2 _
  have hsum0 := mainSum_nonneg l.Axis l.finTrim.2.2 hnn3
  have hlen3 : (l.finTrim.2.2.length : Int) + (k : Int) ≤ (l.children.length : Int) := by
    have h1 : l.finSkip.2 = l.children.drop k := hdrop
    have h2 : l.finTrim.2.2.length ≤ l.finSkip.2.length := by
      rw [hkept, List.length_take]; exact Nat.min_le_right _ _
    rw [h1, List.length_drop] at h2
    omega
  -- the single operations
  have e_sk : skipInvisible64 l.Axis l.Position l.children = l.finSkip :=
    skipInvisible64_eq _ _ _ hnn (by omega) (by omega) hn
  have e_neg : wrap64 (-l.finSkip.1.Offset) = -l.finSkip.1.Offset := by
    apply wrap64_eq <;> omega
  have e_tt : trimTrailing64 l.Axis l.vsize (-l.finSkip.1.Offset) 0 l.finSkip.2 = l.finTrim :=
    trimTrailing64_eq _ _ _ _ _ hnn2 (by omega) (by omega)
  have e_space : wrap64 (l.vsize - l.finTrim.1) = l.vsize - l.finTrim.1 := by
    apply wrap64_eq <;> omega
  have e_plus : wrap64 (-l.finSkip.1.Offset + (l.vsize - l.finTrim.1)) =
      -l.finSkip.1.Offset + (l.vsize - l.finTrim.1) := by
    apply wrap64_eq <;> omega
  have e_start : (if l.ScrollToEnd = true ∧ l.vsize - l.finTrim.1 > 0
      then wrap64 (-l.finSkip.1.Offset + (l.vsize - l.finTrim.1))
      else -l.finSkip.1.Offset) = l.finStart := by
    rw [e_plus]; rfl
  have hstart : minInt64 ≤ l.finStart ∧ l.finStart + mainSum l.Axis l.finTrim.2.2 ≤ maxInt64 := by
    simp only [finStart]
    split_ifs <;> constructor <;> omega
  have e_pl : (place64 l.Axis l.Alignment l.vsize l.finTrim.2.1 l.finStart l.finTrim.2.2).2 =
      l.finPlace.2 :=
    place64_snd _ _ _ _ _ _ hnn3 hstart.1 hstart.2
  have e_end : wrap64 (l.finSkip.1.First + (l.finTrim.2.2.length : Int)) =
      l.finSkip.1.First + (l.finTrim.2.2.length : Int) := by
    apply wrap64_eq <;> omega
  unfold layout64 layout
  rw [if_neg (by simp [e]), if_neg (by simp [e])]
  simp only []
  have v : (axisMainConstraint l.Axis l.cs).2 = l.vsize := rfl
  rw [v, e_sk]
  simp only [v, e_neg, e_tt, e_space, e_start, e_pl, e_end]
  rfl

theorem init64_eq (l : LayoutList κ) (gtx : Context) (len : Int)
    (h : wrap64 (l.Position.Offset + gtx.delta) = l.Position.Offset + gtx.delta) :
    l.init64 gtx len = l.init gtx len := by
  simp only [init64, init, update64, update, h]

theorem Layout64_eq (fuel : Nat) (l : LayoutList κ) (gtx : Context) (len : Int)
    (w : ListElement κ) (h : l.init64 gtx len = .ok (l.initOk gtx len)) :
    Layout64 fuel l gtx len w =
      match fillLoop64 w (childContext l.Axis gtx) fuel (l.initOk gtx len).next64 with
      | .error e => .error e
      | .ok (l1, built) => l1.layout64 built := by
  have ha : (l.initOk gtx len).Axis = l.Axis := initOk_axis l gtx len
  simp only [Layout64, h, ha, childContext]

/-- A frame of a list that is not pinned to its end, on 64 bit integers and on mathematical
integers: when the offset after the scroll, the total size of the items and the size of
the viewport fit the range, both return, with the same list, kept children, dimensions,
indices built, final `pos` and call of `scroll.Stop`. -/
theorem Layout64_agrees (w : ListElement κ) (l : LayoutList κ) (gtx : Context)
    (len : Int) (fuel : Nat) (hd : l.dir = iterateNone) (hpin : l.scrollToEnd = false)
    (hF : 0 ≤ l.Position.First) (hFl : l.Position.First ≤ len)
    (hs : ∀ i, 0 ≤ i → i < len → 0 ≤ sizeAt l.Axis w (childContext l.Axis gtx) i)
    (hV : 0 ≤ (axisMainConstraint l.Axis gtx.Constraints).2)
    (hlen : len ≤ maxInt64)
    (hTV : totalSize l.Axis w (childContext l.Axis gtx) len +
      (axisMainConstraint l.Axis gtx.Constraints).2 ≤ maxInt64)
    (hlo : minInt64 < l.Position.Offset + gtx.delta)
    (hhi : l.Position.Offset + gtx.delta ≤ maxInt64)
    (hfuel : len.toNat ≤ fuel) :
    ∃ l2 f f2, Layout fuel l gtx len w = .ok (l2, f) ∧
      Layout64 fuel l gtx len w = .ok (l2, f2) ∧ f2.dims = f.dims ∧ f2.stopped = f.stopped ∧
      f2.children = f.children ∧ f2.pos = f.pos ∧ f2.built = f.built := by
  have c1 : minInt64 = -9223372036854775808 := rfl
  have c2 : maxInt64 = 9223372036854775807 := rfl
  have hlen0 : 0 ≤ len := by omega
  have hT0 : 0 ≤ totalSize l.Axis w (childContext l.Axis gtx) len :=
    wsum_nonneg _ _ _ (fun i h1 h2 => hs i (by omega) (by omega))
  have hinit := initOk_of_not_pinned l gtx len hpin hFl
  have hv0 := initOk_vsize l gtx len
  -- the range of the sizes and of the offset in the frame
  have R : InRange (sizeAt (l.initOk gtx len).Axis w (childContext l.Axis gtx))
      (l.initOk gtx len).len (axisMainConstraint l.Axis gtx.Constraints).2 := by
    rw [initOk_axis, initOk_len]
    simp only [totalSize] at hTV
    exact ⟨hs, hlen0, hlen, hV, hTV⟩
  have hst := initOk_struct w (childContext l.Axis gtx) l gtx len hF hlen0
  have hfit0 : Fits (l.initOk gtx len) := by
    refine ⟨by rw [hinit]; exact hpin, ?_, ?_, ?_⟩
    · rw [hinit]; exact hlo
    · rw [hinit]; exact hhi
    · rw [hinit]
      show (0 : Int) - (l.Position.Offset + gtx.delta) ≤ maxInt64
      omega
  have hms0 := hst.maxSize_eq
  have hnd := nextDir64_of_fits R (l.initOk gtx len) hst.first_nonneg hst.last_le hms0 hv0
    hfit0
  have hnext : (l.initOk gtx len).next64 = (l.initOk gtx len).next :=
    next64_eq _ hfit0.1 hnd
  have hfit1 := offNext_fits R (l.initOk gtx len) hst.first_nonneg hst.last_le hms0 hv0 hfit0
  have hg0 : Good w (childContext l.Axis gtx) (l.initOk gtx len) (l.initOk gtx len).next :=
    good_next ⟨rfl, rfl, rfl, rfl, rfl, rfl⟩ hst
  -- the fill loop
  obtain ⟨l1, tr, hrun, hg, _, hdone⟩ := fillIter_enumerates w l gtx len hF hlen0 fuel
  have hd1 := hdone hfuel
  have hrun64 : fillIter64 w (childContext l.Axis gtx) fuel (l.initOk gtx len).next64 =
      .ok (l1, tr) := by
    rw [hnext, fillIter64_eq R hv0 fuel _ hg0 hfit1]
    exact hrun
  have hmore : l1.more = false := by simp [more, hd1]
  have hL : Layout fuel l gtx len w = l1.layout tr := by
    rw [Layout_eq fuel l gtx len w hd, fillLoop_of_fillIter _ _ _ _ _ _ hrun hd1]
  have hL64 : Layout64 fuel l gtx len w = l1.layout64 tr := by
    rw [Layout64_eq fuel l gtx len w
      (by rw [init64_eq l gtx len (by apply wrap64_eq <;> omega), init_eq l gtx len hd])]
    simp only [fillLoop64, hrun64, hmore]
    rfl
  -- the finalizer
  have hax : l1.Axis = l.Axis := by rw [hg.same.axis, initOk_axis]
  have hl1 : l1.len = len := by rw [hg.same.len, initOk_len]
  have hv1 : l1.vsize = (axisMainConstraint l.Axis gtx.Constraints).2 := by
    rw [sameCore_vsize hg.same, initOk_vsize]
  obtain ⟨n1, n2, n3⟩ := good_sizes hg (R.sizes)
  have hfin := hg.post.fin hd1
  have hb := hg.struct.last_le
  have hf := hg.struct.first_nonneg
  obtain ⟨a1, a2⟩ := window_sum_range R _ _ hf (by rw [← hg.same.len]; exact hb)
  rw [initOk_axis, initOk_len] at a2
  have hms1 : l1.maxSize = wsum (sizeAt l.Axis w (childContext l.Axis gtx))
      l1.Position.First l1.children.length := by rw [hg.struct.maxSize_eq, hax]
  rw [← hms1] at a2
  have hTT : wsum (sizeAt l.Axis w (childContext l.Axis gtx)) 0 len.toNat =
      totalSize l.Axis w (childContext l.Axis gtx) len := rfl
  have h64 := layout64_eq l1 tr hd1 n1 hfin.1 (by rw [hv1]; exact hV)
    (by rw [hv1]; rw [hv1] at hfin; omega) (by rw [n2]; omega) hf (by omega)
  obtain ⟨l2, f, hlay, _⟩ := layout_ok l1 tr hd1
  rw [hlay] at h64
  exact ⟨l2, f, _, hL.trans hlay, hL64.trans h64, rfl, rfl, rfl, rfl, rfl⟩

/-! ### Claims that depend on the width of `int` (C6, C13, C16) -/

theorem wsum_ge_length (s : Int → Int) (F : Int) (n : Nat)
    (h : ∀ i, F ≤ i → i < F + (n : Int) → 0 < s i) : (n : Int) ≤ wsum s F n := by
  induction n with
  | zero => simp [wsum]
  | succ n ih =>
    rw [wsum]
    have h1 := ih (fun i h1 h2 => h i h1 (by push_cast; omega))
    have h2 := h (F + (n : Int)) (by omega) (by push_cast; omega)
    push_cast
    omega

/-- C13 (as amended). Out-of-range recovery: with no outstanding request `init` does not
fail; when `Position.First` is greater than the item count it leaves `Position.First` at
the item count and `Position.Offset` at 0, whatever the offset and the scroll delta; when
`Position.First` is at most the item count and the list is not pinned to the end it leaves
`Position.First` as it is and sets `Position.Offset` to the sum of the old offset and the
scroll delta wrapped to 64 bits, which is the sum itself whenever the sum is between the
least and the greatest `int`. -/
theorem init_recovers_out_of_range (l : LayoutList κ) (gtx : Context) (len : Int)
    (hd : l.dir = iterateNone) :
    (∃ l0, l.init64 gtx len = .ok l0) ∧
    (l.Position.First > len →
      ∃ l0, l.init64 gtx len = .ok l0 ∧ l0.Position.First = len ∧ l0.Position.Offset = 0) ∧
    (l.Position.First ≤ len → l.scrollToEnd = false →
      ∃ l0, l.init64 gtx len = .ok l0 ∧ l0.Position.First = l.Position.First ∧
        l0.Position.Offset = wrap64 (l.Position.Offset + gtx.delta) ∧
        (minInt64 ≤ l.Position.Offset + gtx.delta → l.Position.Offset + gtx.delta ≤ maxInt64 →
          l0.Position.Offset = l.Position.Offset + gtx.delta)) := by
  have hm : l.more = false := by simp [more, hd]
  refine ⟨?_, ?_, ?_⟩
  · simp only [init64, hm]
    simp only [Bool.false_eq_true, if_false]
    split_ifs
    · exact ⟨_, rfl⟩
    · exact ⟨_, rfl⟩
  · intro h
    simp only [init64, hm]
    simp only [Bool.false_eq_true, if_false]
    rw [if_pos (by simp [update64]; right; exact h)]
    exact ⟨_, rfl, rfl, rfl⟩
  · intro h hp
    simp only [init64, hm]
    simp only [Bool.false_eq_true, if_false]
    have hp2 : (l.ScrollToEnd && !l.Position.BeforeEnd) = false := hp
    rw [if_neg (by
      simp only [update64, scrollToEnd, hp2, Bool.false_or, decide_eq_true_eq]
      omega)]
    exact ⟨_, rfl, rfl, rfl, fun h1 h2 => wrap64_eq _ h1 h2⟩

/-- C16 (as amended). The absolute scroll position moves by the delta, clamped to the
scrollable range, wherever the 64 bit integers of the code do not overflow: for a list
that is not pinned to its end, starts at a position with `0 ≤ First ≤ len`, has items of
non-negative main axis sizes of total `T` and a viewport of main axis maximum `V ≥ 0`, with
`len ≤ maxInt64`, `T + V ≤ maxInt64` and `minInt64 < Offset + d ≤ maxInt64`, a `Layout`
call with scroll delta `d` returns and leaves the position at the absolute position
`min (max (abs + d) 0) (max (T - V) 0)`, where `abs` is the absolute position at the
start. -/
theorem scroll_position_clamped (w : ListElement κ) (l : LayoutList κ) (gtx : Context)
    (len : Int) (fuel : Nat) (hd : l.dir = iterateNone) (hpin : l.scrollToEnd = false)
    (hF : 0 ≤ l.Position.First) (hFl : l.Position.First ≤ len)
    (hs : ∀ i, 0 ≤ i → i < len → 0 ≤ sizeAt l.Axis w (childContext l.Axis gtx) i)
    (hV : 0 ≤ (axisMainConstraint l.Axis gtx.Constraints).2)
    (hlen : len ≤ maxInt64)
    (hTV : totalSize l.Axis w (childContext l.Axis gtx) len +
      (axisMainConstraint l.Axis gtx.Constraints).2 ≤ maxInt64)
    (hlo : minInt64 < l.Position.Offset + gtx.delta)
    (hhi : l.Position.Offset + gtx.delta ≤ maxInt64)
    (hfuel : len.toNat ≤ fuel) :
    ∃ l2 f, Layout64 fuel l gtx len w = .ok (l2, f) ∧
      absPos (sizeAt l.Axis w (childContext l.Axis gtx)) l2.Position =
        min (max (absPos (sizeAt l.Axis w (childContext l.Axis gtx)) l.Position + gtx.delta) 0)
          (max (totalSize l.Axis w (childContext l.Axis gtx) len -
            (axisMainConstraint l.Axis gtx.Constraints).2) 0) := by
  obtain ⟨l2, f, f2, h1, h2, _⟩ := Layout64_agrees w l gtx len fuel hd hpin hF hFl hs hV hlen
    hTV hlo hhi hfuel
  obtain ⟨l3, f3, h3, h4⟩ := absPos_clamped w l gtx len fuel hd hpin hF hFl hs hfuel
  rw [h1] at h3
  cases h3
  exact ⟨l2, f2, h2, h4⟩

/-- C6 (as amended). Monotone scroll clamp: for a list whose items all have positive main
axis size and whose total size `T` is at least the main axis maximum `V` of the viewport,
with `V > 0`, or `V = 0` and `First < len`, starting from a position with
`0 ≤ First ≤ len` and `Offset ≥ 0` that is not pinned to the end, a `Layout` call with a
scroll delta `d ≥ T` for which `Offset + d` and `T + V` do not overflow the 64 bit
integers of the code returns with `Position.BeforeEnd = false`, the last kept child is
item `len - 1`, and the running main axis position after it is `V`. -/
theorem monotone_scroll_clamp (w : ListElement κ) (l : LayoutList κ) (gtx : Context)
    (len : Int) (fuel : Nat) (hd : l.dir = iterateNone) (hpin : l.scrollToEnd = false)
    (hlen : 0 ≤ len)
    (hs : ∀ i, 0 ≤ i → i < len → 0 < sizeAt l.Axis w (childContext l.Axis gtx) i)
    (hTV : (axisMainConstraint l.Axis gtx.Constraints).2 ≤
      totalSize l.Axis w (childContext l.Axis gtx) len)
    (hF : 0 ≤ l.Position.First) (hFl : l.Position.First ≤ len) (hO : 0 ≤ l.Position.Offset)
    (hdelta : totalSize l.Axis w (childContext l.Axis gtx) len ≤ gtx.delta)
    (hV : 0 < (axisMainConstraint l.Axis gtx.Constraints).2 ∨
      ((axisMainConstraint l.Axis gtx.Constraints).2 = 0 ∧ l.Position.First < len))
    (hsum : totalSize l.Axis w (childContext l.Axis gtx) len +
      (axisMainConstraint l.Axis gtx.Constraints).2 ≤ maxInt64)
    (hhi : l.Position.Offset + gtx.delta ≤ maxInt64)
    (hfuel : len.toNat ≤ fuel) :
    ∃ l2 f, Layout64 fuel l gtx len w = .ok (l2, f) ∧ l2.Position.BeforeEnd = false ∧
      f.children.getLast? = some ⟨(w (childContext l.Axis gtx) (len - 1)).1.Size,
        (w (childContext l.Axis gtx) (len - 1)).2⟩ ∧
      f.pos = (axisMainConstraint l.Axis gtx.Constraints).2 := by
  have hcount := wsum_ge_length (sizeAt l.Axis w (childContext l.Axis gtx)) 0 len.toNat
    (fun i h1 h2 => hs i h1 (by omega))
  have hT : totalSize l.Axis w (childContext l.Axis gtx) len =
      wsum (sizeAt l.Axis w (childContext l.Axis gtx)) 0 len.toNat := rfl
  have hmax : maxInt64 = 9223372036854775807 := rfl
  have hmin : minInt64 = -9223372036854775808 := rfl
  obtain ⟨l2, f, f2, h1, h2, _, _, e3, e4, _⟩ := Layout64_agrees w l gtx len fuel hd hpin hF hFl
    (fun i h1 h2 => le_of_lt (hs i h1 h2)) (by omega) (by omega) hsum (by omega) hhi hfuel
  obtain ⟨l3, f3, h3, h4, h5, h6⟩ := pastEnd_clamp w l gtx len fuel hd hpin hlen hs hTV hF hFl
    hO hdelta hV hfuel
  rw [h1] at h3
  cases h3
  exact ⟨l2, f2, h2, h4, by rw [e3]; exact h5, by rw [e4]; exact h6⟩

/-! ### Concrete frames for the claims on scrolling, pinning and virtualization -/

/-- C6, counterexample. First input: three items of size 10 (total 30), a viewport of main
axis size 0, `ScrollToEnd` false, starting at `Position{First: 3, Offset: 0}` and scrolled
by 30: all assumptions of the claim hold, and `Layout` keeps no child at all, so no last
kept child exists. Second input: five items of size 10 (total 50), a viewport of main
axis size 20, `ScrollToEnd` false, starting at `Position{First: 0,
Offset: 9223372036854775807}` and scrolled by 50: all assumptions of the claim hold, the
sum of offset and delta overflows, and `Layout` keeps the items 0 and 1 and returns with
`Position.BeforeEnd` true. -/
theorem monotone_scroll_clamp_counterexample :
    ((∀ i : Int, 0 ≤ i → i < 3 → 0 < sizeAt (exListAt false false 3 0).Axis (exUniform 10)
        (childContext (exListAt false false 3 0).Axis (exContext 0 30)) i) ∧
      totalSize (exListAt false false 3 0).Axis (exUniform 10)
        (childContext (exListAt false false 3 0).Axis (exContext 0 30)) 3 = 30 ∧
      (axisMainConstraint (exListAt false false 3 0).Axis (exContext 0 30).Constraints).2 = 0 ∧
      (exListAt false false 3 0).scrollToEnd = false ∧ (exContext 0 30).delta = 30) ∧
    outcome (Layout64 3 (exListAt false false 3 0) (exContext 0 30) 3 (exUniform 10)) =
      some (⟨false, 3, 0⟩, []) ∧
    ((∀ i : Int, 0 ≤ i → i < 5 →
        0 < sizeAt (exListAt false false 0 9223372036854775807).Axis (exUniform 10)
          (childContext (exListAt false false 0 9223372036854775807).Axis
            (exContext 20 50)) i) ∧
      totalSize (exListAt false false 0 9223372036854775807).Axis (exUniform 10)
        (childContext (exListAt false false 0 9223372036854775807).Axis
          (exContext 20 50)) 5 = 50 ∧
      (axisMainConstraint (exListAt false false 0 9223372036854775807).Axis
        (exContext 20 50).Constraints).2 = 20 ∧
      (exListAt false false 0 9223372036854775807).scrollToEnd = false ∧
      0 ≤ (exListAt false false 0 9223372036854775807).Position.Offset ∧
      (exContext 20 50).delta = 50) ∧
    outcome (Layout64 5 (exListAt false false 0 9223372036854775807) (exContext 20 50) 5
      (exUniform 10)) = some (⟨true, 0, 0⟩, [0, 1]) :=
  ⟨⟨fun _ _ _ => (by decide : (0 : Int) < 10), by decide, by decide, by decide, rfl⟩,
    by decide,
    ⟨fun _ _ _ => (by decide : (0 : Int) < 10), by decide, by decide, by decide, by decide,
      rfl⟩,
    by decide⟩

theorem monotone_scroll_clamp_witness :
    (exList.dir = iterateNone ∧ exList.scrollToEnd = false ∧ (0 : Int) ≤ 3 ∧
      (∀ i : Int, 0 ≤ i → i < 3 →
        0 < sizeAt exList.Axis (exUniform 10) (childContext exList.Axis (exContext 20 30)) i) ∧
      (axisMainConstraint exList.Axis (exContext 20 30).Constraints).2 ≤
        totalSize exList.Axis (exUniform 10) (childContext exList.Axis (exContext 20 30)) 3 ∧
      0 ≤ exList.Position.First ∧ exList.Position.First ≤ 3 ∧ 0 ≤ exList.Position.Offset ∧
      totalSize exList.Axis (exUniform 10) (childContext exList.Axis (exContext 20 30)) 3 ≤
        (exContext 20 30).delta ∧
      (0 < (axisMainConstraint exList.Axis (exContext 20 30).Constraints).2 ∨
        ((axisMainConstraint exList.Axis (exContext 20 30).Constraints).2 = 0 ∧
          exList.Position.First < 3)) ∧
      totalSize exList.Axis (exUniform 10) (childContext exList.Axis (exContext 20 30)) 3 +
        (axisMainConstraint exList.Axis (exContext 20 30).Constraints).2 ≤ maxInt64 ∧
      exList.Position.Offset + (exContext 20 30).delta ≤ maxInt64 ∧
      (3 : Int).toNat ≤ 3) ∧
    (∃ l2 f, Layout64 3 exList (exContext 20 30) 3 (exUniform 10) = .ok (l2, f) ∧
      l2.Position.BeforeEnd = false ∧
      f.children.getLast? = some
        ⟨(exUniform 10 (childContext exList.Axis (exContext 20 30)) (3 - 1)).1.Size,
          (exUniform 10 (childContext exList.Axis (exContext 20 30)) (3 - 1)).2⟩ ∧
      f.pos = (axisMainConstraint exList.Axis (exContext 20 30).Constraints).2) ∧
    outcome (Layout64 3 exList (exContext 20 30) 3 (exUniform 10)) =
      some (⟨false, 0, 10⟩, [0, 1, 2]) :=
  ⟨⟨rfl, by decide, by decide, fun _ _ _ => (by decide : (0 : Int) < 10), by decide,
      by decide, by decide, by decide, by decide, Or.inl (by decide), by decide, by decide,
      by decide⟩,
    monotone_scroll_clamp (exUniform 10) exList (exContext 20 30) 3 3 rfl (by decide)
      (by decide) (fun _ _ _ => (by decide : (0 : Int) < 10)) (by decide) (by decide)
      (by decide) (by decide) (by decide) (Or.inl (by decide)) (by decide) (by decide)
      (by decide),
    by decide⟩

/-- C12, the code at a failing input. A pinned list (`ScrollToEnd` true,
`Position.BeforeEnd` false) of three items of main axis sizes 3, 3, 0 in a viewport of
main axis size 3, laid out with scroll delta 0: all assumptions of the claim hold, and
`Layout` keeps only the item 1 and returns with `Position.BeforeEnd` true, on unbounded
and on 64 bit integers alike; a second call with the same arguments finds the list no
longer pinned and leaves it so. -/
theorem pinned_list_unpins_itself :
    ((exListAt true false 0 0).ScrollToEnd = true ∧
      (exListAt true false 0 0).Position.BeforeEnd = false ∧ (1 : Int) ≤ 3 ∧
      (∀ i : Int, 0 ≤ i → i < 3 → 0 ≤ sizeAt (exListAt true false 0 0).Axis
        (exSizes [⟨3, 3⟩, ⟨3, 3⟩, ⟨0, 0⟩])
        (childContext (exListAt true false 0 0).Axis (exContext 3 0)) i) ∧
      0 ≤ (axisMainConstraint (exListAt true false 0 0).Axis (exContext 3 0).Constraints).2 ∧
      0 ≤ (exContext 3 0).delta) ∧
    outcome (Layout 3 (exListAt true false 0 0) (exContext 3 0) 3
      (exSizes [⟨3, 3⟩, ⟨3, 3⟩, ⟨0, 0⟩])) = some (⟨true, 1, 0⟩, [1]) ∧
    outcome (Layout64 3 (exListAt true false 0 0) (exContext 3 0) 3
      (exSizes [⟨3, 3⟩, ⟨3, 3⟩, ⟨0, 0⟩])) = some (⟨true, 1, 0⟩, [1]) ∧
    twice 3 (exListAt true false 0 0) (exContext 3 0) 3 (exSizes [⟨3, 3⟩, ⟨3, 3⟩, ⟨0, 0⟩]) =
      some ((⟨true, 1, 0⟩, ⟨3, 3⟩), (⟨true, 1, 0⟩, ⟨3, 3⟩)) :=
  ⟨⟨rfl, rfl, by decide,
      fun i h1 h2 => by
        obtain rfl | rfl | rfl : i = 0 ∨ i = 1 ∨ i = 2 := by omega
        all_goals decide,
      by decide, by decide⟩,
    by decide, by decide, by decide⟩

/-- C13, counterexample. A list that is not pinned to its end, with three items, at
`Position{First: 0, Offset: 9223372036854775807}` (the greatest `int`) and scrolled by 1:
`init` returns and leaves `Position.Offset` at -9223372036854775808, the least `int`,
which is not the sum of the old offset and the scroll delta. -/
theorem init_recovers_out_of_range_counterexample :
    ((exListAt false false 0 9223372036854775807).dir = iterateNone ∧
      (exListAt false false 0 9223372036854775807).Position.First ≤ 3 ∧
      (exListAt false false 0 9223372036854775807).scrollToEnd = false) ∧
    initPosition ((exListAt false false 0 9223372036854775807).init64 (exContext 50 1) 3) =
      some ⟨false, 0, -9223372036854775808⟩ ∧
    (-9223372036854775808 : Int) ≠
      (exListAt false false 0 9223372036854775807).Position.Offset + (exContext 50 1).delta :=
  ⟨⟨rfl, by decide, by decide⟩, by decide, by decide⟩

theorem init_recovers_out_of_range_witness :
    (exListAt false false 7 4).dir = iterateNone ∧
    ((∃ l0, (exListAt false false 7 4).init64 (exContext 50 3) 3 = .ok l0) ∧
      ((exListAt false false 7 4).Position.First > 3 →
        ∃ l0, (exListAt false false 7 4).init64 (exContext 50 3) 3 = .ok l0 ∧
          l0.Position.First = 3 ∧ l0.Position.Offset = 0) ∧
      ((exListAt false false 7 4).Position.First ≤ 3 →
        (exListAt false false 7 4).scrollToEnd = false →
        ∃ l0, (exListAt false false 7 4).init64 (exContext 50 3) 3 = .ok l0 ∧
          l0.Position.First = (exListAt false false 7 4).Position.First ∧
          l0.Position.Offset =
            wrap64 ((exListAt false false 7 4).Position.Offset + (exContext 50 3).delta) ∧
          (minInt64 ≤ (exListAt false false 7 4).Position.Offset + (exContext 50 3).delta →
            (exListAt false false 7 4).Position.Offset + (exContext 50 3).delta ≤ maxInt64 →
            l0.Position.Offset =
              (exListAt false false 7 4).Position.Offset + (exContext 50 3).delta))) ∧
    initPosition ((exListAt false false 7 4).init64 (exContext 50 3) 3) =
      some ⟨false, 3, 0⟩ ∧
    initPosition ((exListAt false false 2 4).init64 (exContext 50 3) 3) =
      some ⟨false, 2, 7⟩ :=
  ⟨rfl, init_recovers_out_of_range (exListAt false false 7 4) (exContext 50 3) 3 rfl,
    by decide, by decide⟩

/-- C16, counterexample. Five items of size 10 (total 50), a viewport of main axis size
20 and a list that is not pinned to its end. First input: `Position{First: 0,
Offset: 9223372036854775807}` scrolled by 1; the claim gives the absolute position 30 and
`Layout` ends at `Position{First: 0, Offset: 0}`, the absolute position 0. Second input:
`Position{First: 3, Offset: -9223372036854775808}` scrolled by 0; the claim gives the
absolute position 0 and `Layout` ends at `Position{First: 3, Offset: 0}`, the absolute
position 30. -/
theorem scroll_position_clamped_counterexample :
    ((exListAt false false 0 9223372036854775807).scrollToEnd = false ∧
      (exListAt false false 3 (-9223372036854775808)).scrollToEnd = false ∧
      (∀ i : Int, 0 ≤ i → i < 5 → 0 ≤ sizeAt Axis.Vertical (exUniform 10)
        (childContext Axis.Vertical (exContext 20 1)) i)) ∧
    (outcome (Layout64 5 (exListAt false false 0 9223372036854775807) (exContext 20 1) 5
        (exUniform 10)) = some (⟨true, 0, 0⟩, [0, 1]) ∧
      absPos (sizeAt Axis.Vertical (exUniform 10) (childContext Axis.Vertical (exContext 20 1)))
        ⟨true, 0, 0⟩ = 0 ∧
      min (max (absPos (sizeAt Axis.Vertical (exUniform 10)
            (childContext Axis.Vertical (exContext 20 1)))
          (exListAt false false 0 9223372036854775807).Position + (exContext 20 1).delta) 0)
        (max (totalSize Axis.Vertical (exUniform 10)
          (childContext Axis.Vertical (exContext 20 1)) 5 - 20) 0) = 30) ∧
    (outcome (Layout64 5 (exListAt false false 3 (-9223372036854775808)) (exContext 20 0) 5
        (exUniform 10)) = some (⟨false, 3, 0⟩, [3, 4]) ∧
      absPos (sizeAt Axis.Vertical (exUniform 10) (childContext Axis.Vertical (exContext 20 0)))
        ⟨false, 3, 0⟩ = 30 ∧
      min (max (absPos (sizeAt Axis.Vertical (exUniform 10)
            (childContext Axis.Vertical (exContext 20 0)))
          (exListAt false false 3 (-9223372036854775808)).Position + (exContext 20 0).delta) 0)
        (max (totalSize Axis.Vertical (exUniform 10)
          (childContext Axis.Vertical (exContext 20 0)) 5 - 20) 0) = 0) :=
  ⟨⟨by decide, by decide, fun _ _ _ => (by decide : (0 : Int) ≤ 10)⟩,
    ⟨by decide, by decide, by decide⟩, ⟨by decide, by decide, by decide⟩⟩

theorem scroll_position_clamped_witness :
    ((exListAt false false 1 2).dir = iterateNone ∧
      (exListAt false false 1 2).scrollToEnd = false ∧
      0 ≤ (exListAt false false 1 2).Position.First ∧
      (exListAt false false 1 2).Position.First ≤ 5 ∧
      (∀ i : Int, 0 ≤ i → i < 5 → 0 ≤ sizeAt (exListAt false false 1 2).Axis (exUniform 10)
        (childContext (exListAt false false 1 2).Axis (exContext 20 7)) i) ∧
      0 ≤ (axisMainConstraint (exListAt false false 1 2).Axis (exContext 20 7).Constraints).2 ∧
      (5 : Int) ≤ maxInt64 ∧
      totalSize (exListAt false false 1 2).Axis (exUniform 10)
          (childContext (exListAt false false 1 2).Axis (exContext 20 7)) 5 +
        (axisMainConstraint (exListAt false false 1 2).Axis (exContext 20 7).Constraints).2 ≤
          maxInt64 ∧
      minInt64 < (exListAt false false 1 2).Position.Offset + (exContext 20 7).delta ∧
      (exListAt false false 1 2).Position.Offset + (exContext 20 7).delta ≤ maxInt64 ∧
      (5 : Int).toNat ≤ 5) ∧
    (∃ l2 f, Layout64 5 (exListAt false false 1 2) (exContext 20 7) 5 (exUniform 10) =
        .ok (l2, f) ∧
      absPos (sizeAt (exListAt false false 1 2).Axis (exUniform 10)
          (childContext (exListAt false false 1 2).Axis (exContext 20 7))) l2.Position =
        min (max (absPos (sizeAt (exListAt false false 1 2).Axis (exUniform 10)
            (childContext (exListAt false false 1 2).Axis (exContext 20 7)))
            (exListAt false false 1 2).Position + (exContext 20 7).delta) 0)
          (max (totalSize (exListAt false false 1 2).Axis (exUniform 10)
              (childContext (exListAt false false 1 2).Axis (exContext 20 7)) 5 -
            (axisMainConstraint (exListAt false false 1 2).Axis
              (exContext 20 7).Constraints).2) 0)) ∧
    outcome (Layout64 5 (exListAt false false 1 2) (exContext 20 7) 5 (exUniform 10)) =
      some (⟨true, 1, 9⟩, [1, 2, 3]) :=
  ⟨⟨rfl, by decide, by decide, by decide, fun _ _ _ => (by decide : (0 : Int) ≤ 10),
      by decide, by decide, by decide, by decide, by decide, by decide⟩,
    scroll_position_clamped (exUniform 10) (exListAt false false 1 2) (exContext 20 7) 5 5 rfl
      (by decide) (by decide) (by decide) (fun _ _ _ => (by decide : (0 : Int) ≤ 10))
      (by decide) (by decide) (by decide) (by decide) (by decide) (by decide),
    by decide⟩

end LayoutList

end GioLayout
